import Mathlib

/-!
# Verification of the markdoc directory-mirroring engine

Shallow embedding of `sync_html` (and its inner `rsync` walk) from
`src/markdoc/cli/commands.py`.  The filesystem is modelled as a finite tree
of named entries; paths are lists of name components relative to the HTML
root (`config.html_dir`).  `os.path.normpath` is the identity on component
paths, so the normalisation on line 283 of the source is implicit here.
Per-entry filesystem failures (`IOError`, `OSError`, `shutil.Error`) are
modelled by an oracle that says which operations fail; the no-failure
oracle models a run in which every filesystem call succeeds.

The exclusion regex compiled on lines 187-213 is modelled as an abstract
predicate `exp : String -> Bool` on the strings the code hands to
`exp.match`: the code matches directory basenames with a trailing slash
appended during the copy walk (line 234), bare directory basenames during
the prune walk (line 294), and bare file basenames in both phases
(lines 257 and 320).
-/

namespace Markdoc

abbrev Name := String
abbrev Path := List String

/-- A filesystem tree: a regular file with its byte content, or a
directory with a list of named child entries. -/
inductive FSTree where
  | file (content : String) : FSTree
  | dir (entries : List (String × FSTree)) : FSTree
deriving Repr

abbrev Entries := List (String × FSTree)

/-- What sits at a path: a file (with contents) or a directory.  This is
the observable view used to state claims (kind and content, ignoring the
order of directory listings). -/
inductive Node where
  | file (content : String) : Node
  | dir : Node
deriving Repr, DecidableEq

/-- First entry with the given name in a directory listing. -/
def getEntry : Entries → Name → Option FSTree
  | [], _ => none
  | (m, t) :: es, n => if m = n then some t else getEntry es n

/-- Replace the first entry with the given name, or append a new entry. -/
def setEntry : Entries → Name → FSTree → Entries
  | [], n, t => [(n, t)]
  | (m, u) :: es, n, t => if m = n then (n, t) :: es else (m, u) :: setEntry es n t

/-- Resolve a path in a tree. -/
def lookupT : Path → FSTree → Option FSTree
  | [], t => some t
  | _ :: _, .file _ => none
  | n :: r, .dir es =>
    match getEntry es n with
    | some u => lookupT r u
    | none => none

/-- The observable node at a path. -/
def viewAt (p : Path) (t : FSTree) : Option Node :=
  match lookupT p t with
  | some (.file c) => some (.file c)
  | some (.dir _) => some .dir
  | none => none

/-- The kind at a path: `none` if absent, `some true` for a file,
`some false` for a directory. -/
def kindAt (p : Path) (t : FSTree) : Option Bool :=
  match lookupT p t with
  | some (.file _) => some true
  | some (.dir _) => some false
  | none => none

/-- `os.makedirs`: create the chain of directories down to the path,
creating missing components as empty directories.  Returns `none`
(the raised `OSError`) when a component of the path already exists as a
regular file.  Modelled as atomic: nothing is created on failure. -/
def mkdirsT : Path → FSTree → Option FSTree
  | [], .dir es => some (.dir es)
  | [], .file _ => none
  | _ :: _, .file _ => none
  | n :: r, .dir es =>
    match getEntry es n with
    | some u =>
      match mkdirsT r u with
      | some u2 => some (.dir (setEntry es n u2))
      | none => none
    | none =>
      match mkdirsT r (.dir []) with
      | some u2 => some (.dir (setEntry es n u2))
      | none => none

/-- Replace the subtree at an existing path (no effect if the path does
not resolve through directories). -/
def setNodeAt : Path → FSTree → FSTree → FSTree
  | [], new, _ => new
  | _ :: _, _, .file c => .file c
  | n :: r, new, .dir es =>
    match getEntry es n with
    | some u => .dir (setEntry es n (setNodeAt r new u))
    | none => .dir es

/-- Apply a function to the entry list of the directory at an existing
path (no effect if the path does not resolve to a directory). -/
def modifyDirAt : Path → (Entries → Entries) → FSTree → FSTree
  | [], f, .dir es => .dir (f es)
  | [], _, .file c => .file c
  | _ :: _, _, .file c => .file c
  | n :: r, f, .dir es =>
    match getEntry es n with
    | some u => .dir (setEntry es n (modifyDirAt r f u))
    | none => .dir es

/-- Path membership in a path list (`full_subdir not in filesystem`,
lines 294 and 320: the manifest is a plain list of paths and membership
is equality of normalised paths). -/
def pmem (p : Path) : List Path → Bool
  | [] => false
  | q :: l => if q = p then true else pmem p l

/-- The per-entry failure oracle: which filesystem operations raise an
`IOError` / `OSError` / `shutil.Error`.  `failMk` is keyed by the target
directory of an `os.makedirs` call, `failCopy` by the destination path of
a `shutil.copy2` call, `failDel` by the path handed to `os.remove` /
`os.rmdir`. -/
structure Oracle where
  failMk : Path → Bool
  failCopy : Path → Bool
  failDel : Path → Bool

/-- The oracle of a run in which every filesystem call succeeds. -/
def noFail : Oracle := ⟨fun _ => false, fun _ => false, fun _ => false⟩

/-- `shutil.copy2(dirname/filename, target)` (line 266).  When `target`
is a directory the file is placed under it, unless an entry of the same
name already exists as a directory (`IsADirectoryError`, returned as
`none`).  When `target` is itself a regular file, `copy2` overwrites that
file.  When `target` does not exist the call fails (unreachable in the
walk: the target was just created). -/
def copy2Model (tpath : Path) (n : Name) (c : String) (dest : FSTree) : Option FSTree :=
  match lookupT tpath dest with
  | some (.dir es) =>
    match getEntry es n with
    | some (.dir _) => none
    | _ => some (modifyDirAt tpath (fun es2 => setEntry es2 n (.file c)) dest)
  | some (.file _) => some (setNodeAt tpath (.file c) dest)
  | none => none

/-- The guarded per-file block of the copy walk (lines 258-271): ensure
the target directory exists (`os.makedirs` when `p.exists(target)` is
false), append the file's destination path to `copied_files`, then, when
not in walk-only mode, `shutil.copy2` the file.  Any raised error is
caught and logged (`log.warning("file copy failed: ...")`) and the walk
continues.  Returns (manifest additions, failure-log additions, new
destination tree).  Note the source's ordering: a `makedirs` failure
prevents the manifest append, while a `copy2` failure happens after it. -/
def copyOne (o : Oracle) (walkOnly : Bool) (tpath : Path) (n : Name) (c : String)
    (dest : FSTree) : List Path × List Path × FSTree :=
  let ensured : Option FSTree :=
    match lookupT tpath dest with
    | some _ => some dest
    | none => if o.failMk tpath then none else mkdirsT tpath dest
  match ensured with
  | none => ([], [tpath ++ [n]], dest)
  | some d1 =>
    if walkOnly then ([tpath ++ [n]], [], d1)
    else if o.failCopy (tpath ++ [n]) then ([tpath ++ [n]], [tpath ++ [n]], d1)
    else
      match copy2Model tpath n c d1 with
      | some d2 => ([tpath ++ [n]], [], d2)
      | none => ([tpath ++ [n]], [tpath ++ [n]], d1)

/-- The file loop of one visited source directory (lines 255-273): every
regular file whose basename does not match the exclusion regex - or is
literally `.htaccess` - goes through `copyOne`; matching files are
skipped. -/
def filesPass (o : Oracle) (exp : Name → Bool) (walkOnly : Bool) (tpath : Path) :
    Entries → FSTree → List Path × List Path × FSTree
  | [], d => ([], [], d)
  | (_, .dir _) :: es, d => filesPass o exp walkOnly tpath es d
  | (n, .file c) :: es, d =>
    if !(exp n) || n == ".htaccess" then
      let r1 := copyOne o walkOnly tpath n c d
      let r2 := filesPass o exp walkOnly tpath es r1.2.2
      (r1.1 ++ r2.1, r1.2.1 ++ r2.2.1, r2.2.2)
    else filesPass o exp walkOnly tpath es d

mutual
/-- One visited directory of the `rsync` walk (lines 229-273), with
`tpath` its destination path: the destination directory path is appended
to `copied_files` (line 252), the files are processed, then the walk
descends into the non-excluded subdirectories.  (`os.walk` runs the loop
body - subdirectory filtering and file copies - for a directory before
yielding its subdirectories.) -/
def rsyncDir (o : Oracle) (exp : Name → Bool) (walkOnly : Bool) (tpath : Path)
    (es : Entries) (d : FSTree) : List Path × List Path × FSTree :=
  let r1 := filesPass o exp walkOnly tpath es d
  let r2 := rsyncSubs o exp walkOnly tpath es r1.2.2
  (tpath :: (r1.1 ++ r2.1), r1.2.1 ++ r2.2.1, r2.2.2)

/-- The subdirectory filter and descent (lines 232-240): each
subdirectory basename is matched with a trailing separator appended
(`p.join(p.basename(subdirname), '')`, line 234); matching
subdirectories are removed from the walk and their whole subtree is
skipped. -/
def rsyncSubs (o : Oracle) (exp : Name → Bool) (walkOnly : Bool) (tpath : Path) :
    Entries → FSTree → List Path × List Path × FSTree
  | [], d => ([], [], d)
  | (_, .file _) :: es, d => rsyncSubs o exp walkOnly tpath es d
  | (n, .dir inner) :: es, d =>
    if exp (n ++ "/") then rsyncSubs o exp walkOnly tpath es d
    else
      let r1 := rsyncDir o exp walkOnly (tpath ++ [n]) inner d
      let r2 := rsyncSubs o exp walkOnly tpath es r1.2.2
      (r1.1 ++ r2.1, r1.2.1 ++ r2.2.1, r2.2.2)
end

/-- The mirror phase (lines 276-280): one `rsync` invocation per source
root, in list order, into the same destination; their `copied_files`
lists are concatenated into the merged manifest.  A root is a pair of
its `walk_only` flag and its entry list. -/
def mirror (o : Oracle) (exp : Name → Bool) :
    List (Bool × Entries) → FSTree → List Path × List Path × FSTree
  | [], d => ([], [], d)
  | (wo, es) :: roots, d =>
    let r1 := rsyncDir o exp wo [] es d
    let r2 := mirror o exp roots r1.2.2
    (r1.1 ++ r2.1, r1.2.1 ++ r2.2.1, r2.2.2)

/-- The recursive deletion of a stale directory's contents
(lines 298-308): `os.walk(full_subdir, topdown=False)` removes every
file and then every (now empty) directory bottom-up, each in its own
`try`, logging and continuing on failure.  A directory whose contents
could not be fully removed survives (its `os.rmdir` raises, which is
caught and logged).  Returns the surviving entries and the failure log. -/
def delTree (o : Oracle) (pp : Path) : Entries → Entries × List Path
  | [] => ([], [])
  | (n, .file c) :: es =>
    let r := delTree o pp es
    if o.failDel (pp ++ [n]) then ((n, .file c) :: r.1, (pp ++ [n]) :: r.2) else r
  | (n, .dir inner) :: es =>
    let ri := delTree o (pp ++ [n]) inner
    let r := delTree o pp es
    if ri.1.isEmpty && !(o.failDel (pp ++ [n])) then (r.1, ri.2 ++ r.2)
    else ((n, .dir ri.1) :: r.1, ri.2 ++ [pp ++ [n]] ++ r.2)

/-- Deletion of one stale destination directory (lines 296-312): its
contents are removed bottom-up, then `os.rmdir(full_subdir)` removes the
directory itself; a failed `rmdir` (leftover contents or a raised error)
is logged and the partially-emptied directory survives.  Either way the
directory is added to `deleted` and the outer walk does not descend into
it (lines 313-315). -/
def staleDelete (o : Oracle) (pfull : Path) (inner : Entries) : Option Entries × List Path :=
  let ri := delTree o pfull inner
  if ri.1.isEmpty && !(o.failDel pfull) then (none, ri.2)
  else (some ri.1, ri.2 ++ [pfull])

/-- The prune walk (lines 289-325) over the destination tree.  For each
visited directory: a subdirectory whose full path is not in the manifest
and whose bare basename does not match the exclusion regex is deleted
recursively and not descended into; then files whose full path is not in
the manifest and whose basename does not match are removed, each
deletion in its own `try`; all remaining subdirectories - including ones
kept because they matched the exclusion regex - are descended into.
The deletion decisions depend only on the manifest, the regex and the
entry's own name, so the source's order (stale subdirectories of a
directory first, then its files, then descent) is reproduced entrywise. -/
def pruneEntries (o : Oracle) (man : List Path) (exp : Name → Bool) (pp : Path) :
    Entries → Entries × List Path
  | [] => ([], [])
  | (n, .file c) :: es =>
    let r := pruneEntries o man exp pp es
    if !(pmem (pp ++ [n]) man) && !(exp n) then
      if o.failDel (pp ++ [n]) then ((n, .file c) :: r.1, (pp ++ [n]) :: r.2) else r
    else ((n, .file c) :: r.1, r.2)
  | (n, .dir inner) :: es =>
    let r := pruneEntries o man exp pp es
    if !(pmem (pp ++ [n]) man) && !(exp n) then
      match staleDelete o (pp ++ [n]) inner with
      | (none, rep) => (r.1, rep ++ r.2)
      | (some rem, rep) => ((n, .dir rem) :: r.1, rep ++ r.2)
    else
      let rsub := pruneEntries o man exp (pp ++ [n]) inner
      ((n, .dir rsub.1) :: r.1, rsub.2 ++ r.2)

/-- Entry list of a directory tree (the destination root is a directory
throughout a run: every mutation of the walk preserves its constructor,
so the `file` fallback is never taken). -/
def entriesOf : FSTree → Entries
  | .dir es => es
  | .file _ => []

/-- One full `sync_html` pass over the given source roots (lines
215-325): mirror every root into the destination, then prune the
destination against the merged manifest.  Returns the new destination
entries, the manifest and the failure log. -/
def syncRun (o : Oracle) (exp : Name → Bool) (roots : List (Bool × Entries))
    (destE : Entries) : Entries × List Path × List Path :=
  let m := mirror o exp roots (.dir destE)
  let pr := pruneEntries o m.1 exp [] (entriesOf m.2.2)
  (pr.1, m.1, m.2.1 ++ pr.2)

/-! ## Pattern compilation (lines 187-213) -/

/-- The state of the user ignore file at `~/.cvsignore` as seen by
`open` on line 198: absent, present but unreadable (both raise `IOError`,
which is caught on line 203), or readable with some content. -/
inductive IgnoreFile where
  | absent : IgnoreFile
  | unreadable : IgnoreFile
  | readable (content : String) : IgnoreFile

/-- The built-in rule fragment, line 187: `r'^(?:\..*|\_.*'`. -/
def baseFragment : String := "^(?:\\..*|\\_.*"

/-- The `--cvs-exclude` rule fragment, lines 193-195 (verbatim). -/
def cvsexpFragment : String :=
  "RCS|SCCS|CVS(?:\\.adm)?|RCSLOG|cvslog\\..*|tags|TAGS|\\.make\\.state|\\.nse_depinfo|.*~|" ++
  "#.*|\\.#.*|,.*|_\\$.*|.*\\$|.*\\.(?:bak|BAK)|.*\\.orig|.*\\.rej|\\.del-.*|.*\\.a|core|\\.svn(?:/|\\\\)|" ++
  ".*\\.o(?:bj|lb|ld)?|.*\\.so|.*\\.e(?:xe|lc)|.*\\.Z|.*\\.ln|\\.git(?:/|\\\\)|\\.hg(?:/|\\\\)|\\.bzr(?:/|\\\\)"

/-- Compilation of the exclusion regex source string (lines 187-211),
parameterised by `translate`, the model of `fnmatch.translate`.  With
`cvs-exclude` enabled the code appends the fixed cvs fragment, then tries
to read the user ignore file: a raised `IOError` (file absent or
unreadable) is caught, logged (`log.debug`, line 204) and compilation
continues; when the file IS readable, line 199 calls `cvs.readall()`,
a method Python file objects do not have, so an `AttributeError` escapes
the `except IOError` handler (modelled as `.error`).  The `CVSIGNORE`
environment patterns (lines 206-208) are appended after the handler
either way, and the expression is closed with `")$"` on line 210. -/
def compileExp (translate : String → String) (cvsExclude : Bool) (ign : IgnoreFile)
    (cvsenv : List String) : Except String String :=
  let e0 := baseFragment
  if cvsExclude then
    let e1 := e0 ++ "|" ++ cvsexpFragment
    match ign with
    | .readable _ => .error "AttributeError"
    | _ =>
      let e2 := cvsenv.foldl (fun e g => e ++ "|" ++ translate g) e1
      .ok (e2 ++ ")$")
  else .ok (e0 ++ ")$")

/-- The matcher compiled with `cvs-exclude` disabled:
`^(?:\..*|\_.*)$` matches exactly the names whose first character is `.`
or `_` (`.` in Python regexes matches every character but a newline, and
names contain no newline), tested with `re.match` which anchors at the
start; the `$` is reached because `.*` consumes the rest. -/
def builtinMatch (s : String) : Bool :=
  match s.data with
  | [] => false
  | ch :: _ => ch == '.' || ch == '_'

/-! ## Derived descriptions of the walk (used to state the claims) -/

/-- Last component of a path (the entry's basename). -/
def lastName : Path → Name
  | [] => ""
  | [n] => n
  | _ :: r => lastName r

/-- No two entries of a directory listing share a name, recursively: the
well-formedness every real filesystem tree satisfies. -/
def nodupNames : List Name → Bool
  | [] => true
  | n :: l => !(l.contains n) && nodupNames l

/-- Well-formedness of entry lists / trees (distinct names at every
level). -/
def wfE : Entries → Bool
  | [] => true
  | (n, t) :: es =>
    !((es.map Prod.fst).contains n) &&
      (match t with
       | .file _ => true
       | .dir inner => wfE inner) && wfE es

/-- Destination paths of every visible (non-excluded, hence visited)
directory of a source root rooted at `tpath`, including `tpath` itself:
exactly the `target` values appended on line 252. -/
def dirTargets (exp : Name → Bool) (tpath : Path) : Entries → List Path
  | [] => [tpath]
  | (_, .file _) :: es => dirTargets exp tpath es
  | (n, .dir inner) :: es =>
    if exp (n ++ "/") then dirTargets exp tpath es
    else dirTargets exp (tpath ++ [n]) inner ++ dirTargets exp tpath es

/-- Destination paths of every visible file of a source root rooted at
`tpath`: the files that pass the filter on line 257 in visited
directories.  These are the copies the walk attempts. -/
def fileTargets (exp : Name → Bool) (tpath : Path) : Entries → List Path
  | [] => []
  | (n, .file _) :: es =>
    if !(exp n) || n == ".htaccess" then (tpath ++ [n]) :: fileTargets exp tpath es
    else fileTargets exp tpath es
  | (n, .dir inner) :: es =>
    if exp (n ++ "/") then fileTargets exp tpath es
    else fileTargets exp (tpath ++ [n]) inner ++ fileTargets exp tpath es

/-- A path corresponds to a visible file or directory of one of the
roots. -/
def srcTarget (exp : Name → Bool) (roots : List (Bool × Entries)) (p : Path) : Bool :=
  roots.any (fun r => pmem p (dirTargets exp [] r.2) || pmem p (fileTargets exp [] r.2))

/-- `q` is a prefix of `p` (componentwise). -/
def startsWithP : Path → Path → Bool
  | [], _ => true
  | _ :: _, [] => false
  | a :: q, b :: p => a = b && startsWithP q p

/-- Every node that exists along the path is a directory (missing tails
allowed): exactly the condition under which `os.makedirs` can create the
remaining chain. -/
def dirsOrMissing : Path → FSTree → Bool
  | [], .dir _ => true
  | [], .file _ => false
  | _ :: _, .file _ => false
  | n :: r, .dir es =>
    match getEntry es n with
    | some u => dirsOrMissing r u
    | none => true

/-- Content of the source file named `n` in the directory at path `sp`
of a source root, provided the walk reaches and copies it: every
directory along `sp` is visible (its basename with a trailing slash does
not match) and the file passes the filter of line 257. -/
def visibleFileAt (exp : Name → Bool) : Path → Name → Entries → Option String
  | [], n, es =>
    match getEntry es n with
    | some (.file c) => if !(exp n) || n == ".htaccess" then some c else none
    | _ => none
  | d :: r, n, es =>
    match getEntry es d with
    | some (.dir inner) =>
      if exp (d ++ "/") then none else visibleFileAt exp r n inner
    | _ => none

/-- Every nonempty prefix of `pp ++ p` obtained by extending `pp`
along `p` is in the manifest. -/
def ancestorsMem (man : List Path) (pp : Path) : Path → Bool
  | [] => true
  | n :: r => pmem (pp ++ [n]) man && ancestorsMem man (pp ++ [n]) r

/-- The observable node of a tree root. -/
def nodeOf : FSTree → Node
  | .file c => .file c
  | .dir _ => .dir

/-! ## Basic lemmas: entry lists, path membership, path prefixes -/

theorem getEntry_mem {es : Entries} {n : Name} {t : FSTree} (h : getEntry es n = some t) :
    (n, t) ∈ es := by
  induction es with
  | nil => simp [getEntry] at h
  | cons e es ih =>
    obtain ⟨m, u⟩ := e
    by_cases hm : m = n
    · subst hm
      simp [getEntry] at h
      simp [h]
    · simp [getEntry, hm] at h
      exact List.mem_cons_of_mem _ (ih h)

theorem getEntry_setEntry (es : Entries) (n m : Name) (t : FSTree) :
    getEntry (setEntry es n t) m = if m = n then some t else getEntry es m := by
  induction es with
  | nil =>
    simp only [setEntry, getEntry]
    by_cases hm : n = m
    · subst hm
      simp
    · simp [hm, Ne.symm hm]
  | cons e es ih =>
    obtain ⟨k, u⟩ := e
    by_cases hk : k = n
    · subst hk
      simp only [setEntry, if_pos rfl, getEntry]
      by_cases hm : k = m
      · subst hm
        simp
      · simp [hm, Ne.symm hm]
    · simp only [setEntry, if_neg hk, getEntry]
      by_cases hm : k = m
      · subst hm
        simp [hk]
      · simp [hm, ih]

theorem pmem_iff {p : Path} {l : List Path} : pmem p l = true ↔ p ∈ l := by
  induction l with
  | nil => simp [pmem]
  | cons q l ih =>
    by_cases hq : q = p
    · subst hq
      simp [pmem]
    · simp [pmem, hq, ih]
      exact fun h => absurd h.symm hq

theorem pmem_append {p : Path} {l1 l2 : List Path} :
    pmem p (l1 ++ l2) = (pmem p l1 || pmem p l2) := by
  induction l1 with
  | nil => simp [pmem]
  | cons q l ih =>
    by_cases hq : q = p <;> simp [pmem, hq, ih]

theorem swp_nil (p : Path) : startsWithP [] p = true := rfl

theorem swp_refl (p : Path) : startsWithP p p = true := by
  induction p with
  | nil => rfl
  | cons a p ih => simp [startsWithP, ih]

theorem swp_append_right (q r : Path) : startsWithP q (q ++ r) = true := by
  induction q with
  | nil => rfl
  | cons a q ih => simp [startsWithP, ih]

theorem swp_append_cancel (x u v : Path) :
    startsWithP (x ++ u) (x ++ v) = startsWithP u v := by
  induction x with
  | nil => rfl
  | cons a x ih => simp [startsWithP, ih]

theorem swp_single_cons (a b : Name) (p : Path) :
    startsWithP [a] (b :: p) = (a == b) := by
  by_cases h : a = b <;> simp [startsWithP, h]

theorem swp_trans {a b c : Path} (h1 : startsWithP a b = true)
    (h2 : startsWithP b c = true) : startsWithP a c = true := by
  induction a generalizing b c with
  | nil => rfl
  | cons x a ih =>
    match b, c with
    | [], _ => simp [startsWithP] at h1
    | _ :: _, [] => simp [startsWithP] at h2
    | y :: b, z :: c =>
      simp [startsWithP] at h1 h2 ⊢
      exact ⟨h1.1.trans h2.1, ih h1.2 h2.2⟩

theorem swp_le_length {q p : Path} (h : startsWithP q p = true) :
    q.length ≤ p.length := by
  induction q generalizing p with
  | nil => simp
  | cons a q ih =>
    match p with
    | [] => simp [startsWithP] at h
    | b :: p =>
      simp [startsWithP] at h
      simpa using ih h.2

theorem swp_nil_right {p : Path} : startsWithP p [] = true ↔ p = [] := by
  cases p <;> simp [startsWithP]

/-! ## Lemmas on tree lookup and the primitive mutations -/

theorem lookupT_append (a b : Path) (t : FSTree) :
    lookupT (a ++ b) t = (lookupT a t).bind (lookupT b) := by
  induction a generalizing t with
  | nil => simp [lookupT]
  | cons n r ih =>
    cases t with
    | file c => simp [lookupT]
    | dir es =>
      simp only [List.cons_append, lookupT]
      cases getEntry es n with
      | none => simp
      | some u => simp [ih]

theorem viewAt_eq_map (p : Path) (t : FSTree) :
    viewAt p t = (lookupT p t).map nodeOf := by
  unfold viewAt
  cases h : lookupT p t with
  | none => simp
  | some u => cases u <;> simp [nodeOf]

theorem viewAt_nil_dir (es : Entries) : viewAt [] (.dir es) = some .dir := rfl

theorem viewAt_cons (n : Name) (r : Path) (es : Entries) :
    viewAt (n :: r) (.dir es) =
      (match getEntry es n with
       | some u => viewAt r u
       | none => none) := by
  simp only [viewAt, lookupT]
  cases getEntry es n <;> simp

theorem lookupT_cons_eq (n : Name) (r : Path) (es : Entries) :
    lookupT (n :: r) (.dir es) = (getEntry es n).bind (lookupT r) := by
  simp only [lookupT]
  cases getEntry es n <;> rfl

theorem mkdirsT_cons_some {n : Name} {r : Path} {es : Entries} {u : FSTree}
    (hge : getEntry es n = some u) :
    mkdirsT (n :: r) (.dir es) =
      (mkdirsT r u).map (fun u2 => .dir (setEntry es n u2)) := by
  simp only [mkdirsT, hge]
  cases mkdirsT r u <;> rfl

theorem mkdirsT_cons_none {n : Name} {r : Path} {es : Entries}
    (hge : getEntry es n = none) :
    mkdirsT (n :: r) (.dir es) =
      (mkdirsT r (.dir [])).map (fun u2 => .dir (setEntry es n u2)) := by
  simp only [mkdirsT, hge]
  cases mkdirsT r (.dir []) <;> rfl

theorem mkdirsT_isSome (q : Path) (d : FSTree) :
    (mkdirsT q d).isSome = dirsOrMissing q d := by
  induction q generalizing d with
  | nil => cases d <;> simp [mkdirsT, dirsOrMissing]
  | cons n r ih =>
    cases d with
    | file c => simp [mkdirsT, dirsOrMissing]
    | dir es =>
      cases hge : getEntry es n with
      | some u => simp [mkdirsT_cons_some hge, dirsOrMissing, hge, ih]
      | none =>
        have hemp : dirsOrMissing r (.dir []) = true := by
          cases r <;> simp [dirsOrMissing, getEntry]
        simp [mkdirsT_cons_none hge, dirsOrMissing, hge, ih, hemp]

theorem mkdirsT_frame {q : Path} {d d' : FSTree} (h : mkdirsT q d = some d')
    {p : Path} (hp : startsWithP p q = false) : lookupT p d' = lookupT p d := by
  induction q generalizing d d' p with
  | nil =>
    cases d with
    | file c => simp [mkdirsT] at h
    | dir es => simp [mkdirsT] at h; subst h; rfl
  | cons n r ih =>
    cases d with
    | file c => simp [mkdirsT] at h
    | dir es =>
      cases hge : getEntry es n with
      | some u =>
        rw [mkdirsT_cons_some hge] at h
        cases hmk : mkdirsT r u with
        | none => rw [hmk] at h; simp at h
        | some u2 =>
          rw [hmk] at h
          simp at h
          subst h
          match p with
          | [] => simp [startsWithP] at hp
          | m :: p' =>
            rw [lookupT_cons_eq, lookupT_cons_eq, getEntry_setEntry]
            by_cases hmn : m = n
            · subst hmn
              have hp' : startsWithP p' r = false := by simpa [startsWithP] using hp
              simp [hge, ih hmk hp']
            · simp [hmn]
      | none =>
        rw [mkdirsT_cons_none hge] at h
        cases hmk : mkdirsT r (.dir []) with
        | none => rw [hmk] at h; simp at h
        | some u2 =>
          rw [hmk] at h
          simp at h
          subst h
          match p with
          | [] => simp [startsWithP] at hp
          | m :: p' =>
            rw [lookupT_cons_eq, lookupT_cons_eq, getEntry_setEntry]
            by_cases hmn : m = n
            · subst hmn
              have hp' : startsWithP p' r = false := by simpa [startsWithP] using hp
              simp only [hge, if_true, eq_self_iff_true, Option.some_bind, Option.none_bind]
              rw [ih hmk hp']
              cases p' with
              | nil => simp [startsWithP] at hp'
              | cons m' p'' => simp [lookupT, getEntry]
            · simp [hmn]

theorem swp_exists {q p : Path} (h : startsWithP q p = true) :
    ∃ p2, p = q ++ p2 := by
  induction q generalizing p with
  | nil => exact ⟨p, rfl⟩
  | cons a q ih =>
    match p with
    | [] => simp [startsWithP] at h
    | b :: p =>
      simp [startsWithP] at h
      obtain ⟨p2, hp2⟩ := ih h.2
      exact ⟨p2, by simp [h.1, hp2]⟩

theorem mkdirsT_chain {q : Path} {d d' : FSTree} (h : mkdirsT q d = some d')
    {p : Path} (hp : startsWithP p q = true) : viewAt p d' = some .dir := by
  induction q generalizing d d' p with
  | nil =>
    cases d with
    | file c => simp [mkdirsT] at h
    | dir es =>
      simp [mkdirsT] at h
      subst h
      rw [swp_nil_right.mp hp]
      rfl
  | cons n r ih =>
    cases d with
    | file c => simp [mkdirsT] at h
    | dir es =>
      have core : ∀ (u0 u2 : FSTree), mkdirsT r u0 = some u2 →
          viewAt p (.dir (setEntry es n u2)) = some Node.dir := by
        intro u0 u2 hmk
        match p with
        | [] => rfl
        | m :: p' =>
          have hsw : m = n ∧ startsWithP p' r = true := by
            have := hp
            simp [startsWithP] at this
            exact this
          obtain ⟨hmn, hp'⟩ := hsw
          subst hmn
          rw [viewAt_eq_map, lookupT_cons_eq, getEntry_setEntry, if_pos rfl,
            Option.some_bind, ← viewAt_eq_map]
          exact ih hmk hp'
      cases hge : getEntry es n with
      | some u =>
        rw [mkdirsT_cons_some hge] at h
        cases hmk : mkdirsT r u with
        | none => rw [hmk] at h; simp at h
        | some u2 =>
          rw [hmk] at h
          simp at h
          subst h
          exact core u u2 hmk
      | none =>
        rw [mkdirsT_cons_none hge] at h
        cases hmk : mkdirsT r (.dir []) with
        | none => rw [hmk] at h; simp at h
        | some u2 =>
          rw [hmk] at h
          simp at h
          subst h
          exact core (.dir []) u2 hmk

theorem setNodeAt_lookup_self {q : Path} {d u : FSTree} (h : lookupT q d = some u)
    (new : FSTree) : lookupT q (setNodeAt q new d) = some new := by
  induction q generalizing d u with
  | nil => rfl
  | cons n r ih =>
    cases d with
    | file c => simp [lookupT] at h
    | dir es =>
      rw [lookupT_cons_eq] at h
      cases hge : getEntry es n with
      | none => rw [hge] at h; simp at h
      | some w =>
        rw [hge] at h
        simp at h
        simp only [setNodeAt, hge]
        rw [lookupT_cons_eq, getEntry_setEntry]
        simp only [eq_self_iff_true, if_true, Option.some_bind]
        exact ih h

theorem setNodeAt_frame (q : Path) (new : FSTree) (d : FSTree)
    {p : Path} (hp : startsWithP q p = false) :
    viewAt p (setNodeAt q new d) = viewAt p d := by
  induction q generalizing d p with
  | nil => simp [startsWithP] at hp
  | cons n r ih =>
    cases d with
    | file c => simp [setNodeAt]
    | dir es =>
      cases hge : getEntry es n with
      | none => simp [setNodeAt, hge]
      | some w =>
        simp only [setNodeAt, hge]
        match p with
        | [] => rfl
        | m :: p' =>
          rw [viewAt_eq_map, viewAt_eq_map, lookupT_cons_eq, lookupT_cons_eq,
            getEntry_setEntry]
          by_cases hmn : m = n
          · subst hmn
            have hp' : startsWithP r p' = false := by simpa [startsWithP] using hp
            simp only [eq_self_iff_true, if_true, hge, Option.some_bind]
            rw [← viewAt_eq_map, ← viewAt_eq_map]
            exact ih _ hp'
          · simp [hmn]

theorem modifyDirAt_lookup_self {q : Path} {d : FSTree} {es0 : Entries}
    (h : lookupT q d = some (.dir es0)) (f : Entries → Entries) :
    lookupT q (modifyDirAt q f d) = some (.dir (f es0)) := by
  induction q generalizing d with
  | nil =>
    cases d with
    | file c => simp [lookupT] at h
    | dir es =>
      simp [lookupT] at h
      simp [modifyDirAt, h]
      rfl
  | cons n r ih =>
    cases d with
    | file c => simp [lookupT] at h
    | dir es =>
      rw [lookupT_cons_eq] at h
      cases hge : getEntry es n with
      | none => rw [hge] at h; simp at h
      | some w =>
        rw [hge] at h
        simp at h
        simp only [modifyDirAt, hge]
        rw [lookupT_cons_eq, getEntry_setEntry]
        simp only [eq_self_iff_true, if_true, Option.some_bind]
        exact ih h

theorem copyOne_man_sub (o : Oracle) (wo : Bool) (tpath : Path) (n : Name) (c : String)
    (d : FSTree) : ∀ q ∈ (copyOne o wo tpath n c d).1, q = tpath ++ [n] := by
  intro q hq
  cases hlk : lookupT tpath d with
  | some u =>
    cases wo with
    | true => simp [copyOne, hlk] at hq; exact hq
    | false =>
      by_cases hfc : o.failCopy (tpath ++ [n]) = true
      · simp [copyOne, hlk, hfc] at hq
        exact hq
      · cases h2 : copy2Model tpath n c d with
        | some d2 => simp [copyOne, hlk, hfc, h2] at hq; exact hq
        | none => simp [copyOne, hlk, hfc, h2] at hq; exact hq
  | none =>
    by_cases hmf : o.failMk tpath = true
    · simp [copyOne, hlk, hmf] at hq
    · cases hmk : mkdirsT tpath d with
      | none => simp [copyOne, hlk, hmf, hmk] at hq
      | some d1 =>
        cases wo with
        | true => simp [copyOne, hlk, hmf, hmk] at hq; exact hq
        | false =>
          by_cases hfc : o.failCopy (tpath ++ [n]) = true
          · simp [copyOne, hlk, hmf, hmk, hfc] at hq
            exact hq
          · cases h2 : copy2Model tpath n c d1 with
            | some d2 => simp [copyOne, hlk, hmf, hmk, hfc, h2] at hq; exact hq
            | none => simp [copyOne, hlk, hmf, hmk, hfc, h2] at hq; exact hq

theorem filesPass_man_sub (o : Oracle) (exp : Name → Bool) (wo : Bool) (tpath : Path) :
    ∀ (es : Entries) (d : FSTree) (q : Path),
      q ∈ (filesPass o exp wo tpath es d).1 → q ∈ fileTargets exp tpath es := by
  intro es
  induction es with
  | nil => intro d q h; simp [filesPass] at h
  | cons e es ih =>
    intro d q h
    obtain ⟨n, t⟩ := e
    cases t with
    | dir inner =>
      simp only [filesPass] at h
      by_cases hx : exp (n ++ "/") = true
      · simpa [fileTargets, hx] using ih d q h
      · simp only [fileTargets, if_neg hx]
        exact List.mem_append.mpr (Or.inr (ih d q h))
    | file c =>
      by_cases hf : (!(exp n) || n == ".htaccess") = true
      · simp only [filesPass, if_pos hf] at h
        rw [List.mem_append] at h
        simp only [fileTargets, if_pos hf]
        rcases h with h | h
        · exact List.mem_cons.mpr (Or.inl (copyOne_man_sub o wo tpath n c d q h))
        · exact List.mem_cons_of_mem _ (ih _ q h)
      · simp only [filesPass, if_neg hf] at h
        simp only [fileTargets, if_neg hf]
        exact ih d q h

theorem modifyDirAt_frame (q : Path) (f : Entries → Entries) (d : FSTree)
    {p : Path} (hp : startsWithP q p = false) :
    viewAt p (modifyDirAt q f d) = viewAt p d := by
  induction q generalizing d p with
  | nil => simp [startsWithP] at hp
  | cons n r ih =>
    cases d with
    | file c => simp [modifyDirAt]
    | dir es =>
      cases hge : getEntry es n with
      | none => simp [modifyDirAt, hge]
      | some w =>
        simp only [modifyDirAt, hge]
        match p with
        | [] => rfl
        | m :: p' =>
          rw [viewAt_eq_map, viewAt_eq_map, lookupT_cons_eq, lookupT_cons_eq,
            getEntry_setEntry]
          by_cases hmn : m = n
          · subst hmn
            have hp' : startsWithP r p' = false := by simpa [startsWithP] using hp
            simp only [eq_self_iff_true, if_true, hge, Option.some_bind]
            rw [← viewAt_eq_map, ← viewAt_eq_map]
            exact ih _ hp'
          · simp [hmn]

theorem self_mem_dirTargets (exp : Name → Bool) (tpath : Path) (es : Entries) :
    tpath ∈ dirTargets exp tpath es := by
  induction es with
  | nil => simp [dirTargets]
  | cons e es ih =>
    obtain ⟨n, t⟩ := e
    cases t with
    | file c => simpa [dirTargets] using ih
    | dir inner =>
      by_cases hx : exp (n ++ "/") = true
      · simpa [dirTargets, hx] using ih
      · simp only [dirTargets, if_neg hx]
        exact List.mem_append.mpr (Or.inr ih)

theorem sizeOf_pos_entries (es : Entries) : 1 ≤ sizeOf es := by
  cases es with
  | nil => simp
  | cons e es =>
    simp only [List.cons.sizeOf_spec]
    omega

theorem sizeOf_cons_entries (n : Name) (t : FSTree) (es : Entries) :
    sizeOf es < sizeOf ((n, t) :: es) ∧
      (∀ inner, t = .dir inner → sizeOf inner < sizeOf ((n, t) :: es)) := by
  constructor
  · simp only [List.cons.sizeOf_spec]
    omega
  · intro inner h
    subst h
    simp only [List.cons.sizeOf_spec, Prod.mk.sizeOf_spec, FSTree.dir.sizeOf_spec]
    omega

theorem rsyncSubs_man_sub_fuel (o : Oracle) (exp : Name → Bool) (wo : Bool) :
    ∀ (N : Nat) (es : Entries) (tpath : Path) (d : FSTree), sizeOf es ≤ N →
      ∀ q ∈ (rsyncSubs o exp wo tpath es d).1,
        q ∈ dirTargets exp tpath es ∨ q ∈ fileTargets exp tpath es := by
  intro N
  induction N with
  | zero =>
    intro es tpath d hsz
    have := sizeOf_pos_entries es
    omega
  | succ N ihN =>
    intro es tpath d hsz q hq
    match es with
    | [] => simp [rsyncSubs] at hq
    | (n, .file c) :: es' =>
      simp only [rsyncSubs] at hq
      have hlt := (sizeOf_cons_entries n (.file c) es').1
      have hr := ihN es' tpath d (by omega) q hq
      rcases hr with hr | hr
      · exact Or.inl (by simpa [dirTargets] using hr)
      · right
        simp only [fileTargets]
        by_cases hf : (!(exp n) || n == ".htaccess") = true
        · simp only [if_pos hf]
          exact List.mem_cons_of_mem _ hr
        · simp only [if_neg hf]
          exact hr
    | (n, .dir inner) :: es' =>
      have hlt := (sizeOf_cons_entries n (.dir inner) es').1
      have hlt2 := (sizeOf_cons_entries n (.dir inner) es').2 inner rfl
      by_cases hx : exp (n ++ "/") = true
      · simp only [rsyncSubs, if_pos hx] at hq
        have hr := ihN es' tpath d (by omega) q hq
        simpa [dirTargets, fileTargets, hx] using hr
      · simp only [rsyncSubs, if_neg hx] at hq
        rw [List.mem_append] at hq
        simp only [dirTargets, fileTargets, if_neg hx]
        rcases hq with hq | hq
        · simp only [rsyncDir] at hq
          rw [List.mem_cons] at hq
          rcases hq with hq | hq
          · subst hq
            exact Or.inl (List.mem_append.mpr
              (Or.inl (self_mem_dirTargets exp (tpath ++ [n]) inner)))
          · rw [List.mem_append] at hq
            rcases hq with hq | hq
            · exact Or.inr (List.mem_append.mpr
                (Or.inl (filesPass_man_sub o exp wo (tpath ++ [n]) inner d q hq)))
            · have hr := ihN inner (tpath ++ [n]) _ (by omega) q hq
              rcases hr with hr | hr
              · exact Or.inl (List.mem_append.mpr (Or.inl hr))
              · exact Or.inr (List.mem_append.mpr (Or.inl hr))
        · have hr := ihN es' tpath _ (by omega) q hq
          rcases hr with hr | hr
          · exact Or.inl (List.mem_append.mpr (Or.inr hr))
          · exact Or.inr (List.mem_append.mpr (Or.inr hr))

theorem rsyncDir_man_sub (o : Oracle) (exp : Name → Bool) (wo : Bool) (tpath : Path)
    (es : Entries) (d : FSTree) :
    ∀ q ∈ (rsyncDir o exp wo tpath es d).1,
      q ∈ dirTargets exp tpath es ∨ q ∈ fileTargets exp tpath es := by
  intro q hq
  simp only [rsyncDir] at hq
  rw [List.mem_cons] at hq
  rcases hq with hq | hq
  · rw [hq]
    exact Or.inl (self_mem_dirTargets exp tpath es)
  · rw [List.mem_append] at hq
    rcases hq with hq | hq
    · exact Or.inr (filesPass_man_sub o exp wo tpath es d q hq)
    · exact rsyncSubs_man_sub_fuel o exp wo (sizeOf es) es tpath _ le_rfl q hq

theorem mirror_man_sub (o : Oracle) (exp : Name → Bool) :
    ∀ (roots : List (Bool × Entries)) (d : FSTree) (q : Path),
      q ∈ (mirror o exp roots d).1 → srcTarget exp roots q = true := by
  intro roots
  induction roots with
  | nil => intro d q hq; simp [mirror] at hq
  | cons root roots ih =>
    intro d q hq
    obtain ⟨wo, es⟩ := root
    have hstep : (mirror o exp ((wo, es) :: roots) d).1 =
        (rsyncDir o exp wo [] es d).1 ++
          (mirror o exp roots (rsyncDir o exp wo [] es d).2.2).1 := by
      simp [mirror]
    rw [hstep] at hq
    have hsrc : srcTarget exp ((wo, es) :: roots) q =
        ((pmem q (dirTargets exp [] es) || pmem q (fileTargets exp [] es)) ||
          srcTarget exp roots q) := rfl
    rw [hsrc]
    rcases List.mem_append.mp hq with hq | hq
    · rcases rsyncDir_man_sub o exp wo [] es d q hq with h | h
      · rw [pmem_iff.mpr h]
        rfl
      · rw [pmem_iff.mpr h, Bool.or_true]
        rfl
    · rw [ih _ q hq, Bool.or_true]

theorem noFail_failMk (p : Path) : noFail.failMk p = false := rfl

theorem noFail_failCopy (p : Path) : noFail.failCopy p = false := rfl

theorem noFail_failDel (p : Path) : noFail.failDel p = false := rfl

theorem delTree_noFail_fuel :
    ∀ (N : Nat) (pp : Path) (es : Entries), sizeOf es ≤ N →
      (delTree noFail pp es).1 = [] := by
  intro N
  induction N with
  | zero =>
    intro pp es h
    have := sizeOf_pos_entries es
    omega
  | succ N ihN =>
    intro pp es hsz
    match es with
    | [] => simp [delTree]
    | (n, .file c) :: es' =>
      have hlt := (sizeOf_cons_entries n (.file c) es').1
      simp [delTree, noFail_failDel, ihN pp es' (by omega)]
    | (n, .dir inner) :: es' =>
      have hlt := (sizeOf_cons_entries n (.dir inner) es').1
      have hlt2 := (sizeOf_cons_entries n (.dir inner) es').2 inner rfl
      simp [delTree, noFail_failDel, ihN pp es' (by omega), ihN (pp ++ [n]) inner (by omega)]

theorem delTree_noFail (pp : Path) (es : Entries) : (delTree noFail pp es).1 = [] :=
  delTree_noFail_fuel (sizeOf es) pp es le_rfl

theorem staleDelete_noFail (pfull : Path) (inner : Entries) :
    staleDelete noFail pfull inner = (none, (delTree noFail pfull inner).2) := by
  simp [staleDelete, delTree_noFail, noFail_failDel]

theorem lastName_cons (n : Name) (r : Path) (h : r ≠ []) :
    lastName (n :: r) = lastName r := by
  cases r with
  | nil => exact absurd rfl h
  | cons m r2 => rfl

theorem viewAt_cons_skip {m n : Name} (hmn : m ≠ n) (u : FSTree) (L : Entries) (r : Path) :
    viewAt (n :: r) (.dir ((m, u) :: L)) = viewAt (n :: r) (.dir L) := by
  rw [viewAt_eq_map, viewAt_eq_map, lookupT_cons_eq, lookupT_cons_eq]
  simp [getEntry, hmn]

theorem viewAt_cons_head {n : Name} (u : FSTree) (L : Entries) (r : Path) :
    viewAt (n :: r) (.dir ((n, u) :: L)) = viewAt r u := by
  rw [viewAt_eq_map, lookupT_cons_eq]
  simp [getEntry, viewAt_eq_map]

/-- Pruning completeness: a destination entry whose full path is not in
the manifest and whose basename does not match the exclusion regex is
removed by the prune walk (which runs with no failing deletions), no
matter what its ancestors look like: a stale ancestor is deleted
recursively together with the entry, and a retained ancestor - whether
manifest-listed or excluded - is descended into. -/
theorem pruneGone (man : List Path) (exp : Name → Bool) :
    ∀ (p : Path) (pp : Path) (es : Entries), p ≠ [] →
      exp (lastName p) = false → pmem (pp ++ p) man = false →
      viewAt p (.dir (pruneEntries noFail man exp pp es).1) = none := by
  intro p
  induction p with
  | nil => intro pp es h; exact absurd rfl h
  | cons n r ihr =>
    intro pp es hne hexp hman
    induction es with
    | nil => simp [pruneEntries, viewAt, lookupT, getEntry]
    | cons e es ihe =>
      obtain ⟨m, t⟩ := e
      cases t with
      | file c =>
        by_cases hst : (!(pmem (pp ++ [m]) man) && !(exp m)) = true
        · simpa [pruneEntries, hst, noFail] using ihe
        · simp only [pruneEntries, if_neg hst]
          by_cases hmn : m = n
          · subst hmn
            cases r with
            | nil =>
              exfalso
              have h1 : exp m = false := by simpa [lastName] using hexp
              have h2 : pmem (pp ++ [m]) man = false := by simpa using hman
              simp [h2, h1] at hst
            | cons n2 r2 => rw [viewAt_cons_head]; rfl
          · rw [viewAt_cons_skip hmn]
            exact ihe
      | dir inner =>
        by_cases hst : (!(pmem (pp ++ [m]) man) && !(exp m)) = true
        · simp only [pruneEntries, if_pos hst, staleDelete_noFail]
          exact ihe
        · simp only [pruneEntries, if_neg hst]
          by_cases hmn : m = n
          · subst hmn
            cases r with
            | nil =>
              exfalso
              have h1 : exp m = false := by simpa [lastName] using hexp
              have h2 : pmem (pp ++ [m]) man = false := by simpa using hman
              simp [h2, h1] at hst
            | cons n2 r2 =>
              rw [viewAt_cons_head]
              have hman2 : pmem ((pp ++ [m]) ++ (n2 :: r2)) man = false := by
                simpa [List.append_assoc] using hman
              have hexp2 : exp (lastName (n2 :: r2)) = false := by
                simpa [lastName_cons m (n2 :: r2) (by simp)] using hexp
              exact ihr (pp ++ [m]) inner (by simp) hexp2 hman2
          · rw [viewAt_cons_skip hmn]
            exact ihe

/-- A kept entry of the prune walk: an entry whose full path is in the
manifest survives; a file entry survives unchanged, a directory entry is
descended into. -/
theorem pruneEntries_getEntry_kept (o : Oracle) (man : List Path) (exp : Name → Bool)
    (pp : Path) :
    ∀ (es : Entries) (n : Name) (t : FSTree), pmem (pp ++ [n]) man = true →
      getEntry es n = some t →
      getEntry (pruneEntries o man exp pp es).1 n =
        some (match t with
              | .file c => .file c
              | .dir inner => .dir (pruneEntries o man exp (pp ++ [n]) inner).1) := by
  intro es
  induction es with
  | nil => intro n t _ hge; simp [getEntry] at hge
  | cons e es ih =>
    intro n t hmem hge
    obtain ⟨m, u⟩ := e
    by_cases hmn : m = n
    · subst hmn
      simp only [getEntry, eq_self_iff_true, if_true, Option.some_inj] at hge
      subst hge
      cases u with
      | file c =>
        have hst : (!(pmem (pp ++ [m]) man) && !(exp m)) = false := by simp [hmem]
        simp [pruneEntries, hst, getEntry]
      | dir inner =>
        have hst : (!(pmem (pp ++ [m]) man) && !(exp m)) = false := by simp [hmem]
        simp [pruneEntries, hst, getEntry]
    · simp only [getEntry, if_neg hmn] at hge
      have hr := ih n t hmem hge
      cases u with
      | file c =>
        by_cases hst : (!(pmem (pp ++ [m]) man) && !(exp m)) = true
        · by_cases hfd : o.failDel (pp ++ [m]) = true
          · simp only [pruneEntries, if_pos hst, if_pos hfd, getEntry, if_neg hmn]
            exact hr
          · simp only [pruneEntries, if_pos hst, if_neg hfd]
            exact hr
        · simp only [pruneEntries, if_neg hst, getEntry, if_neg hmn]
          exact hr
      | dir inner =>
        by_cases hst : (!(pmem (pp ++ [m]) man) && !(exp m)) = true
        · simp only [pruneEntries, if_pos hst]
          cases hsd : staleDelete o (pp ++ [m]) inner with
          | mk orem rep =>
            cases orem with
            | none => simpa using hr
            | some rem => simp only [getEntry, if_neg hmn]; exact hr
        · simp only [pruneEntries, if_neg hst, getEntry, if_neg hmn]
          exact hr

/-- Retention: a pre-existing destination file whose path and all of
whose ancestors are listed in the manifest survives the prune walk with
its content, under every failure oracle. -/
theorem pruneRetainFile (o : Oracle) (man : List Path) (exp : Name → Bool) :
    ∀ (p pp : Path) (es : Entries) (c0 : String), ancestorsMem man pp p = true →
      viewAt p (.dir es) = some (.file c0) →
      viewAt p (.dir (pruneEntries o man exp pp es).1) = some (.file c0) := by
  intro p
  induction p with
  | nil => intro pp es c0 _ hv; simp [viewAt, lookupT] at hv
  | cons n r ihr =>
    intro pp es c0 hanc hv
    simp only [ancestorsMem, Bool.and_eq_true] at hanc
    obtain ⟨hmem, hanc2⟩ := hanc
    cases hge : getEntry es n with
    | none =>
      rw [viewAt_eq_map, lookupT_cons_eq, hge] at hv
      simp at hv
    | some t =>
      have hkept := pruneEntries_getEntry_kept o man exp pp es n t hmem hge
      rw [viewAt_eq_map, lookupT_cons_eq, hge, Option.some_bind] at hv
      cases t with
      | file c =>
        cases r with
        | nil =>
          simp [lookupT, nodeOf] at hv
          subst hv
          rw [viewAt_eq_map, lookupT_cons_eq, hkept]
          simp [lookupT, nodeOf]
        | cons n2 r2 => simp [lookupT] at hv
      | dir inner =>
        cases r with
        | nil => simp [lookupT, nodeOf] at hv
        | cons n2 r2 =>
          rw [viewAt_eq_map, lookupT_cons_eq, hkept]
          simp only [Option.some_bind]
          rw [← viewAt_eq_map]
          have hv2 : viewAt (n2 :: r2) (.dir inner) = some (.file c0) := by
            rw [viewAt_eq_map]
            exact hv
          exact ihr (pp ++ [n]) inner c0 hanc2 hv2

/-! ## Frame lemmas for the copy walk -/

theorem swp_antisymm {p q : Path} (h1 : startsWithP q p = true)
    (h2 : startsWithP p q = true) : p = q := by
  induction p generalizing q with
  | nil => exact (swp_nil_right.mp h1).symm
  | cons a p ih =>
    match q with
    | [] => exact absurd (swp_nil_right.mp h2) (by simp)
    | b :: q =>
      simp [startsWithP] at h1 h2
      rw [h2.1, ih h1.2 h2.2]

theorem swp_snoc {p q : Path} {n : Name} (h : startsWithP p (q ++ [n]) = true) :
    startsWithP p q = true ∨ p = q ++ [n] := by
  induction q generalizing p with
  | nil =>
    match p with
    | [] => exact Or.inl rfl
    | a :: p =>
      simp [startsWithP] at h
      right
      simp [h.1, swp_nil_right.mp h.2]
  | cons b q ih =>
    match p with
    | [] => exact Or.inl rfl
    | a :: p =>
      simp only [List.cons_append, startsWithP, Bool.and_eq_true, decide_eq_true_eq] at h ⊢
      rcases ih h.2 with h2 | h2
      · exact Or.inl ⟨h.1, h2⟩
      · exact Or.inr (by simp [h.1, h2])

theorem frame_trans {tpath p : Path} {d d' d2 : FSTree}
    (h1 : viewAt p d' = viewAt p d ∨
      (startsWithP p tpath = true ∧ viewAt p d = none ∧ viewAt p d' = some .dir))
    (h2 : viewAt p d2 = viewAt p d' ∨
      (startsWithP p tpath = true ∧ viewAt p d' = none ∧ viewAt p d2 = some .dir)) :
    viewAt p d2 = viewAt p d ∨
      (startsWithP p tpath = true ∧ viewAt p d = none ∧ viewAt p d2 = some .dir) := by
  rcases h1 with h1 | ⟨hs, h1a, h1b⟩
  · rcases h2 with h2 | ⟨hs, h2a, h2b⟩
    · exact Or.inl (h2.trans h1)
    · exact Or.inr ⟨hs, h1 ▸ h2a, h2b⟩
  · rcases h2 with h2 | ⟨_, h2a, _⟩
    · exact Or.inr ⟨hs, h1a, h2.trans h1b⟩
    · rw [h1b] at h2a
      cases h2a

theorem dirsOrMissing_prefix {q : Path} {d : FSTree} (h : dirsOrMissing q d = true)
    {p : Path} (hp : startsWithP p q = true) :
    viewAt p d = none ∨ viewAt p d = some .dir := by
  induction p generalizing q d with
  | nil =>
    cases d with
    | file c =>
      match q with
      | [] => simp [dirsOrMissing] at h
      | _ :: _ => simp [dirsOrMissing] at h
    | dir es => exact Or.inr rfl
  | cons a p ih =>
    match q with
    | [] => simp [startsWithP] at hp
    | b :: q =>
      simp only [startsWithP, Bool.and_eq_true, decide_eq_true_eq] at hp
      obtain ⟨hab, hp⟩ := hp
      subst hab
      cases d with
      | file c => simp [dirsOrMissing] at h
      | dir es =>
        rw [viewAt_eq_map, lookupT_cons_eq]
        cases hge : getEntry es a with
        | none => simp
        | some u =>
          simp only [dirsOrMissing, hge] at h
          simp only [Option.some_bind]
          rw [← viewAt_eq_map]
          exact ih h hp

theorem lookup_prefix_dir {q : Path} {d u : FSTree} (h : lookupT q d = some u)
    {p : Path} (hp : startsWithP p q = true) (hne : p ≠ q) :
    viewAt p d = some .dir := by
  induction p generalizing q d with
  | nil =>
    cases d with
    | dir es => rfl
    | file c =>
      match q with
      | [] => exact absurd rfl hne
      | _ :: _ => simp [lookupT] at h
  | cons a p ih =>
    match q with
    | [] => simp [startsWithP] at hp
    | b :: q =>
      simp only [startsWithP, Bool.and_eq_true, decide_eq_true_eq] at hp
      obtain ⟨hab, hp⟩ := hp
      subst hab
      cases d with
      | file c => simp [lookupT] at h
      | dir es =>
        rw [lookupT_cons_eq] at h
        cases hge : getEntry es a with
        | none => rw [hge] at h; simp at h
        | some w =>
          rw [hge] at h
          simp only [Option.some_bind] at h
          rw [viewAt_eq_map, lookupT_cons_eq, hge, Option.some_bind, ← viewAt_eq_map]
          exact ih h hp (by intro hcon; exact hne (by rw [hcon]))

theorem swp_proper_not {q tpath : Path} (h1 : startsWithP q tpath = true)
    (hne : q ≠ tpath) : startsWithP tpath q = false := by
  by_contra hcon
  have h2 : startsWithP tpath q = true := by
    revert hcon
    cases startsWithP tpath q <;> simp
  exact hne (swp_antisymm h2 h1)

theorem mkdirs_fresh {q : Path} {d d1 : FSTree} (hlk : lookupT q d = none)
    (hmk : mkdirsT q d = some d1) : lookupT q d1 = some (.dir []) := by
  induction q generalizing d d1 with
  | nil => simp [lookupT] at hlk
  | cons n r ih =>
    cases d with
    | file c => simp [mkdirsT] at hmk
    | dir es =>
      rw [lookupT_cons_eq] at hlk
      cases hge : getEntry es n with
      | some u =>
        rw [hge, Option.some_bind] at hlk
        rw [mkdirsT_cons_some hge] at hmk
        cases hmk2 : mkdirsT r u with
        | none => rw [hmk2] at hmk; simp at hmk
        | some u2 =>
          rw [hmk2] at hmk
          simp at hmk
          subst hmk
          rw [lookupT_cons_eq, getEntry_setEntry]
          simp only [eq_self_iff_true, if_true, Option.some_bind]
          exact ih hlk hmk2
      | none =>
        rw [mkdirsT_cons_none hge] at hmk
        cases hmk2 : mkdirsT r (.dir []) with
        | none => rw [hmk2] at hmk; simp at hmk
        | some u2 =>
          rw [hmk2] at hmk
          simp at hmk
          subst hmk
          rw [lookupT_cons_eq, getEntry_setEntry]
          simp only [eq_self_iff_true, if_true, Option.some_bind]
          cases r with
          | nil =>
            simp [mkdirsT] at hmk2
            subst hmk2
            rfl
          | cons n2 r2 =>
            have hlk2 : lookupT (n2 :: r2) (FSTree.dir []) = none := by
              rw [lookupT_cons_eq]
              rfl
            exact ih hlk2 hmk2

theorem mkdirs_effect {tpath : Path} {d d1 : FSTree}
    (hmk : mkdirsT tpath d = some d1) (p : Path) :
    viewAt p d1 = viewAt p d ∨
      (startsWithP p tpath = true ∧ viewAt p d = none ∧ viewAt p d1 = some .dir) := by
  by_cases hs : startsWithP p tpath = true
  · have hdm : dirsOrMissing tpath d = true := by
      have := mkdirsT_isSome tpath d
      rw [hmk] at this
      simpa using this.symm
    have hch := mkdirsT_chain hmk hs
    rcases dirsOrMissing_prefix hdm hs with h0 | h0
    · exact Or.inr ⟨hs, h0, hch⟩
    · exact Or.inl (hch.trans h0.symm)
  · left
    rw [viewAt_eq_map, viewAt_eq_map,
      mkdirsT_frame hmk (by revert hs; cases startsWithP p tpath <;> simp)]

theorem copy2Model_some_frame {tpath : Path} {m : Name} {cm : String} {d d2 : FSTree}
    (h : copy2Model tpath m cm d = some d2) (p : Path) (hp1 : p ≠ tpath ++ [m])
    (hp2 : p ≠ tpath) : viewAt p d2 = viewAt p d := by
  cases hlk : lookupT tpath d with
  | none => simp [copy2Model, hlk] at h
  | some u =>
    simp only [copy2Model, hlk] at h
    cases u with
    | file c0 =>
      simp only [Option.some_inj] at h
      subst h
      by_cases hs : startsWithP tpath p = true
      · obtain ⟨p2, hp2eq⟩ := swp_exists hs
        subst hp2eq
        have hp2ne : p2 ≠ [] := by
          intro hcon
          subst hcon
          exact hp2 (by simp)
        have h1 : lookupT (tpath ++ p2) (setNodeAt tpath (.file cm) d) = none := by
          rw [lookupT_append, setNodeAt_lookup_self hlk, Option.some_bind]
          cases p2 with
          | nil => exact absurd rfl hp2ne
          | cons x p3 => rfl
        have h2 : lookupT (tpath ++ p2) d = none := by
          rw [lookupT_append, hlk, Option.some_bind]
          cases p2 with
          | nil => exact absurd rfl hp2ne
          | cons x p3 => rfl
        rw [viewAt_eq_map, viewAt_eq_map, h1, h2]
      · exact setNodeAt_frame tpath (.file cm) d
          (by revert hs; cases startsWithP tpath p <;> simp)
    | dir es0 =>
      cases hge : getEntry es0 m with
      | some w =>
        cases w with
        | dir esx => simp only [hge] at h; simp at h
        | file cw =>
          simp only [hge] at h
          simp only [Option.some_inj] at h
          subst h
          by_cases hs : startsWithP tpath p = true
          · obtain ⟨p2, hp2eq⟩ := swp_exists hs
            subst hp2eq
            have hp2ne : p2 ≠ [] := fun hcon => hp2 (by simp [hcon])
            have hmods := modifyDirAt_lookup_self hlk
              (fun es2 => setEntry es2 m (.file cm))
            rw [viewAt_eq_map, viewAt_eq_map, lookupT_append, lookupT_append, hlk,
              hmods, Option.some_bind, Option.some_bind]
            cases p2 with
            | nil => exact absurd rfl hp2ne
            | cons x p3 =>
              rw [lookupT_cons_eq, lookupT_cons_eq, getEntry_setEntry]
              by_cases hxm : x = m
              · subst hxm
                simp only [eq_self_iff_true, if_true, hge, Option.some_bind]
                have hp3ne : p3 ≠ [] := by
                  intro hcon
                  subst hcon
                  exact hp1 rfl
                cases p3 with
                | nil => exact absurd rfl hp3ne
                | cons y p4 => rfl
              · simp [hxm]
          · exact modifyDirAt_frame tpath _ d
              (by revert hs; cases startsWithP tpath p <;> simp)
      | none =>
        simp only [hge] at h
        simp only [Option.some_inj] at h
        subst h
        by_cases hs : startsWithP tpath p = true
        · obtain ⟨p2, hp2eq⟩ := swp_exists hs
          subst hp2eq
          have hp2ne : p2 ≠ [] := fun hcon => hp2 (by simp [hcon])
          have hmods := modifyDirAt_lookup_self hlk
            (fun es2 => setEntry es2 m (.file cm))
          rw [viewAt_eq_map, viewAt_eq_map, lookupT_append, lookupT_append, hlk,
            hmods, Option.some_bind, Option.some_bind]
          cases p2 with
          | nil => exact absurd rfl hp2ne
          | cons x p3 =>
            rw [lookupT_cons_eq, lookupT_cons_eq, getEntry_setEntry]
            by_cases hxm : x = m
            · subst hxm
              simp only [eq_self_iff_true, if_true, hge, Option.some_bind,
                Option.none_bind]
              have hp3ne : p3 ≠ [] := by
                intro hcon
                subst hcon
                exact hp1 rfl
              cases p3 with
              | nil => exact absurd rfl hp3ne
              | cons y p4 => rfl
            · simp [hxm]
        · exact modifyDirAt_frame tpath _ d
            (by revert hs; cases startsWithP tpath p <;> simp)

theorem copy2Model_write_dir {tpath : Path} {m : Name} {cm : String} {d d2 : FSTree}
    {es0 : Entries} (hlk : lookupT tpath d = some (.dir es0))
    (h : copy2Model tpath m cm d = some d2) :
    lookupT (tpath ++ [m]) d2 = some (.file cm) := by
  simp only [copy2Model, hlk] at h
  have hmod : d2 = modifyDirAt tpath (fun es2 => setEntry es2 m (.file cm)) d := by
    cases hge : getEntry es0 m with
    | none =>
      simp only [hge] at h
      simp only [Option.some_inj] at h
      exact h.symm
    | some w =>
      cases w with
      | dir esx => simp only [hge] at h; simp at h
      | file cw =>
        simp only [hge] at h
        simp only [Option.some_inj] at h
        exact h.symm
  subst hmod
  rw [lookupT_append, modifyDirAt_lookup_self hlk, Option.some_bind,
    lookupT_cons_eq, getEntry_setEntry]
  simp [lookupT]

theorem copyOne_frame (o : Oracle) (wo : Bool) (tpath : Path) (m : Name) (cm : String)
    (d : FSTree) (p : Path) (hp1 : p ≠ tpath ++ [m]) (hp2 : p ≠ tpath) :
    viewAt p (copyOne o wo tpath m cm d).2.2 = viewAt p d ∨
      (startsWithP p tpath = true ∧ viewAt p d = none ∧
        viewAt p (copyOne o wo tpath m cm d).2.2 = some .dir) := by
  cases hlk : lookupT tpath d with
  | some u =>
    cases wo with
    | true =>
      left
      simp [copyOne, hlk]
    | false =>
      by_cases hfc : o.failCopy (tpath ++ [m]) = true
      · left
        simp [copyOne, hlk, hfc]
      · cases h2 : copy2Model tpath m cm d with
        | none =>
          left
          simp [copyOne, hlk, hfc, h2]
        | some d2 =>
          left
          have hout : (copyOne o false tpath m cm d).2.2 = d2 := by
            simp [copyOne, hlk, hfc, h2]
          rw [hout]
          exact copy2Model_some_frame h2 p hp1 hp2
  | none =>
    by_cases hmf : o.failMk tpath = true
    · left
      simp [copyOne, hlk, hmf]
    · cases hmk : mkdirsT tpath d with
      | none =>
        left
        simp [copyOne, hlk, hmf, hmk]
      | some d1 =>
        cases wo with
        | true =>
          have hout : (copyOne o true tpath m cm d).2.2 = d1 := by
            simp [copyOne, hlk, hmf, hmk]
          rw [hout]
          exact mkdirs_effect hmk p
        | false =>
          by_cases hfc : o.failCopy (tpath ++ [m]) = true
          · have hout : (copyOne o false tpath m cm d).2.2 = d1 := by
              simp [copyOne, hlk, hmf, hmk, hfc]
            rw [hout]
            exact mkdirs_effect hmk p
          · cases h2 : copy2Model tpath m cm d1 with
            | none =>
              have hout : (copyOne o false tpath m cm d).2.2 = d1 := by
                simp [copyOne, hlk, hmf, hmk, hfc, h2]
              rw [hout]
              exact mkdirs_effect hmk p
            | some d2 =>
              have hout : (copyOne o false tpath m cm d).2.2 = d2 := by
                simp [copyOne, hlk, hmf, hmk, hfc, h2]
              rw [hout]
              exact frame_trans (mkdirs_effect hmk p)
                (Or.inl (copy2Model_some_frame h2 p hp1 hp2))

theorem copyOne_success {tpath : Path} {m : Name} {cm : String} {d : FSTree}
    (hdm : dirsOrMissing tpath d = true)
    (hnd : ∀ esx, lookupT (tpath ++ [m]) d ≠ some (.dir esx)) :
    (copyOne noFail false tpath m cm d).1 = [tpath ++ [m]] ∧
    lookupT (tpath ++ [m]) (copyOne noFail false tpath m cm d).2.2 = some (.file cm) ∧
    (∀ q, startsWithP q tpath = true →
      viewAt q (copyOne noFail false tpath m cm d).2.2 = some .dir) := by
  cases hlk : lookupT tpath d with
  | some u =>
    have hu : ∃ es0, u = .dir es0 := by
      rcases dirsOrMissing_prefix hdm (swp_refl tpath) with h0 | h0 <;>
        rw [viewAt_eq_map, hlk] at h0
      · simp at h0
      · cases u with
        | file c => simp [nodeOf] at h0
        | dir es0 => exact ⟨es0, rfl⟩
    obtain ⟨es0, rfl⟩ := hu
    have hgem : ∀ esx, getEntry es0 m ≠ some (.dir esx) := by
      intro esx hcon
      apply hnd esx
      rw [lookupT_append, hlk, Option.some_bind, lookupT_cons_eq, hcon,
        Option.some_bind]
      rfl
    have hc2 : copy2Model tpath m cm d =
        some (modifyDirAt tpath (fun es2 => setEntry es2 m (.file cm)) d) := by
      simp only [copy2Model, hlk]
    have hout : copyOne noFail false tpath m cm d =
        ([tpath ++ [m]], [],
          modifyDirAt tpath (fun es2 => setEntry es2 m (.file cm)) d) := by
      simp [copyOne, hlk, noFail_failCopy, hc2]
    refine ⟨by rw [hout], ?_, ?_⟩
    · rw [hout]
      exact copy2Model_write_dir hlk hc2
    · intro q hq
      rw [hout]
      by_cases hqt : q = tpath
      · subst hqt
        rw [viewAt_eq_map, modifyDirAt_lookup_self hlk]
        simp [nodeOf]
      · have hnp : startsWithP tpath q = false := swp_proper_not hq hqt
        rw [modifyDirAt_frame tpath _ d hnp]
        exact lookup_prefix_dir hlk hq hqt
  | none =>
    have hmkex : ∃ d1, mkdirsT tpath d = some d1 := by
      have h := mkdirsT_isSome tpath d
      rw [hdm] at h
      cases hx : mkdirsT tpath d with
      | none => rw [hx] at h; simp at h
      | some d1 => exact ⟨d1, rfl⟩
    obtain ⟨d1, hmk⟩ := hmkex
    have hfr : lookupT tpath d1 = some (.dir []) := mkdirs_fresh hlk hmk
    have hc2 : copy2Model tpath m cm d1 =
        some (modifyDirAt tpath (fun es2 => setEntry es2 m (.file cm)) d1) := by
      simp only [copy2Model, hfr, getEntry]
    have hout : copyOne noFail false tpath m cm d =
        ([tpath ++ [m]], [],
          modifyDirAt tpath (fun es2 => setEntry es2 m (.file cm)) d1) := by
      simp [copyOne, hlk, noFail_failMk, noFail_failCopy, hmk, hc2]
    refine ⟨by rw [hout], ?_, ?_⟩
    · rw [hout]
      exact copy2Model_write_dir hfr hc2
    · intro q hq
      rw [hout]
      by_cases hqt : q = tpath
      · subst hqt
        rw [viewAt_eq_map, modifyDirAt_lookup_self hfr]
        simp [nodeOf]
      · have hnp : startsWithP tpath q = false := swp_proper_not hq hqt
        rw [modifyDirAt_frame tpath _ d1 hnp]
        exact mkdirsT_chain hmk hq

theorem viewAt_file_iff {p : Path} {t : FSTree} {c : String} :
    viewAt p t = some (.file c) ↔ lookupT p t = some (.file c) := by
  rw [viewAt_eq_map]
  cases h : lookupT p t with
  | none => simp
  | some u => cases u <;> simp [nodeOf]

theorem viewAt_dir_iff {p : Path} {t : FSTree} :
    viewAt p t = some .dir ↔ ∃ esx, lookupT p t = some (.dir esx) := by
  rw [viewAt_eq_map]
  cases h : lookupT p t with
  | none => simp
  | some u => cases u <;> simp [nodeOf]

theorem dirsOrMissing_of_views {q : Path} {d : FSTree}
    (h : ∀ p, startsWithP p q = true → ∀ c0, viewAt p d ≠ some (.file c0)) :
    dirsOrMissing q d = true := by
  induction q generalizing d with
  | nil =>
    cases d with
    | file c => exact absurd rfl (h [] rfl c)
    | dir es => rfl
  | cons n r ih =>
    cases d with
    | file c => exact absurd rfl (h [] rfl c)
    | dir es =>
      simp only [dirsOrMissing]
      cases hge : getEntry es n with
      | none => rfl
      | some u =>
        apply ih
        intro p hp c0 hcon
        apply h (n :: p) (by simp [startsWithP, hp]) c0
        rw [viewAt_eq_map, lookupT_cons_eq, hge, Option.some_bind, ← viewAt_eq_map]
        exact hcon

theorem copyOne_tpath_dir (o : Oracle) (wo : Bool) (tpath : Path) (m : Name)
    (cm : String) (d : FSTree) (hd : viewAt tpath d = some .dir) :
    viewAt tpath (copyOne o wo tpath m cm d).2.2 = some .dir := by
  obtain ⟨es0, hlk⟩ := viewAt_dir_iff.mp hd
  cases wo with
  | true =>
    have : (copyOne o true tpath m cm d).2.2 = d := by simp [copyOne, hlk]
    rw [this]
    exact hd
  | false =>
    by_cases hfc : o.failCopy (tpath ++ [m]) = true
    · have : (copyOne o false tpath m cm d).2.2 = d := by simp [copyOne, hlk, hfc]
      rw [this]
      exact hd
    · cases h2 : copy2Model tpath m cm d with
      | none =>
        have : (copyOne o false tpath m cm d).2.2 = d := by
          simp [copyOne, hlk, hfc, h2]
        rw [this]
        exact hd
      | some d2 =>
        have hout : (copyOne o false tpath m cm d).2.2 = d2 := by
          simp [copyOne, hlk, hfc, h2]
        rw [hout]
        simp only [copy2Model, hlk] at h2
        cases hge : getEntry es0 m with
        | none =>
          simp only [hge] at h2
          simp only [Option.some_inj] at h2
          subst h2
          exact viewAt_dir_iff.mpr ⟨_, modifyDirAt_lookup_self hlk _⟩
        | some w =>
          cases w with
          | dir esx => simp only [hge] at h2; simp at h2
          | file cw =>
            simp only [hge] at h2
            simp only [Option.some_inj] at h2
            subst h2
            exact viewAt_dir_iff.mpr ⟨_, modifyDirAt_lookup_self hlk _⟩

theorem swp_snoc_self_false (tpath : Path) (n : Name) :
    startsWithP (tpath ++ [n]) tpath = false := by
  cases h : startsWithP (tpath ++ [n]) tpath with
  | false => rfl
  | true =>
    exfalso
    have := swp_le_length h
    simp at this

theorem snoc_ne_of_ne {tpath : Path} {n m : Name} (hmn : n ≠ m) :
    tpath ++ [n] ≠ tpath ++ [m] := by
  intro hcon
  exact hmn (by simpa using hcon)

theorem snoc_ne_self (tpath : Path) (n : Name) : tpath ++ [n] ≠ tpath := by
  intro hcon
  have := congrArg List.length hcon
  simp at this

theorem short_ne_snoc {q tpath : Path} (hq : startsWithP q tpath = true) (m : Name) :
    q ≠ tpath ++ [m] := by
  intro hcon
  have h1 := swp_le_length hq
  have h2 := congrArg List.length hcon
  simp at h2
  omega

theorem wfE_cons_parts {m : Name} {u : FSTree} {es : Entries}
    (h : wfE ((m, u) :: es) = true) :
    ((es.map Prod.fst).contains m) = false ∧ wfE es = true ∧
      (∀ inner, u = .dir inner → wfE inner = true) := by
  cases u with
  | file c =>
    simp only [wfE, Bool.and_eq_true, Bool.not_eq_true'] at h
    exact ⟨h.1.1, h.2, fun inner hcon => by cases hcon⟩
  | dir inner0 =>
    simp only [wfE, Bool.and_eq_true, Bool.not_eq_true'] at h
    refine ⟨h.1.1, h.2, fun inner hcon => ?_⟩
    cases hcon
    exact h.1.2

theorem copyOne_tpath_not_file (o : Oracle) (wo : Bool) (tpath : Path) (m : Name)
    (cm : String) (d : FSTree) (hdm : dirsOrMissing tpath d = true) (c0 : String) :
    viewAt tpath (copyOne o wo tpath m cm d).2.2 ≠ some (.file c0) := by
  cases hlk : lookupT tpath d with
  | some u =>
    have hd : viewAt tpath d = some .dir := by
      rcases dirsOrMissing_prefix hdm (swp_refl tpath) with h0 | h0
      · rw [viewAt_eq_map, hlk] at h0
        simp at h0
      · exact h0
    rw [copyOne_tpath_dir o wo tpath m cm d hd]
    simp
  | none =>
    by_cases hmf : o.failMk tpath = true
    · have hout : (copyOne o wo tpath m cm d).2.2 = d := by
        simp [copyOne, hlk, hmf]
      rw [hout, viewAt_eq_map, hlk]
      simp
    · cases hmk : mkdirsT tpath d with
      | none =>
        have hout : (copyOne o wo tpath m cm d).2.2 = d := by
          simp [copyOne, hlk, hmf, hmk]
        rw [hout, viewAt_eq_map, hlk]
        simp
      | some d1 =>
        have hch : viewAt tpath d1 = some .dir := mkdirsT_chain hmk (swp_refl tpath)
        cases wo with
        | true =>
          have hout : (copyOne o true tpath m cm d).2.2 = d1 := by
            simp [copyOne, hlk, hmf, hmk]
          rw [hout, hch]
          simp
        | false =>
          by_cases hfc : o.failCopy (tpath ++ [m]) = true
          · have hout : (copyOne o false tpath m cm d).2.2 = d1 := by
              simp [copyOne, hlk, hmf, hmk, hfc]
            rw [hout, hch]
            simp
          · cases h2 : copy2Model tpath m cm d1 with
            | none =>
              have hout : (copyOne o false tpath m cm d).2.2 = d1 := by
                simp [copyOne, hlk, hmf, hmk, hfc, h2]
              rw [hout, hch]
              simp
            | some d2 =>
              have hout : (copyOne o false tpath m cm d).2.2 = d2 := by
                simp [copyOne, hlk, hmf, hmk, hfc, h2]
              rw [hout]
              have hfr : lookupT tpath d1 = some (.dir []) := mkdirs_fresh hlk hmk
              simp only [copy2Model, hfr, getEntry] at h2
              simp only [Option.some_inj] at h2
              subst h2
              rw [viewAt_eq_map, modifyDirAt_lookup_self hfr]
              simp [nodeOf]

/-- Files of other names do not disturb the given destination path, and
existing directories along the target chain survive the file loop. -/
theorem filesPass_avoid (o : Oracle) (exp : Name → Bool) (wo : Bool) (tpath : Path) :
    ∀ (es : Entries) (d : FSTree) (n : Name),
      ((es.map Prod.fst).contains n = false) →
      viewAt (tpath ++ [n]) (filesPass o exp wo tpath es d).2.2 =
        viewAt (tpath ++ [n]) d ∧
      (∀ q, startsWithP q tpath = true → viewAt q d = some .dir →
        viewAt q (filesPass o exp wo tpath es d).2.2 = some .dir) := by
  intro es
  induction es with
  | nil =>
    intro d n _
    exact ⟨rfl, fun q _ h => h⟩
  | cons e es ih =>
    intro d n hc
    obtain ⟨m, u⟩ := e
    simp only [List.map_cons, List.contains_cons, Bool.or_eq_false_iff] at hc
    obtain ⟨hmn0, hc⟩ := hc
    have hmn : n ≠ m := by simpa using hmn0
    cases u with
    | dir inner => exact ih d n hc
    | file cm =>
      by_cases hf : (!(exp m) || m == ".htaccess") = true
      · have hstep : filesPass o exp wo tpath ((m, .file cm) :: es) d =
            (let r1 := copyOne o wo tpath m cm d
             let r2 := filesPass o exp wo tpath es r1.2.2
             (r1.1 ++ r2.1, r1.2.1 ++ r2.2.1, r2.2.2)) := by
          simp [filesPass, hf]
        rw [hstep]
        simp only []
        constructor
        · have hfr := copyOne_frame o wo tpath m cm d (tpath ++ [n])
            (snoc_ne_of_ne hmn) (snoc_ne_self tpath n)
          rcases hfr with hfr | ⟨hswp, _, _⟩
          · rw [(ih _ n hc).1, hfr]
          · rw [swp_snoc_self_false] at hswp
            cases hswp
        · intro q hq hdq
          have hq1 : viewAt q (copyOne o wo tpath m cm d).2.2 = some .dir := by
            by_cases hqt : q = tpath
            · rw [hqt] at hdq ⊢
              exact copyOne_tpath_dir o wo tpath m cm d hdq
            · have hfr := copyOne_frame o wo tpath m cm d q
                (short_ne_snoc hq m) hqt
              rcases hfr with hfr | ⟨_, hnone, _⟩
              · rw [hfr]
                exact hdq
              · rw [hdq] at hnone
                cases hnone
          exact (ih _ n hc).2 q hq hq1
      · have hstep : filesPass o exp wo tpath ((m, .file cm) :: es) d =
            filesPass o exp wo tpath es d := by
          simp [filesPass, hf]
        rw [hstep]
        exact ih d n hc

/-- The visible file reached by the file loop is copied: its destination
path is appended to the manifest, the destination holds its content
afterwards, and every directory on the target chain exists afterwards. -/
theorem filesPass_copies (exp : Name → Bool) :
    ∀ (es : Entries) (tpath : Path) (d : FSTree) (n : Name) (c : String),
      wfE es = true →
      getEntry es n = some (.file c) →
      (!(exp n) || n == ".htaccess") = true →
      dirsOrMissing tpath d = true →
      (∀ esx, lookupT (tpath ++ [n]) d ≠ some (.dir esx)) →
      (tpath ++ [n]) ∈ (filesPass noFail exp false tpath es d).1 ∧
      lookupT (tpath ++ [n]) (filesPass noFail exp false tpath es d).2.2 =
        some (.file c) ∧
      (∀ q, startsWithP q tpath = true →
        viewAt q (filesPass noFail exp false tpath es d).2.2 = some .dir) := by
  intro es
  induction es with
  | nil => intro tpath d n c _ hge; simp [getEntry] at hge
  | cons e es ih =>
    intro tpath d n c hwf hge hf hdm hnd
    obtain ⟨m, u⟩ := e
    obtain ⟨hnotin, hwfes, hwfinner⟩ := wfE_cons_parts hwf
    by_cases hmn : m = n
    · subst hmn
      simp only [getEntry, eq_self_iff_true, if_true, Option.some_inj] at hge
      subst hge
      have hsucc := @copyOne_success tpath m c d hdm hnd
      have hstep : filesPass noFail exp false tpath ((m, FSTree.file c) :: es) d =
          (let r1 := copyOne noFail false tpath m c d
           let r2 := filesPass noFail exp false tpath es r1.2.2
           (r1.1 ++ r2.1, r1.2.1 ++ r2.2.1, r2.2.2)) := by
        simp [filesPass, hf]
      rw [hstep]
      simp only []
      have havoid := filesPass_avoid noFail exp false tpath es
        (copyOne noFail false tpath m c d).2.2 m hnotin
      refine ⟨?_, ?_, ?_⟩
      · rw [List.mem_append, hsucc.1]
        exact Or.inl (by simp)
      · rw [← viewAt_file_iff, havoid.1, viewAt_file_iff]
        exact hsucc.2.1
      · intro q hq
        exact havoid.2 q hq (hsucc.2.2 q hq)
    · have hge2 : getEntry es n = some (.file c) := by
        simpa [getEntry, hmn] using hge
      cases u with
      | dir inner =>
        have hstep : filesPass noFail exp false tpath ((m, FSTree.dir inner) :: es) d =
            filesPass noFail exp false tpath es d := by
          simp [filesPass]
        rw [hstep]
        exact ih tpath d n c hwfes hge2 hf hdm hnd
      | file cm =>
        by_cases hfm : (!(exp m) || m == ".htaccess") = true
        · have hstep : filesPass noFail exp false tpath ((m, FSTree.file cm) :: es) d =
              (let r1 := copyOne noFail false tpath m cm d
               let r2 := filesPass noFail exp false tpath es r1.2.2
               (r1.1 ++ r2.1, r1.2.1 ++ r2.2.1, r2.2.2)) := by
            simp [filesPass, hfm]
          rw [hstep]
          simp only []
          have hne1 : tpath ++ [n] ≠ tpath ++ [m] :=
            snoc_ne_of_ne (fun hcon => hmn hcon.symm)
          have hfr := copyOne_frame noFail false tpath m cm d (tpath ++ [n])
            hne1 (snoc_ne_self tpath n)
          have hview : viewAt (tpath ++ [n]) (copyOne noFail false tpath m cm d).2.2 =
              viewAt (tpath ++ [n]) d := by
            rcases hfr with hfr | ⟨hswp, _, _⟩
            · exact hfr
            · rw [swp_snoc_self_false] at hswp
              cases hswp
          have hdm1 : dirsOrMissing tpath (copyOne noFail false tpath m cm d).2.2 = true := by
            apply dirsOrMissing_of_views
            intro p hp c0
            by_cases hpt : p = tpath
            · rw [hpt]
              exact copyOne_tpath_not_file noFail false tpath m cm d hdm c0
            · rcases copyOne_frame noFail false tpath m cm d p
                  (short_ne_snoc hp m) hpt with hx | ⟨_, _, hx⟩
              · rw [hx]
                rcases dirsOrMissing_prefix hdm hp with h0 | h0 <;> rw [h0] <;> simp
              · rw [hx]
                simp
          have hnd1 : ∀ esx, lookupT (tpath ++ [n])
              (copyOne noFail false tpath m cm d).2.2 ≠ some (.dir esx) := by
            intro esx hcon
            have hv : viewAt (tpath ++ [n])
                (copyOne noFail false tpath m cm d).2.2 = some .dir :=
              viewAt_dir_iff.mpr ⟨esx, hcon⟩
            rw [hview] at hv
            obtain ⟨esy, hly⟩ := viewAt_dir_iff.mp hv
            exact hnd esy hly
          have hrest := ih tpath _ n c hwfes hge2 hf hdm1 hnd1
          refine ⟨?_, hrest.2.1, hrest.2.2⟩
          rw [List.mem_append]
          exact Or.inr hrest.1
        · have hstep : filesPass noFail exp false tpath ((m, FSTree.file cm) :: es) d =
              filesPass noFail exp false tpath es d := by
            simp [filesPass, hfm]
          rw [hstep]
          exact ih tpath d n c hwfes hge2 hf hdm hnd

/-- The copy walk never destroys a directory: an existing destination
directory survives every per-file block (a same-named source file makes
`copy2` raise `IsADirectoryError`, which is caught). -/
theorem copyOne_dir_stable (o : Oracle) (wo : Bool) (tpath : Path) (m : Name)
    (cm : String) (d : FSTree) (p : Path) (hd : viewAt p d = some .dir) :
    viewAt p (copyOne o wo tpath m cm d).2.2 = some .dir := by
  by_cases hpt : p = tpath
  · rw [hpt] at hd ⊢
    exact copyOne_tpath_dir o wo tpath m cm d hd
  · by_cases hptm : p = tpath ++ [m]
    · subst hptm
      obtain ⟨esx, hlx⟩ := viewAt_dir_iff.mp hd
      have hlkt : ∃ es0, lookupT tpath d = some (.dir es0) := by
        rcases hq : lookupT tpath d with _ | u
        · rw [lookupT_append, hq] at hlx
          simp at hlx
        · cases u with
          | file c0 =>
            rw [lookupT_append, hq, Option.some_bind] at hlx
            simp [lookupT] at hlx
          | dir es0 => exact ⟨es0, rfl⟩
      obtain ⟨es0, hlkt⟩ := hlkt
      have hge : getEntry es0 m = some (.dir esx) := by
        rw [lookupT_append, hlkt, Option.some_bind, lookupT_cons_eq] at hlx
        cases hge2 : getEntry es0 m with
        | none => rw [hge2] at hlx; simp at hlx
        | some w =>
          rw [hge2] at hlx
          simp only [Option.some_bind, lookupT] at hlx
          rw [hlx]
      have hc2 : copy2Model tpath m cm d = none := by
        simp only [copy2Model, hlkt, hge]
      have hout : (copyOne o wo tpath m cm d).2.2 = d := by
        cases wo with
        | true => simp [copyOne, hlkt]
        | false =>
          by_cases hfc : o.failCopy (tpath ++ [m]) = true
          · simp [copyOne, hlkt, hfc]
          · simp [copyOne, hlkt, hfc, hc2]
      rw [hout]
      exact hd
    · rcases copyOne_frame o wo tpath m cm d p hptm hpt with hx | ⟨_, hnone, _⟩
      · rw [hx]
        exact hd
      · rw [hd] at hnone
        cases hnone

theorem filesPass_frame (o : Oracle) (exp : Name → Bool) (wo : Bool) (tpath : Path) :
    ∀ (es : Entries) (d : FSTree) (p : Path), startsWithP tpath p = false →
      viewAt p (filesPass o exp wo tpath es d).2.2 = viewAt p d ∨
        (startsWithP p tpath = true ∧ viewAt p d = none ∧
          viewAt p (filesPass o exp wo tpath es d).2.2 = some .dir) := by
  intro es
  induction es with
  | nil => intro d p _; exact Or.inl rfl
  | cons e es ih =>
    intro d p hp
    obtain ⟨m, u⟩ := e
    cases u with
    | dir inner => exact ih d p hp
    | file cm =>
      by_cases hf : (!(exp m) || m == ".htaccess") = true
      · have hstep : (filesPass o exp wo tpath ((m, FSTree.file cm) :: es) d).2.2 =
            (filesPass o exp wo tpath es (copyOne o wo tpath m cm d).2.2).2.2 := by
          simp [filesPass, hf]
        rw [hstep]
        have hne1 : p ≠ tpath ++ [m] := by
          intro hcon
          rw [hcon, swp_append_right] at hp
          cases hp
        have hne2 : p ≠ tpath := by
          intro hcon
          rw [hcon, swp_refl] at hp
          cases hp
        exact frame_trans (copyOne_frame o wo tpath m cm d p hne1 hne2) (ih _ p hp)
      · have hstep : (filesPass o exp wo tpath ((m, FSTree.file cm) :: es) d).2.2 =
            (filesPass o exp wo tpath es d).2.2 := by
          simp [filesPass, hf]
        rw [hstep]
        exact ih d p hp

theorem filesPass_dir_stable (o : Oracle) (exp : Name → Bool) (wo : Bool)
    (tpath : Path) : ∀ (es : Entries) (d : FSTree) (p : Path),
      viewAt p d = some .dir →
      viewAt p (filesPass o exp wo tpath es d).2.2 = some .dir := by
  intro es
  induction es with
  | nil => intro d p hd; exact hd
  | cons e es ih =>
    intro d p hd
    obtain ⟨m, u⟩ := e
    cases u with
    | dir inner => exact ih d p hd
    | file cm =>
      by_cases hf : (!(exp m) || m == ".htaccess") = true
      · have hstep : (filesPass o exp wo tpath ((m, FSTree.file cm) :: es) d).2.2 =
            (filesPass o exp wo tpath es (copyOne o wo tpath m cm d).2.2).2.2 := by
          simp [filesPass, hf]
        rw [hstep]
        exact ih _ p (copyOne_dir_stable o wo tpath m cm d p hd)
      · have hstep : (filesPass o exp wo tpath ((m, FSTree.file cm) :: es) d).2.2 =
            (filesPass o exp wo tpath es d).2.2 := by
          simp [filesPass, hf]
        rw [hstep]
        exact ih d p hd

/-- Frame properties of one `rsync` walk rooted at `tpath`: outside the
target subtree only chain directories are (possibly) created; existing
directories are never destroyed; and paths avoiding every visible
subdirectory target are untouched by the descent. -/
theorem rsync_fuel (o : Oracle) (exp : Name → Bool) (wo : Bool) :
    ∀ (N : Nat) (es : Entries) (tpath : Path), sizeOf es ≤ N →
      (∀ (d : FSTree) (p : Path), startsWithP tpath p = false →
        viewAt p (rsyncDir o exp wo tpath es d).2.2 = viewAt p d ∨
          (startsWithP p tpath = true ∧ viewAt p d = none ∧
            viewAt p (rsyncDir o exp wo tpath es d).2.2 = some .dir)) ∧
      (∀ (d : FSTree) (p : Path), startsWithP tpath p = false →
        viewAt p (rsyncSubs o exp wo tpath es d).2.2 = viewAt p d ∨
          (startsWithP p tpath = true ∧ viewAt p d = none ∧
            viewAt p (rsyncSubs o exp wo tpath es d).2.2 = some .dir)) ∧
      (∀ (d : FSTree) (p : Path), viewAt p d = some .dir →
        viewAt p (rsyncDir o exp wo tpath es d).2.2 = some .dir) ∧
      (∀ (d : FSTree) (p : Path), viewAt p d = some .dir →
        viewAt p (rsyncSubs o exp wo tpath es d).2.2 = some .dir) ∧
      (∀ (d : FSTree) (p0 : Path),
        (∀ m inner, (m, FSTree.dir inner) ∈ es →
          startsWithP (tpath ++ [m]) p0 = false ∧
            startsWithP p0 (tpath ++ [m]) = false) →
        viewAt p0 (rsyncSubs o exp wo tpath es d).2.2 = viewAt p0 d) := by
  intro N
  induction N with
  | zero =>
    intro es tpath hsz
    have := sizeOf_pos_entries es
    omega
  | succ N ihN =>
    intro es tpath hsz
    have HS : (∀ (d : FSTree) (p : Path), startsWithP tpath p = false →
        viewAt p (rsyncSubs o exp wo tpath es d).2.2 = viewAt p d ∨
          (startsWithP p tpath = true ∧ viewAt p d = none ∧
            viewAt p (rsyncSubs o exp wo tpath es d).2.2 = some .dir)) ∧
        (∀ (d : FSTree) (p : Path), viewAt p d = some .dir →
          viewAt p (rsyncSubs o exp wo tpath es d).2.2 = some .dir) ∧
        (∀ (d : FSTree) (p0 : Path),
          (∀ m inner, (m, FSTree.dir inner) ∈ es →
            startsWithP (tpath ++ [m]) p0 = false ∧
              startsWithP p0 (tpath ++ [m]) = false) →
          viewAt p0 (rsyncSubs o exp wo tpath es d).2.2 = viewAt p0 d) := by
      match es with
      | [] =>
        have hstep : ∀ d, rsyncSubs o exp wo tpath [] d = ([], [], d) := by
          intro d
          simp [rsyncSubs]
        refine ⟨fun d p _ => ?_, fun d p hd => ?_, fun d p0 _ => ?_⟩
        · rw [hstep]
          exact Or.inl rfl
        · rw [hstep]
          exact hd
        · rw [hstep]
      | (m, .file cm) :: es' =>
        have hlt := (sizeOf_cons_entries m (.file cm) es').1
        have htail := ihN es' tpath (by omega)
        have hstep : ∀ d, rsyncSubs o exp wo tpath ((m, FSTree.file cm) :: es') d =
            rsyncSubs o exp wo tpath es' d := by
          intro d
          simp [rsyncSubs]
        refine ⟨fun d p hp => ?_, fun d p hd => ?_, fun d p0 h => ?_⟩
        · rw [hstep]
          exact htail.2.1 d p hp
        · rw [hstep]
          exact htail.2.2.2.1 d p hd
        · rw [hstep]
          exact htail.2.2.2.2 d p0
            (fun m2 inner2 hm2 => h m2 inner2 (List.mem_cons_of_mem _ hm2))
      | (m, .dir inner) :: es' =>
        have hlt := (sizeOf_cons_entries m (.dir inner) es').1
        have hlt2 := (sizeOf_cons_entries m (.dir inner) es').2 inner rfl
        have htail := ihN es' tpath (by omega)
        have hinner := ihN inner (tpath ++ [m]) (by omega)
        by_cases hx : exp (m ++ "/") = true
        · have hstep : ∀ d, rsyncSubs o exp wo tpath ((m, FSTree.dir inner) :: es') d =
              rsyncSubs o exp wo tpath es' d := by
            intro d
            simp [rsyncSubs, hx]
          refine ⟨fun d p hp => ?_, fun d p hd => ?_, fun d p0 h => ?_⟩
          · rw [hstep]
            exact htail.2.1 d p hp
          · rw [hstep]
            exact htail.2.2.2.1 d p hd
          · rw [hstep]
            exact htail.2.2.2.2 d p0
              (fun m2 inner2 hm2 => h m2 inner2 (List.mem_cons_of_mem _ hm2))
        · have hstep : ∀ d,
              (rsyncSubs o exp wo tpath ((m, FSTree.dir inner) :: es') d).2.2 =
              (rsyncSubs o exp wo tpath es'
                (rsyncDir o exp wo (tpath ++ [m]) inner d).2.2).2.2 := by
            intro d
            simp [rsyncSubs, hx]
          refine ⟨fun d p hp => ?_, fun d p hd => ?_, fun d p0 h => ?_⟩
          · rw [hstep]
            have hnp : startsWithP (tpath ++ [m]) p = false := by
              cases hq : startsWithP (tpath ++ [m]) p with
              | false => rfl
              | true =>
                rw [swp_trans (swp_append_right tpath [m]) hq] at hp
                cases hp
            have hin := hinner.1 d p hnp
            have hconv : viewAt p (rsyncDir o exp wo (tpath ++ [m]) inner d).2.2 =
                viewAt p d ∨
                (startsWithP p tpath = true ∧ viewAt p d = none ∧
                  viewAt p (rsyncDir o exp wo (tpath ++ [m]) inner d).2.2 =
                    some .dir) := by
              rcases hin with hin | ⟨hsw, hn, hdd⟩
              · exact Or.inl hin
              · rcases swp_snoc hsw with hsw2 | hsw2
                · exact Or.inr ⟨hsw2, hn, hdd⟩
                · rw [hsw2, swp_append_right] at hp
                  cases hp
            exact frame_trans hconv (htail.2.1 _ p hp)
          · rw [hstep]
            exact htail.2.2.2.1 _ p (hinner.2.2.1 d p hd)
          · rw [hstep]
            have hm := h m inner (List.mem_cons_self _ _)
            have hin := hinner.1 d p0 hm.1
            have heq : viewAt p0 (rsyncDir o exp wo (tpath ++ [m]) inner d).2.2 =
                viewAt p0 d := by
              rcases hin with hin | ⟨hsw, _, _⟩
              · exact hin
              · rw [hm.2] at hsw
                cases hsw
            rw [htail.2.2.2.2 _ p0
              (fun m2 inner2 hm2 => h m2 inner2 (List.mem_cons_of_mem _ hm2)), heq]
    have hDirStep : ∀ d, (rsyncDir o exp wo tpath es d).2.2 =
        (rsyncSubs o exp wo tpath es
          (filesPass o exp wo tpath es d).2.2).2.2 := by
      intro d
      simp [rsyncDir]
    refine ⟨fun d p hp => ?_, HS.1, fun d p hd => ?_, HS.2.1, HS.2.2⟩
    · rw [hDirStep]
      exact frame_trans (filesPass_frame o exp wo tpath es d p hp) (HS.1 _ p hp)
    · rw [hDirStep]
      exact HS.2.1 _ p (filesPass_dir_stable o exp wo tpath es d p hd)

theorem contains_false_not_mem : ∀ {l : List Name} {n : Name},
    l.contains n = false → n ∉ l := by
  intro l
  induction l with
  | nil =>
    intro n _ hmem
    cases hmem
  | cons a l ih =>
    intro n h hmem
    simp only [List.contains_cons, Bool.or_eq_false_iff] at h
    rcases List.mem_cons.mp hmem with heq | hmem2
    · rw [heq] at h
      simp at h
    · exact ih h.2 hmem2

/-- In a well-formed listing, membership determines the lookup: the entry
found for a name is the unique entry carrying it. -/
theorem wfE_mem_getEntry : ∀ {es : Entries} {m : Name} {u : FSTree},
    wfE es = true → (m, u) ∈ es → getEntry es m = some u := by
  intro es
  induction es with
  | nil =>
    intro m u _ hmem
    cases hmem
  | cons e es ih =>
    intro m u hwf hmem
    obtain ⟨m2, u2⟩ := e
    obtain ⟨hnotin, hwfes, _⟩ := wfE_cons_parts hwf
    rcases List.mem_cons.mp hmem with heq | hmem2
    · injection heq with hm hu
      simp [getEntry, hm.symm, hu]
    · by_cases hm : m2 = m
      · exfalso
        have hmm : m ∈ es.map Prod.fst :=
          List.mem_map.mpr ⟨(m, u), hmem2, rfl⟩
        rw [← hm] at hmm
        exact contains_false_not_mem hnotin hmm
      · simp only [getEntry, if_neg hm]
        exact ih hwfes hmem2

theorem wfE_mem_dir : ∀ {es : Entries} {m : Name} {inner : Entries},
    wfE es = true → (m, FSTree.dir inner) ∈ es → wfE inner = true := by
  intro es
  induction es with
  | nil =>
    intro m inner _ hmem
    cases hmem
  | cons e es ih =>
    intro m inner hwf hmem
    obtain ⟨m2, u2⟩ := e
    obtain ⟨_, hwfes, hdir⟩ := wfE_cons_parts hwf
    rcases List.mem_cons.mp hmem with heq | hmem2
    · injection heq with hm hu
      exact hdir inner hu.symm
    · exact ih hwfes hmem2

/-- Two prefixes of the same path are comparable. -/
theorem swp_comparable : ∀ {q p s : Path}, startsWithP p q = true →
    startsWithP s q = true → startsWithP p s = true ∨ startsWithP s p = true := by
  intro q
  induction q with
  | nil =>
    intro p s hp _
    rw [swp_nil_right.mp hp]
    exact Or.inl rfl
  | cons b q ih =>
    intro p s hp hs
    match p, s with
    | [], _ => exact Or.inl rfl
    | _ :: _, [] => exact Or.inr rfl
    | a :: p, c :: s =>
      simp only [startsWithP, Bool.and_eq_true, decide_eq_true_eq] at hp hs ⊢
      rcases ih hp.2 hs.2 with h | h
      · exact Or.inl ⟨hp.1.trans hs.1.symm, h⟩
      · exact Or.inr ⟨hs.1.trans hp.1.symm, h⟩

theorem swp_cons_ne_false {a b : Name} (hab : a ≠ b) (x u v : Path) :
    startsWithP (x ++ a :: u) (x ++ b :: v) = false := by
  rw [swp_append_cancel x (a :: u) (b :: v)]
  simp [startsWithP, hab]

/-- The file loop of a directory leaves every position strictly inside a
same-named subdirectory untouched (files and subdirectories of a real
directory have distinct names). -/
theorem filesPass_under (o : Oracle) (exp : Name → Bool) (wo : Bool) (tpath : Path)
    (dn : Name) : ∀ (es : Entries) (d : FSTree) (p : Path),
    (∀ cm, (dn, FSTree.file cm) ∉ es) →
    startsWithP (tpath ++ [dn]) p = true →
    viewAt p (filesPass o exp wo tpath es d).2.2 = viewAt p d := by
  intro es
  induction es with
  | nil =>
    intro d p _ _
    rfl
  | cons e es ih =>
    intro d p hni hp
    obtain ⟨m, u⟩ := e
    have hni' : ∀ cm, (dn, FSTree.file cm) ∉ es := fun cm hc =>
      hni cm (List.mem_cons_of_mem _ hc)
    cases u with
    | dir inner => exact ih d p hni' hp
    | file cm =>
      by_cases hf : (!(exp m) || m == ".htaccess") = true
      · have hstep : (filesPass o exp wo tpath ((m, FSTree.file cm) :: es) d).2.2 =
            (filesPass o exp wo tpath es (copyOne o wo tpath m cm d).2.2).2.2 := by
          simp [filesPass, hf]
        rw [hstep]
        have hmdn : m ≠ dn := by
          intro hcon
          exact hni cm (by rw [hcon]; exact List.mem_cons_self _ _)
        obtain ⟨rest, hrest⟩ := swp_exists hp
        have hp' : p = tpath ++ dn :: rest := by
          rw [hrest]
          simp
        have hne1 : p ≠ tpath ++ [m] := by
          rw [hp']
          intro hcon
          have h2 : dn :: rest = [m] := by simpa using hcon
          simp only [List.cons.injEq] at h2
          exact hmdn h2.1.symm
        have hne2 : p ≠ tpath := by
          rw [hp']
          intro hcon
          have := congrArg List.length hcon
          simp at this
        have heq : viewAt p (copyOne o wo tpath m cm d).2.2 = viewAt p d := by
          rcases copyOne_frame o wo tpath m cm d p hne1 hne2 with h | ⟨hs, _, _⟩
          · exact h
          · exfalso
            have hcon := swp_trans hp hs
            rw [swp_snoc_self_false] at hcon
            cases hcon
        rw [ih _ p hni' hp, heq]
      · have hstep : (filesPass o exp wo tpath ((m, FSTree.file cm) :: es) d).2.2 =
            (filesPass o exp wo tpath es d).2.2 := by
          simp [filesPass, hf]
        rw [hstep]
        exact ih d p hni' hp

theorem copyOne_dirsOrMissing (o : Oracle) (wo : Bool) (tpath : Path) (m : Name)
    (cm : String) (d : FSTree) (hdm : dirsOrMissing tpath d = true) :
    dirsOrMissing tpath (copyOne o wo tpath m cm d).2.2 = true := by
  apply dirsOrMissing_of_views
  intro p hp c0
  by_cases hpt : p = tpath
  · rw [hpt]
    exact copyOne_tpath_not_file o wo tpath m cm d hdm c0
  · rcases copyOne_frame o wo tpath m cm d p (short_ne_snoc hp m) hpt with hx | ⟨_, _, hx⟩
    · rw [hx]
      rcases dirsOrMissing_prefix hdm hp with h0 | h0 <;> rw [h0] <;> simp
    · rw [hx]
      simp

theorem filesPass_dirsOrMissing (o : Oracle) (exp : Name → Bool) (wo : Bool)
    (tpath : Path) : ∀ (es : Entries) (d : FSTree),
    dirsOrMissing tpath d = true →
    dirsOrMissing tpath (filesPass o exp wo tpath es d).2.2 = true := by
  intro es
  induction es with
  | nil =>
    intro d h
    exact h
  | cons e es ih =>
    intro d h
    obtain ⟨m, u⟩ := e
    cases u with
    | dir inner => exact ih d h
    | file cm =>
      by_cases hf : (!(exp m) || m == ".htaccess") = true
      · have hstep : (filesPass o exp wo tpath ((m, FSTree.file cm) :: es) d).2.2 =
            (filesPass o exp wo tpath es (copyOne o wo tpath m cm d).2.2).2.2 := by
          simp [filesPass, hf]
        rw [hstep]
        exact ih _ (copyOne_dirsOrMissing o wo tpath m cm d h)
      · have hstep : (filesPass o exp wo tpath ((m, FSTree.file cm) :: es) d).2.2 =
            (filesPass o exp wo tpath es d).2.2 := by
          simp [filesPass, hf]
        rw [hstep]
        exact ih d h

theorem dirsOrMissing_mono {q t : Path} {d : FSTree} (h : dirsOrMissing q d = true)
    (ht : startsWithP t q = true) : dirsOrMissing t d = true := by
  apply dirsOrMissing_of_views
  intro p hp c0 hcon
  rcases dirsOrMissing_prefix h (swp_trans hp ht) with h0 | h0 <;> rw [h0] at hcon
  · cases hcon
  · simp at hcon

/-- The copy walk places every visible source file of a root: in a
failure-free non-walk-only run its destination path enters the manifest,
the destination holds its content afterwards, and the whole destination
directory chain above it exists afterwards - provided no entry of the
chain pre-exists as a file and the target path itself is not a
pre-existing directory. -/
theorem rsync_copies (exp : Name → Bool) :
    ∀ (sp : Path) (tpath : Path) (es : Entries) (d : FSTree) (n : Name) (c : String),
      wfE es = true →
      visibleFileAt exp sp n es = some c →
      dirsOrMissing (tpath ++ sp) d = true →
      (∀ esx, lookupT ((tpath ++ sp) ++ [n]) d ≠ some (.dir esx)) →
      ((tpath ++ sp) ++ [n]) ∈ (rsyncDir noFail exp false tpath es d).1 ∧
      lookupT ((tpath ++ sp) ++ [n]) (rsyncDir noFail exp false tpath es d).2.2 =
        some (.file c) ∧
      (∀ q, startsWithP q (tpath ++ sp) = true →
        viewAt q (rsyncDir noFail exp false tpath es d).2.2 = some .dir) := by
  intro sp
  induction sp with
  | nil =>
    intro tpath es d n c hwf hv hdm hnd
    simp only [List.append_nil] at hdm hnd ⊢
    cases hge : getEntry es n with
    | none => simp [visibleFileAt, hge] at hv
    | some u =>
      cases u with
      | dir inner1 => simp [visibleFileAt, hge] at hv
      | file c0 =>
        simp only [visibleFileAt, hge] at hv
        by_cases hf : (!(exp n) || n == ".htaccess") = true
        · simp only [hf, if_true] at hv
          simp only [Option.some_inj] at hv
          rw [hv] at hge
          have hF := filesPass_copies exp es tpath d n c hwf hge hf hdm hnd
          have hman : (rsyncDir noFail exp false tpath es d).1 =
              tpath :: ((filesPass noFail exp false tpath es d).1 ++
                (rsyncSubs noFail exp false tpath es
                  (filesPass noFail exp false tpath es d).2.2).1) := by
            simp [rsyncDir]
          have htree : (rsyncDir noFail exp false tpath es d).2.2 =
              (rsyncSubs noFail exp false tpath es
                (filesPass noFail exp false tpath es d).2.2).2.2 := by
            simp [rsyncDir]
          have hfuel := rsync_fuel noFail exp false (sizeOf es) es tpath (le_refl _)
          have havoid : viewAt (tpath ++ [n])
              (rsyncSubs noFail exp false tpath es
                (filesPass noFail exp false tpath es d).2.2).2.2 =
              viewAt (tpath ++ [n])
                (filesPass noFail exp false tpath es d).2.2 := by
            apply hfuel.2.2.2.2
            intro m inner hmem
            have hge2 := wfE_mem_getEntry hwf hmem
            have hmn : m ≠ n := by
              intro hcon
              rw [hcon, hge] at hge2
              cases hge2
            exact ⟨swp_cons_ne_false hmn tpath [] [],
                   swp_cons_ne_false (Ne.symm hmn) tpath [] []⟩
          refine ⟨?_, ?_, ?_⟩
          · rw [hman]
            exact List.mem_cons_of_mem _ (List.mem_append.mpr (Or.inl hF.1))
          · rw [htree, ← viewAt_file_iff, havoid, viewAt_file_iff]
            exact hF.2.1
          · intro q hq
            rw [htree]
            exact hfuel.2.2.2.1 _ q (hF.2.2 q hq)
        · simp [hf] at hv
  | cons dname r ih =>
    intro tpath es d n c hwf hv hdm hnd
    cases hge : getEntry es dname with
    | none => simp [visibleFileAt, hge] at hv
    | some u =>
      cases u with
      | file c0 => simp [visibleFileAt, hge] at hv
      | dir inner0 =>
        simp only [visibleFileAt, hge] at hv
        by_cases hx : exp (dname ++ "/") = true
        · simp [hx] at hv
        · have hx' : exp (dname ++ "/") = false := by
            cases hxx : exp (dname ++ "/") with
            | false => rfl
            | true => exact absurd hxx hx
          simp only [hx', Bool.false_eq_true, if_false] at hv
          have hpjoin : tpath ++ dname :: r = (tpath ++ [dname]) ++ r := by simp
          rw [hpjoin] at hdm hnd ⊢
          have hwfi : wfE inner0 = true := wfE_mem_dir hwf (getEntry_mem hge)
          have hnofile : ∀ cm, (dname, FSTree.file cm) ∉ es := by
            intro cm hmem
            have h2 := wfE_mem_getEntry hwf hmem
            rw [hge] at h2
            cases h2
          have hunder : ∀ p, startsWithP (tpath ++ [dname]) p = true →
              viewAt p (filesPass noFail exp false tpath es d).2.2 = viewAt p d :=
            fun p hp => filesPass_under noFail exp false tpath dname es d p hnofile hp
          have hdm1 : dirsOrMissing ((tpath ++ [dname]) ++ r)
              (filesPass noFail exp false tpath es d).2.2 = true := by
            apply dirsOrMissing_of_views
            intro p hp c0 hcon
            rcases swp_comparable hp (swp_append_right (tpath ++ [dname]) r) with
              hcc | hcc
            · rcases swp_snoc hcc with hpt | hpt
              · by_cases hpe : p = tpath
                · have htple : startsWithP tpath ((tpath ++ [dname]) ++ r) = true := by
                    rw [List.append_assoc]
                    exact swp_append_right tpath ([dname] ++ r)
                  have hdm0 : dirsOrMissing tpath d = true := dirsOrMissing_mono hdm htple
                  have hdmF := filesPass_dirsOrMissing noFail exp false tpath es d hdm0
                  rw [hpe] at hcon
                  rcases dirsOrMissing_prefix hdmF (swp_refl tpath) with h0 | h0 <;>
                    rw [h0] at hcon
                  · cases hcon
                  · simp at hcon
                · have hpf : startsWithP tpath p = false := swp_proper_not hpt hpe
                  rcases filesPass_frame noFail exp false tpath es d p hpf with
                    heq | ⟨_, _, hdir⟩
                  · rw [heq] at hcon
                    rcases dirsOrMissing_prefix hdm hp with h0 | h0 <;> rw [h0] at hcon
                    · cases hcon
                    · simp at hcon
                  · rw [hdir] at hcon
                    simp at hcon
              · have hswp : startsWithP (tpath ++ [dname]) p = true := by
                  rw [hpt]
                  exact swp_refl _
                rw [hunder p hswp] at hcon
                rcases dirsOrMissing_prefix hdm hp with h0 | h0 <;> rw [h0] at hcon
                · cases hcon
                · simp at hcon
            · rw [hunder p hcc] at hcon
              rcases dirsOrMissing_prefix hdm hp with h0 | h0 <;> rw [h0] at hcon
              · cases hcon
              · simp at hcon
          have hnd1 : ∀ esx, lookupT (((tpath ++ [dname]) ++ r) ++ [n])
              (filesPass noFail exp false tpath es d).2.2 ≠ some (.dir esx) := by
            intro esx hcon
            have hv2 : viewAt (((tpath ++ [dname]) ++ r) ++ [n])
                (filesPass noFail exp false tpath es d).2.2 = some .dir :=
              viewAt_dir_iff.mpr ⟨esx, hcon⟩
            have hple : startsWithP (tpath ++ [dname])
                (((tpath ++ [dname]) ++ r) ++ [n]) = true := by
              rw [List.append_assoc]
              exact swp_append_right _ _
            rw [hunder _ hple] at hv2
            obtain ⟨esy, hly⟩ := viewAt_dir_iff.mp hv2
            exact hnd esy hly
          have SUBS : ∀ (es2 : Entries), wfE es2 = true →
              getEntry es2 dname = some (.dir inner0) →
              ∀ (d2 : FSTree),
                dirsOrMissing ((tpath ++ [dname]) ++ r) d2 = true →
                (∀ esx, lookupT (((tpath ++ [dname]) ++ r) ++ [n]) d2 ≠
                  some (.dir esx)) →
                ((((tpath ++ [dname]) ++ r) ++ [n]) ∈
                  (rsyncSubs noFail exp false tpath es2 d2).1 ∧
                 lookupT (((tpath ++ [dname]) ++ r) ++ [n])
                   (rsyncSubs noFail exp false tpath es2 d2).2.2 =
                     some (.file c) ∧
                 (∀ q, startsWithP q ((tpath ++ [dname]) ++ r) = true →
                   viewAt q (rsyncSubs noFail exp false tpath es2 d2).2.2 =
                     some .dir)) := by
            intro es2
            induction es2 with
            | nil =>
              intro _ hge2 _ _ _
              simp [getEntry] at hge2
            | cons e es2 ihS =>
              intro hwf2 hge2 d2 hdm2 hnd2
              obtain ⟨m, u⟩ := e
              obtain ⟨hnotin2, hwfes2, _⟩ := wfE_cons_parts hwf2
              by_cases hmd : m = dname
              · subst m
                simp only [getEntry, eq_self_iff_true, if_true,
                  Option.some_inj] at hge2
                subst hge2
                have hstep : rsyncSubs noFail exp false tpath
                    ((dname, FSTree.dir inner0) :: es2) d2 =
                    (let r1 := rsyncDir noFail exp false (tpath ++ [dname]) inner0 d2
                     let r2 := rsyncSubs noFail exp false tpath es2 r1.2.2
                     (r1.1 ++ r2.1, r1.2.1 ++ r2.2.1, r2.2.2)) := by
                  simp [rsyncSubs, hx']
                rw [hstep]
                simp only []
                have hinner := ih (tpath ++ [dname]) inner0 d2 n c hwfi hv hdm2 hnd2
                have hfuel2 := rsync_fuel noFail exp false (sizeOf es2) es2 tpath
                  (le_refl _)
                have havoid2 : viewAt (((tpath ++ [dname]) ++ r) ++ [n])
                    (rsyncSubs noFail exp false tpath es2
                      (rsyncDir noFail exp false (tpath ++ [dname]) inner0 d2).2.2).2.2 =
                    viewAt (((tpath ++ [dname]) ++ r) ++ [n])
                      (rsyncDir noFail exp false (tpath ++ [dname]) inner0 d2).2.2 := by
                  apply hfuel2.2.2.2.2
                  intro m2 inner2 hmem2
                  have hm2 : m2 ∈ es2.map Prod.fst :=
                    List.mem_map.mpr ⟨(m2, FSTree.dir inner2), hmem2, rfl⟩
                  have hm2d : m2 ≠ dname := by
                    intro hcon
                    rw [hcon] at hm2
                    exact contains_false_not_mem hnotin2 hm2
                  have hpeq : (((tpath ++ [dname]) ++ r) ++ [n]) =
                      tpath ++ dname :: (r ++ [n]) := by simp
                  rw [hpeq]
                  exact ⟨swp_cons_ne_false hm2d tpath [] (r ++ [n]),
                         swp_cons_ne_false (Ne.symm hm2d) tpath (r ++ [n]) []⟩
                refine ⟨?_, ?_, ?_⟩
                · exact List.mem_append.mpr (Or.inl hinner.1)
                · rw [← viewAt_file_iff, havoid2, viewAt_file_iff]
                  exact hinner.2.1
                · intro q hq
                  exact hfuel2.2.2.2.1 _ q (hinner.2.2 q hq)
              · have hge2' : getEntry es2 dname = some (.dir inner0) := by
                  simpa [getEntry, hmd] using hge2
                cases u with
                | file cm =>
                  have hstep : rsyncSubs noFail exp false tpath
                      ((m, FSTree.file cm) :: es2) d2 =
                      rsyncSubs noFail exp false tpath es2 d2 := by
                    simp [rsyncSubs]
                  rw [hstep]
                  exact ihS hwfes2 hge2' d2 hdm2 hnd2
                | dir innm =>
                  by_cases hxm : exp (m ++ "/") = true
                  · have hstep : rsyncSubs noFail exp false tpath
                        ((m, FSTree.dir innm) :: es2) d2 =
                        rsyncSubs noFail exp false tpath es2 d2 := by
                      simp [rsyncSubs, hxm]
                    rw [hstep]
                    exact ihS hwfes2 hge2' d2 hdm2 hnd2
                  · have hstep : rsyncSubs noFail exp false tpath
                        ((m, FSTree.dir innm) :: es2) d2 =
                        (let r1 := rsyncDir noFail exp false (tpath ++ [m]) innm d2
                         let r2 := rsyncSubs noFail exp false tpath es2 r1.2.2
                         (r1.1 ++ r2.1, r1.2.1 ++ r2.2.1, r2.2.2)) := by
                      simp [rsyncSubs, hxm]
                    rw [hstep]
                    simp only []
                    have hfuelm := rsync_fuel noFail exp false (sizeOf innm) innm
                      (tpath ++ [m]) (le_refl _)
                    have hDframe := hfuelm.1
                    have hdm3 : dirsOrMissing ((tpath ++ [dname]) ++ r)
                        (rsyncDir noFail exp false (tpath ++ [m]) innm d2).2.2 =
                        true := by
                      apply dirsOrMissing_of_views
                      intro p hp c0 hcon
                      have hpf : startsWithP (tpath ++ [m]) p = false := by
                        cases hqq : startsWithP (tpath ++ [m]) p with
                        | false => rfl
                        | true =>
                          exfalso
                          have h1 := swp_trans hqq hp
                          have h2 : ((tpath ++ [dname]) ++ r) =
                              tpath ++ dname :: r := by simp
                          rw [h2, swp_cons_ne_false hmd tpath [] r] at h1
                          cases h1
                      rcases hDframe d2 p hpf with heq | ⟨_, _, hdir⟩
                      · rw [heq] at hcon
                        rcases dirsOrMissing_prefix hdm2 hp with h0 | h0 <;>
                          rw [h0] at hcon
                        · cases hcon
                        · simp at hcon
                      · rw [hdir] at hcon
                        simp at hcon
                    have hnd3 : ∀ esx, lookupT (((tpath ++ [dname]) ++ r) ++ [n])
                        (rsyncDir noFail exp false (tpath ++ [m]) innm d2).2.2 ≠
                        some (.dir esx) := by
                      intro esx hcon
                      have hv3 : viewAt (((tpath ++ [dname]) ++ r) ++ [n])
                          (rsyncDir noFail exp false (tpath ++ [m]) innm d2).2.2 =
                          some .dir := viewAt_dir_iff.mpr ⟨esx, hcon⟩
                      have hpeq : (((tpath ++ [dname]) ++ r) ++ [n]) =
                          tpath ++ dname :: (r ++ [n]) := by simp
                      have hpf : startsWithP (tpath ++ [m])
                          (((tpath ++ [dname]) ++ r) ++ [n]) = false := by
                        rw [hpeq]
                        exact swp_cons_ne_false hmd tpath [] (r ++ [n])
                      rcases hDframe d2 _ hpf with heq | ⟨hsw, _, _⟩
                      · rw [heq] at hv3
                        obtain ⟨esy, hly⟩ := viewAt_dir_iff.mp hv3
                        exact hnd2 esy hly
                      · rw [hpeq, swp_cons_ne_false (Ne.symm hmd) tpath (r ++ [n]) []]
                          at hsw
                        cases hsw
                    have hrest := ihS hwfes2 hge2' _ hdm3 hnd3
                    exact ⟨List.mem_append.mpr (Or.inr hrest.1), hrest.2.1,
                      hrest.2.2⟩
          have hman : (rsyncDir noFail exp false tpath es d).1 =
              tpath :: ((filesPass noFail exp false tpath es d).1 ++
                (rsyncSubs noFail exp false tpath es
                  (filesPass noFail exp false tpath es d).2.2).1) := by
            simp [rsyncDir]
          have htree : (rsyncDir noFail exp false tpath es d).2.2 =
              (rsyncSubs noFail exp false tpath es
                (filesPass noFail exp false tpath es d).2.2).2.2 := by
            simp [rsyncDir]
          have hS := SUBS es hwf hge _ hdm1 hnd1
          refine ⟨?_, ?_, ?_⟩
          · rw [hman]
            exact List.mem_cons_of_mem _ (List.mem_append.mpr (Or.inr hS.1))
          · rw [htree]
            exact hS.2.1
          · intro q hq
            rw [htree]
            exact hS.2.2 q hq

/-- Every per-file block accounts for its file under every oracle: the
destination path enters the manifest (the append on line 263, reached
whenever the target directory could be ensured) or the failure report
(the `makedirs` failure, caught on lines 269-271). -/
theorem copyOne_accounts (o : Oracle) (wo : Bool) (tpath : Path) (n : Name)
    (c : String) (d : FSTree) :
    (tpath ++ [n]) ∈ (copyOne o wo tpath n c d).1 ∨
    (tpath ++ [n]) ∈ (copyOne o wo tpath n c d).2.1 := by
  cases hlk : lookupT tpath d with
  | some u =>
    cases wo with
    | true =>
      left
      simp [copyOne, hlk]
    | false =>
      cases hfc : o.failCopy (tpath ++ [n]) with
      | true =>
        left
        simp [copyOne, hlk, hfc]
      | false =>
        cases h2 : copy2Model tpath n c d with
        | none =>
          left
          simp [copyOne, hlk, hfc, h2]
        | some d2 =>
          left
          simp [copyOne, hlk, hfc, h2]
  | none =>
    cases hmf : o.failMk tpath with
    | true =>
      right
      simp [copyOne, hlk, hmf]
    | false =>
      cases hmk : mkdirsT tpath d with
      | none =>
        right
        simp [copyOne, hlk, hmf, hmk]
      | some d1 =>
        cases wo with
        | true =>
          left
          simp [copyOne, hlk, hmf, hmk]
        | false =>
          cases hfc : o.failCopy (tpath ++ [n]) with
          | true =>
            left
            simp [copyOne, hlk, hmf, hmk, hfc]
          | false =>
            cases h2 : copy2Model tpath n c d1 with
            | none =>
              left
              simp [copyOne, hlk, hmf, hmk, hfc, h2]
            | some d2 =>
              left
              simp [copyOne, hlk, hmf, hmk, hfc, h2]

theorem filesPass_accounts (o : Oracle) (exp : Name → Bool) (wo : Bool)
    (tpath : Path) : ∀ (es : Entries) (d : FSTree) (n : Name) (c : String),
    (n, FSTree.file c) ∈ es → (!(exp n) || n == ".htaccess") = true →
    (tpath ++ [n]) ∈ (filesPass o exp wo tpath es d).1 ∨
    (tpath ++ [n]) ∈ (filesPass o exp wo tpath es d).2.1 := by
  intro es
  induction es with
  | nil =>
    intro d n c hmem _
    cases hmem
  | cons e es ih =>
    intro d n c hmem hf
    obtain ⟨m, u⟩ := e
    rcases List.mem_cons.mp hmem with heq | hmem2
    · injection heq with hm hu
      subst m
      rw [← hu]
      have hstep : filesPass o exp wo tpath ((n, FSTree.file c) :: es) d =
          (let r1 := copyOne o wo tpath n c d
           let r2 := filesPass o exp wo tpath es r1.2.2
           (r1.1 ++ r2.1, r1.2.1 ++ r2.2.1, r2.2.2)) := by
        simp [filesPass, hf]
      rw [hstep]
      simp only []
      rcases copyOne_accounts o wo tpath n c d with h | h
      · exact Or.inl (List.mem_append.mpr (Or.inl h))
      · exact Or.inr (List.mem_append.mpr (Or.inl h))
    · cases u with
      | dir inner => exact ih d n c hmem2 hf
      | file cm =>
        by_cases hfm : (!(exp m) || m == ".htaccess") = true
        · have hstep : filesPass o exp wo tpath ((m, FSTree.file cm) :: es) d =
              (let r1 := copyOne o wo tpath m cm d
               let r2 := filesPass o exp wo tpath es r1.2.2
               (r1.1 ++ r2.1, r1.2.1 ++ r2.2.1, r2.2.2)) := by
            simp [filesPass, hfm]
          rw [hstep]
          simp only []
          rcases ih _ n c hmem2 hf with h | h
          · exact Or.inl (List.mem_append.mpr (Or.inr h))
          · exact Or.inr (List.mem_append.mpr (Or.inr h))
        · have hstep : filesPass o exp wo tpath ((m, FSTree.file cm) :: es) d =
              filesPass o exp wo tpath es d := by
            simp [filesPass, hfm]
          rw [hstep]
          exact ih d n c hmem2 hf

/-- Every visible file target comes either from a file of the visited
directory that passes the filter or from the subtree of a visible
subdirectory. -/
theorem fileTargets_origin (exp : Name → Bool) :
    ∀ (es : Entries) (tpath : Path) (p : Path), p ∈ fileTargets exp tpath es →
      (∃ n c, (n, FSTree.file c) ∈ es ∧ (!(exp n) || n == ".htaccess") = true ∧
        p = tpath ++ [n]) ∨
      (∃ m inner, (m, FSTree.dir inner) ∈ es ∧ exp (m ++ "/") = false ∧
        p ∈ fileTargets exp (tpath ++ [m]) inner) := by
  intro es
  induction es with
  | nil =>
    intro tpath p hp
    simp [fileTargets] at hp
  | cons e es ih =>
    intro tpath p hp
    obtain ⟨m, u⟩ := e
    cases u with
    | file cm =>
      by_cases hf : (!(exp m) || m == ".htaccess") = true
      · have hstep : fileTargets exp tpath ((m, FSTree.file cm) :: es) =
            (tpath ++ [m]) :: fileTargets exp tpath es := by
          simp [fileTargets, hf]
        rw [hstep] at hp
        rcases List.mem_cons.mp hp with h | h
        · exact Or.inl ⟨m, cm, List.mem_cons_self _ _, hf, h⟩
        · rcases ih tpath p h with ⟨n2, c2, hm2, hf2, hp2⟩ | ⟨m2, in2, hm2, hx2, hp2⟩
          · exact Or.inl ⟨n2, c2, List.mem_cons_of_mem _ hm2, hf2, hp2⟩
          · exact Or.inr ⟨m2, in2, List.mem_cons_of_mem _ hm2, hx2, hp2⟩
      · have hstep : fileTargets exp tpath ((m, FSTree.file cm) :: es) =
            fileTargets exp tpath es := by
          simp [fileTargets, hf]
        rw [hstep] at hp
        rcases ih tpath p hp with ⟨n2, c2, hm2, hf2, hp2⟩ | ⟨m2, in2, hm2, hx2, hp2⟩
        · exact Or.inl ⟨n2, c2, List.mem_cons_of_mem _ hm2, hf2, hp2⟩
        · exact Or.inr ⟨m2, in2, List.mem_cons_of_mem _ hm2, hx2, hp2⟩
    | dir inner =>
      cases hx : exp (m ++ "/") with
      | true =>
        have hstep : fileTargets exp tpath ((m, FSTree.dir inner) :: es) =
            fileTargets exp tpath es := by
          simp [fileTargets, hx]
        rw [hstep] at hp
        rcases ih tpath p hp with ⟨n2, c2, hm2, hf2, hp2⟩ | ⟨m2, in2, hm2, hx2, hp2⟩
        · exact Or.inl ⟨n2, c2, List.mem_cons_of_mem _ hm2, hf2, hp2⟩
        · exact Or.inr ⟨m2, in2, List.mem_cons_of_mem _ hm2, hx2, hp2⟩
      | false =>
        have hstep : fileTargets exp tpath ((m, FSTree.dir inner) :: es) =
            fileTargets exp (tpath ++ [m]) inner ++ fileTargets exp tpath es := by
          simp [fileTargets, hx]
        rw [hstep] at hp
        rcases List.mem_append.mp hp with h | h
        · exact Or.inr ⟨m, inner, List.mem_cons_self _ _, hx, h⟩
        · rcases ih tpath p h with ⟨n2, c2, hm2, hf2, hp2⟩ | ⟨m2, in2, hm2, hx2, hp2⟩
          · exact Or.inl ⟨n2, c2, List.mem_cons_of_mem _ hm2, hf2, hp2⟩
          · exact Or.inr ⟨m2, in2, List.mem_cons_of_mem _ hm2, hx2, hp2⟩

/-- Under every oracle, every visible file target of the walk ends up in
the returned manifest or in the failure report: a failed entry is logged
and the walk continues with the next entry. -/
theorem rsync_accounts_fuel (o : Oracle) (exp : Name → Bool) (wo : Bool) :
    ∀ (N : Nat) (es : Entries) (tpath : Path), sizeOf es ≤ N →
      (∀ (d : FSTree) (p : Path), p ∈ fileTargets exp tpath es →
        p ∈ (rsyncDir o exp wo tpath es d).1 ∨
          p ∈ (rsyncDir o exp wo tpath es d).2.1) ∧
      (∀ (d : FSTree) (p : Path) (m : Name) (inner : Entries),
        (m, FSTree.dir inner) ∈ es → exp (m ++ "/") = false →
        p ∈ fileTargets exp (tpath ++ [m]) inner →
        p ∈ (rsyncSubs o exp wo tpath es d).1 ∨
          p ∈ (rsyncSubs o exp wo tpath es d).2.1) := by
  intro N
  induction N with
  | zero =>
    intro es tpath hsz
    have := sizeOf_pos_entries es
    omega
  | succ N ihN =>
    intro es tpath hsz
    have HS : ∀ (d : FSTree) (p : Path) (m : Name) (inner : Entries),
        (m, FSTree.dir inner) ∈ es → exp (m ++ "/") = false →
        p ∈ fileTargets exp (tpath ++ [m]) inner →
        p ∈ (rsyncSubs o exp wo tpath es d).1 ∨
          p ∈ (rsyncSubs o exp wo tpath es d).2.1 := by
      match es with
      | [] =>
        intro d p m inner hmem
        cases hmem
      | (m2, .file cm) :: es' =>
        have hlt := (sizeOf_cons_entries m2 (.file cm) es').1
        intro d p m inner hmem hx hp
        have hstep : rsyncSubs o exp wo tpath ((m2, FSTree.file cm) :: es') d =
            rsyncSubs o exp wo tpath es' d := by
          simp [rsyncSubs]
        rw [hstep]
        rcases List.mem_cons.mp hmem with heq | hmem2
        · injection heq with _ hu
          cases hu
        · exact (ihN es' tpath (by omega)).2 d p m inner hmem2 hx hp
      | (m2, .dir inner2) :: es' =>
        have hlt := (sizeOf_cons_entries m2 (.dir inner2) es').1
        have hlt2 := (sizeOf_cons_entries m2 (.dir inner2) es').2 inner2 rfl
        intro d p m inner hmem hx hp
        cases hx2 : exp (m2 ++ "/") with
        | true =>
          have hstep : rsyncSubs o exp wo tpath ((m2, FSTree.dir inner2) :: es') d =
              rsyncSubs o exp wo tpath es' d := by
            simp [rsyncSubs, hx2]
          rw [hstep]
          rcases List.mem_cons.mp hmem with heq | hmem2
          · exfalso
            injection heq with hm _
            rw [hm] at hx
            rw [hx] at hx2
            cases hx2
          · exact (ihN es' tpath (by omega)).2 d p m inner hmem2 hx hp
        | false =>
          have hstep : rsyncSubs o exp wo tpath ((m2, FSTree.dir inner2) :: es') d =
              (let r1 := rsyncDir o exp wo (tpath ++ [m2]) inner2 d
               let r2 := rsyncSubs o exp wo tpath es' r1.2.2
               (r1.1 ++ r2.1, r1.2.1 ++ r2.2.1, r2.2.2)) := by
            simp [rsyncSubs, hx2]
          rw [hstep]
          simp only []
          rcases List.mem_cons.mp hmem with heq | hmem2
          · injection heq with hm hu
            injection hu with hinner
            rw [hm, hinner] at hp
            rcases (ihN inner2 (tpath ++ [m2]) (by omega)).1 d p hp with h | h
            · exact Or.inl (List.mem_append.mpr (Or.inl h))
            · exact Or.inr (List.mem_append.mpr (Or.inl h))
          · rcases (ihN es' tpath (by omega)).2
                (rsyncDir o exp wo (tpath ++ [m2]) inner2 d).2.2 p m inner
                hmem2 hx hp with h | h
            · exact Or.inl (List.mem_append.mpr (Or.inr h))
            · exact Or.inr (List.mem_append.mpr (Or.inr h))
    constructor
    · intro d p hp
      have hman : (rsyncDir o exp wo tpath es d).1 =
          tpath :: ((filesPass o exp wo tpath es d).1 ++
            (rsyncSubs o exp wo tpath es (filesPass o exp wo tpath es d).2.2).1) := by
        simp [rsyncDir]
      have hrep : (rsyncDir o exp wo tpath es d).2.1 =
          (filesPass o exp wo tpath es d).2.1 ++
            (rsyncSubs o exp wo tpath es (filesPass o exp wo tpath es d).2.2).2.1 := by
        simp [rsyncDir]
      rcases fileTargets_origin exp es tpath p hp with
        ⟨n2, c2, hm2, hf2, hp2⟩ | ⟨m2, in2, hm2, hx2, hp2⟩
      · subst hp2
        rcases filesPass_accounts o exp wo tpath es d n2 c2 hm2 hf2 with h | h
        · rw [hman]
          exact Or.inl (List.mem_cons_of_mem _ (List.mem_append.mpr (Or.inl h)))
        · rw [hrep]
          exact Or.inr (List.mem_append.mpr (Or.inl h))
      · rcases HS (filesPass o exp wo tpath es d).2.2 p m2 in2 hm2 hx2 hp2 with h | h
        · rw [hman]
          exact Or.inl (List.mem_cons_of_mem _ (List.mem_append.mpr (Or.inr h)))
        · rw [hrep]
          exact Or.inr (List.mem_append.mpr (Or.inr h))
    · exact HS

/-- Every entry of the pruned listing keeps a name of the input listing
(the walk only removes or locally rewrites entries). -/
theorem pruneEntries_names (o : Oracle) (man : List Path) (exp : Name → Bool) :
    ∀ (es : Entries) (pp : Path) (e : Name × FSTree),
      e ∈ (pruneEntries o man exp pp es).1 → e.1 ∈ es.map Prod.fst := by
  intro es
  induction es with
  | nil =>
    intro pp e he
    simp [pruneEntries] at he
  | cons x es ih =>
    intro pp e he
    obtain ⟨m, u⟩ := x
    cases u with
    | file cm =>
      cases hst : (!(pmem (pp ++ [m]) man) && !(exp m)) with
      | true =>
        cases hfd : o.failDel (pp ++ [m]) with
        | true =>
          have hstep : pruneEntries o man exp pp ((m, FSTree.file cm) :: es) =
              ((m, FSTree.file cm) :: (pruneEntries o man exp pp es).1,
               (pp ++ [m]) :: (pruneEntries o man exp pp es).2) := by
            simp [pruneEntries, hst, hfd]
          rw [hstep] at he
          simp only [List.map_cons]
          rcases List.mem_cons.mp he with h | h
          · rw [h]
            exact List.mem_cons_self _ _
          · exact List.mem_cons_of_mem _ (ih pp e h)
        | false =>
          have hstep : pruneEntries o man exp pp ((m, FSTree.file cm) :: es) =
              pruneEntries o man exp pp es := by
            simp [pruneEntries, hst, hfd]
          rw [hstep] at he
          simp only [List.map_cons]
          exact List.mem_cons_of_mem _ (ih pp e he)
      | false =>
        have hstep : pruneEntries o man exp pp ((m, FSTree.file cm) :: es) =
            ((m, FSTree.file cm) :: (pruneEntries o man exp pp es).1,
             (pruneEntries o man exp pp es).2) := by
          simp [pruneEntries, hst]
        rw [hstep] at he
        simp only [List.map_cons]
        rcases List.mem_cons.mp he with h | h
        · rw [h]
          exact List.mem_cons_self _ _
        · exact List.mem_cons_of_mem _ (ih pp e h)
    | dir inner =>
      cases hst : (!(pmem (pp ++ [m]) man) && !(exp m)) with
      | true =>
        cases hsd : staleDelete o (pp ++ [m]) inner with
        | mk opt rep =>
          cases opt with
          | none =>
            have hstep : pruneEntries o man exp pp ((m, FSTree.dir inner) :: es) =
                ((pruneEntries o man exp pp es).1,
                 rep ++ (pruneEntries o man exp pp es).2) := by
              simp [pruneEntries, hst, hsd]
            rw [hstep] at he
            simp only [List.map_cons]
            exact List.mem_cons_of_mem _ (ih pp e he)
          | some rem =>
            have hstep : pruneEntries o man exp pp ((m, FSTree.dir inner) :: es) =
                ((m, FSTree.dir rem) :: (pruneEntries o man exp pp es).1,
                 rep ++ (pruneEntries o man exp pp es).2) := by
              simp [pruneEntries, hst, hsd]
            rw [hstep] at he
            simp only [List.map_cons]
            rcases List.mem_cons.mp he with h | h
            · rw [h]
              exact List.mem_cons_self _ _
            · exact List.mem_cons_of_mem _ (ih pp e h)
      | false =>
        have hstep : pruneEntries o man exp pp ((m, FSTree.dir inner) :: es) =
            ((m, FSTree.dir (pruneEntries o man exp (pp ++ [m]) inner).1) ::
               (pruneEntries o man exp pp es).1,
             (pruneEntries o man exp (pp ++ [m]) inner).2 ++
               (pruneEntries o man exp pp es).2) := by
          simp [pruneEntries, hst]
        rw [hstep] at he
        simp only [List.map_cons]
        rcases List.mem_cons.mp he with h | h
        · rw [h]
          exact List.mem_cons_self _ _
        · exact List.mem_cons_of_mem _ (ih pp e h)

/-- A stale destination file is handled per entry under every oracle:
when its deletion fails it survives and its path is reported, when it
succeeds it is gone - independently of failures at the other entries. -/
theorem pruneEntries_file_accounts (o : Oracle) (man : List Path) (exp : Name → Bool) :
    ∀ (es : Entries) (pp : Path) (n : Name) (c : String),
      wfE es = true → (n, FSTree.file c) ∈ es →
      pmem (pp ++ [n]) man = false → exp n = false →
      (o.failDel (pp ++ [n]) = true →
        (n, FSTree.file c) ∈ (pruneEntries o man exp pp es).1 ∧
        (pp ++ [n]) ∈ (pruneEntries o man exp pp es).2) ∧
      (o.failDel (pp ++ [n]) = false →
        (n, FSTree.file c) ∉ (pruneEntries o man exp pp es).1) := by
  intro es
  induction es with
  | nil =>
    intro pp n c _ hmem _ _
    cases hmem
  | cons e es ih =>
    intro pp n c hwf hmem hpm hex
    obtain ⟨m, u⟩ := e
    obtain ⟨hnotin, hwfes, _⟩ := wfE_cons_parts hwf
    rcases List.mem_cons.mp hmem with heq | hmem2
    · injection heq with hm hu
      subst m
      rw [← hu]
      have hcond : (!(pmem (pp ++ [n]) man) && !(exp n)) = true := by
        simp [hpm, hex]
      constructor
      · intro hfd
        have hstep : pruneEntries o man exp pp ((n, FSTree.file c) :: es) =
            ((n, FSTree.file c) :: (pruneEntries o man exp pp es).1,
             (pp ++ [n]) :: (pruneEntries o man exp pp es).2) := by
          simp [pruneEntries, hcond, hfd]
        rw [hstep]
        exact ⟨List.mem_cons_self _ _, List.mem_cons_self _ _⟩
      · intro hfd
        have hstep : pruneEntries o man exp pp ((n, FSTree.file c) :: es) =
            pruneEntries o man exp pp es := by
          simp [pruneEntries, hcond, hfd]
        rw [hstep]
        intro hin
        exact contains_false_not_mem hnotin (pruneEntries_names o man exp es pp _ hin)
    · have hmn : m ≠ n := by
        intro hcon
        have hmm : n ∈ es.map Prod.fst :=
          List.mem_map.mpr ⟨(n, FSTree.file c), hmem2, rfl⟩
        rw [← hcon] at hmm
        exact contains_false_not_mem hnotin hmm
      have hih := ih pp n c hwfes hmem2 hpm hex
      cases u with
      | file cm =>
        cases hst : (!(pmem (pp ++ [m]) man) && !(exp m)) with
        | true =>
          cases hfd2 : o.failDel (pp ++ [m]) with
          | true =>
            have hstep : pruneEntries o man exp pp ((m, FSTree.file cm) :: es) =
                ((m, FSTree.file cm) :: (pruneEntries o man exp pp es).1,
                 (pp ++ [m]) :: (pruneEntries o man exp pp es).2) := by
              simp [pruneEntries, hst, hfd2]
            rw [hstep]
            constructor
            · intro hfd
              exact ⟨List.mem_cons_of_mem _ (hih.1 hfd).1,
                List.mem_cons_of_mem _ (hih.1 hfd).2⟩
            · intro hfd hin
              rcases List.mem_cons.mp hin with hh | hh
              · injection hh with hm2 _
                exact hmn hm2.symm
              · exact hih.2 hfd hh
          | false =>
            have hstep : pruneEntries o man exp pp ((m, FSTree.file cm) :: es) =
                pruneEntries o man exp pp es := by
              simp [pruneEntries, hst, hfd2]
            rw [hstep]
            exact hih
        | false =>
          have hstep : pruneEntries o man exp pp ((m, FSTree.file cm) :: es) =
              ((m, FSTree.file cm) :: (pruneEntries o man exp pp es).1,
               (pruneEntries o man exp pp es).2) := by
            simp [pruneEntries, hst]
          rw [hstep]
          constructor
          · intro hfd
            exact ⟨List.mem_cons_of_mem _ (hih.1 hfd).1, (hih.1 hfd).2⟩
          · intro hfd hin
            rcases List.mem_cons.mp hin with hh | hh
            · injection hh with hm2 _
              exact hmn hm2.symm
            · exact hih.2 hfd hh
      | dir inner =>
        cases hst : (!(pmem (pp ++ [m]) man) && !(exp m)) with
        | true =>
          cases hsd : staleDelete o (pp ++ [m]) inner with
          | mk opt rep =>
            cases opt with
            | none =>
              have hstep : pruneEntries o man exp pp ((m, FSTree.dir inner) :: es) =
                  ((pruneEntries o man exp pp es).1,
                   rep ++ (pruneEntries o man exp pp es).2) := by
                simp [pruneEntries, hst, hsd]
              rw [hstep]
              constructor
              · intro hfd
                exact ⟨(hih.1 hfd).1, List.mem_append.mpr (Or.inr (hih.1 hfd).2)⟩
              · intro hfd
                exact hih.2 hfd
            | some rem =>
              have hstep : pruneEntries o man exp pp ((m, FSTree.dir inner) :: es) =
                  ((m, FSTree.dir rem) :: (pruneEntries o man exp pp es).1,
                   rep ++ (pruneEntries o man exp pp es).2) := by
                simp [pruneEntries, hst, hsd]
              rw [hstep]
              constructor
              · intro hfd
                exact ⟨List.mem_cons_of_mem _ (hih.1 hfd).1,
                  List.mem_append.mpr (Or.inr (hih.1 hfd).2)⟩
              · intro hfd hin
                rcases List.mem_cons.mp hin with hh | hh
                · injection hh with hm2 hu2
                  cases hu2
                · exact hih.2 hfd hh
        | false =>
          have hstep : pruneEntries o man exp pp ((m, FSTree.dir inner) :: es) =
              ((m, FSTree.dir (pruneEntries o man exp (pp ++ [m]) inner).1) ::
                 (pruneEntries o man exp pp es).1,
               (pruneEntries o man exp (pp ++ [m]) inner).2 ++
                 (pruneEntries o man exp pp es).2) := by
            simp [pruneEntries, hst]
          rw [hstep]
          constructor
          · intro hfd
            exact ⟨List.mem_cons_of_mem _ (hih.1 hfd).1,
              List.mem_append.mpr (Or.inr (hih.1 hfd).2)⟩
          · intro hfd hin
            rcases List.mem_cons.mp hin with hh | hh
            · injection hh with hm2 hu2
              cases hu2
            · exact hih.2 hfd hh

theorem kindAt_none_iff {p : Path} {d : FSTree} :
    kindAt p d = none ↔ lookupT p d = none := by
  cases h : lookupT p d with
  | none => simp [kindAt, h]
  | some u => cases u <;> simp [kindAt, h]

theorem kindAt_eq_map (p : Path) (t : FSTree) :
    kindAt p t = (viewAt p t).map (fun nd => match nd with
      | Node.file _ => true
      | Node.dir => false) := by
  rw [viewAt_eq_map]
  cases h : lookupT p t with
  | none => simp [kindAt, h]
  | some u => cases u <;> simp [kindAt, h, nodeOf]

theorem kindAt_congr_view {p : Path} {a b : FSTree}
    (h : viewAt p a = viewAt p b) : kindAt p a = kindAt p b := by
  rw [kindAt_eq_map, kindAt_eq_map, h]

theorem kindAt_of_view_file {p : Path} {d : FSTree} {c : String}
    (h : viewAt p d = some (.file c)) : kindAt p d = some true := by
  rw [viewAt_file_iff] at h
  simp [kindAt, h]

theorem kind_eq_lookup_none {p : Path} {dT dF : FSTree}
    (h : kindAt p dT = kindAt p dF) :
    lookupT p dT = none ↔ lookupT p dF = none := by
  constructor <;> intro h0
  · have h1 : kindAt p dT = none := kindAt_none_iff.mpr h0
    rw [h] at h1
    exact kindAt_none_iff.mp h1
  · have h1 : kindAt p dF = none := kindAt_none_iff.mpr h0
    rw [← h] at h1
    exact kindAt_none_iff.mp h1

/-- `os.makedirs` succeeds or fails identically on two destination trees
whose entry kinds agree along the target chain. -/
theorem dirsOrMissing_congr {q : Path} {dT dF : FSTree}
    (h : ∀ p, startsWithP p q = true → kindAt p dT = kindAt p dF) :
    dirsOrMissing q dT = dirsOrMissing q dF := by
  have key : ∀ (a b : FSTree),
      (∀ p, startsWithP p q = true → kindAt p a = kindAt p b) →
      dirsOrMissing q a = true → dirsOrMissing q b = true := by
    intro a b hab ha
    apply dirsOrMissing_of_views
    intro p hp c0 hcon
    have hk := kindAt_of_view_file hcon
    rw [← hab p hp] at hk
    rcases dirsOrMissing_prefix ha hp with h0 | h0
    · have hl : lookupT p a = none := by
        rw [viewAt_eq_map] at h0
        cases hl2 : lookupT p a with
        | none => rfl
        | some u =>
          rw [hl2] at h0
          simp at h0
      rw [kindAt_none_iff.mpr hl] at hk
      cases hk
    · obtain ⟨esx, hl⟩ := viewAt_dir_iff.mp h0
      have : kindAt p a = some false := by simp [kindAt, hl]
      rw [this] at hk
      simp at hk
  cases hT : dirsOrMissing q dT with
  | true => exact (key dT dF h hT).symm
  | false =>
    cases hF : dirsOrMissing q dF with
    | true =>
      have h2 := key dF dT (fun p hp => (h p hp).symm) hF
      rw [h2] at hT
      cases hT
    | false => rfl

/-- `shutil.copy2` into an existing target changes the kind of no path
other than the copied file's own destination path (an overwritten file
stays a file, the target directory stays a directory). -/
theorem copy2Model_kind_frame {tpath : Path} {m : Name} {cm : String} {d d2 : FSTree}
    (h : copy2Model tpath m cm d = some d2) (p : Path) (hp1 : p ≠ tpath ++ [m]) :
    kindAt p d2 = kindAt p d := by
  by_cases hp2 : p = tpath
  · subst hp2
    cases hlk : lookupT p d with
    | none => simp [copy2Model, hlk] at h
    | some u =>
      cases u with
      | dir es0 =>
        simp only [copy2Model, hlk] at h
        have hd2 : d2 = modifyDirAt p (fun es2 => setEntry es2 m (.file cm)) d := by
          cases hge : getEntry es0 m with
          | none =>
            simp only [hge] at h
            simp only [Option.some_inj] at h
            exact h.symm
          | some w =>
            cases w with
            | dir esx =>
              simp only [hge] at h
              simp at h
            | file cw =>
              simp only [hge] at h
              simp only [Option.some_inj] at h
              exact h.symm
        subst hd2
        simp [kindAt, modifyDirAt_lookup_self hlk, hlk]
      | file c0 =>
        simp only [copy2Model, hlk] at h
        simp only [Option.some_inj] at h
        rw [← h]
        simp [kindAt, setNodeAt_lookup_self hlk, hlk]
  · exact kindAt_congr_view (copy2Model_some_frame h p hp1 hp2)

/-- A walk-only per-file block never writes: the destination changes only
by the creation of missing chain directories. -/
theorem copyOne_walkonly_dironly (o : Oracle) (tpath : Path) (n : Name) (c : String)
    (d : FSTree) : ∀ p,
    viewAt p (copyOne o true tpath n c d).2.2 = viewAt p d ∨
      (viewAt p d = none ∧ viewAt p (copyOne o true tpath n c d).2.2 = some .dir) := by
  intro p
  cases hlk : lookupT tpath d with
  | some u =>
    have hout : (copyOne o true tpath n c d).2.2 = d := by simp [copyOne, hlk]
    rw [hout]
    exact Or.inl rfl
  | none =>
    cases hmf : o.failMk tpath with
    | true =>
      have hout : (copyOne o true tpath n c d).2.2 = d := by
        simp [copyOne, hlk, hmf]
      rw [hout]
      exact Or.inl rfl
    | false =>
      cases hmk : mkdirsT tpath d with
      | none =>
        have hout : (copyOne o true tpath n c d).2.2 = d := by
          simp [copyOne, hlk, hmf, hmk]
        rw [hout]
        exact Or.inl rfl
      | some d1 =>
        have hout : (copyOne o true tpath n c d).2.2 = d1 := by
          simp [copyOne, hlk, hmf, hmk]
        rw [hout]
        rcases mkdirs_effect hmk p with h | ⟨_, h1, h2⟩
        · exact Or.inl h
        · exact Or.inr ⟨h1, h2⟩

theorem dironly_trans {a b c : FSTree}
    (h1 : ∀ p, viewAt p b = viewAt p a ∨
      (viewAt p a = none ∧ viewAt p b = some .dir))
    (h2 : ∀ p, viewAt p c = viewAt p b ∨
      (viewAt p b = none ∧ viewAt p c = some .dir)) :
    ∀ p, viewAt p c = viewAt p a ∨
      (viewAt p a = none ∧ viewAt p c = some .dir) := by
  intro p
  rcases h1 p with h1 | ⟨ha, hb⟩
  · rcases h2 p with h2 | ⟨hb2, hc⟩
    · exact Or.inl (h2.trans h1)
    · refine Or.inr ⟨?_, hc⟩
      rw [← h1]
      exact hb2
  · rcases h2 p with h2 | ⟨hb2, hc⟩
    · exact Or.inr ⟨ha, h2.trans hb⟩
    · rw [hb] at hb2
      cases hb2

/-- The per-file block makes the same manifest decision in walk-only and
normal mode on two destination trees whose kinds agree outside the
already-written positions `W`, and preserves that agreement off the
file's own destination path: the `makedirs` on line 261, the existence
test on line 259 and the append on line 263 run identically in both
modes, only the `copy2` on line 266 is skipped. -/
theorem copyOne_parallel (o : Oracle) (tpath : Path) (n : Name) (c : String)
    (dT dF : FSTree) (W : Path → Prop)
    (hWt : ∀ q, startsWithP q tpath = true → ¬ W q)
    (hagree : ∀ p, ¬ W p → kindAt p dT = kindAt p dF) :
    (copyOne o true tpath n c dT).1 = (copyOne o false tpath n c dF).1 ∧
    (∀ p, ¬ W p → p ≠ tpath ++ [n] →
      kindAt p (copyOne o true tpath n c dT).2.2 =
        kindAt p (copyOne o false tpath n c dF).2.2) := by
  have hkt : kindAt tpath dT = kindAt tpath dF :=
    hagree tpath (hWt tpath (swp_refl tpath))
  cases hlkT : lookupT tpath dT with
  | some uT =>
    cases hlkF2 : lookupT tpath dF with
    | none =>
      rw [(kind_eq_lookup_none hkt).mpr hlkF2] at hlkT
      cases hlkT
    | some uF =>
      have hTout : copyOne o true tpath n c dT = ([tpath ++ [n]], [], dT) := by
        simp [copyOne, hlkT]
      cases hfc : o.failCopy (tpath ++ [n]) with
      | true =>
        have hFout : copyOne o false tpath n c dF =
            ([tpath ++ [n]], [tpath ++ [n]], dF) := by
          simp [copyOne, hlkF2, hfc]
        rw [hTout, hFout]
        exact ⟨rfl, fun p hW _ => hagree p hW⟩
      | false =>
        cases h2 : copy2Model tpath n c dF with
        | none =>
          have hFout : copyOne o false tpath n c dF =
              ([tpath ++ [n]], [tpath ++ [n]], dF) := by
            simp [copyOne, hlkF2, hfc, h2]
          rw [hTout, hFout]
          exact ⟨rfl, fun p hW _ => hagree p hW⟩
        | some d2 =>
          have hFout : copyOne o false tpath n c dF = ([tpath ++ [n]], [], d2) := by
            simp [copyOne, hlkF2, hfc, h2]
          rw [hTout, hFout]
          refine ⟨rfl, fun p hW hpn => ?_⟩
          show kindAt p dT = kindAt p d2
          rw [hagree p hW]
          exact (copy2Model_kind_frame h2 p hpn).symm
  | none =>
    have hlkF : lookupT tpath dF = none := (kind_eq_lookup_none hkt).mp hlkT
    cases hmf : o.failMk tpath with
    | true =>
      have hTout : copyOne o true tpath n c dT = ([], [tpath ++ [n]], dT) := by
        simp [copyOne, hlkT, hmf]
      have hFout : copyOne o false tpath n c dF = ([], [tpath ++ [n]], dF) := by
        simp [copyOne, hlkF, hmf]
      rw [hTout, hFout]
      exact ⟨rfl, fun p hW _ => hagree p hW⟩
    | false =>
      have hdm : dirsOrMissing tpath dT = dirsOrMissing tpath dF :=
        dirsOrMissing_congr (fun p hp => hagree p (hWt p hp))
      cases hmkT : mkdirsT tpath dT with
      | none =>
        have hT0 : dirsOrMissing tpath dT = false := by
          have h1 := mkdirsT_isSome tpath dT
          rw [hmkT] at h1
          simpa using h1.symm
        have hF0 : dirsOrMissing tpath dF = false := by
          rw [← hdm]
          exact hT0
        have hmkF : mkdirsT tpath dF = none := by
          have h2 := mkdirsT_isSome tpath dF
          rw [hF0] at h2
          cases hmkF2 : mkdirsT tpath dF with
          | none => rfl
          | some d1 =>
            rw [hmkF2] at h2
            simp at h2
        have hTout : copyOne o true tpath n c dT = ([], [tpath ++ [n]], dT) := by
          simp [copyOne, hlkT, hmf, hmkT]
        have hFout : copyOne o false tpath n c dF = ([], [tpath ++ [n]], dF) := by
          simp [copyOne, hlkF, hmf, hmkF]
        rw [hTout, hFout]
        exact ⟨rfl, fun p hW _ => hagree p hW⟩
      | some d1T =>
        have hT1 : dirsOrMissing tpath dT = true := by
          have h1 := mkdirsT_isSome tpath dT
          rw [hmkT] at h1
          simpa using h1.symm
        have hF1 : dirsOrMissing tpath dF = true := by
          rw [← hdm]
          exact hT1
        have hmkFex : ∃ d1F, mkdirsT tpath dF = some d1F := by
          have h2 := mkdirsT_isSome tpath dF
          rw [hF1] at h2
          cases hmkF2 : mkdirsT tpath dF with
          | none =>
            rw [hmkF2] at h2
            simp at h2
          | some d1 => exact ⟨d1, rfl⟩
        obtain ⟨d1F, hmkF⟩ := hmkFex
        have hagree1 : ∀ p, ¬ W p → kindAt p d1T = kindAt p d1F := by
          intro p hW
          by_cases hp : startsWithP p tpath = true
          · have hTc := mkdirsT_chain hmkT hp
            have hFc := mkdirsT_chain hmkF hp
            rw [kindAt_eq_map, kindAt_eq_map, hTc, hFc]
          · have hpf : startsWithP p tpath = false := by
              cases hq : startsWithP p tpath with
              | false => rfl
              | true => exact absurd hq hp
            rcases mkdirs_effect hmkT p with hT | ⟨hs, _, _⟩
            · rcases mkdirs_effect hmkF p with hF | ⟨hs, _, _⟩
              · rw [kindAt_congr_view hT, kindAt_congr_view hF]
                exact hagree p hW
              · rw [hpf] at hs
                cases hs
            · rw [hpf] at hs
              cases hs
        have hTout : copyOne o true tpath n c dT = ([tpath ++ [n]], [], d1T) := by
          simp [copyOne, hlkT, hmf, hmkT]
        cases hfc : o.failCopy (tpath ++ [n]) with
        | true =>
          have hFout : copyOne o false tpath n c dF =
              ([tpath ++ [n]], [tpath ++ [n]], d1F) := by
            simp [copyOne, hlkF, hmf, hmkF, hfc]
          rw [hTout, hFout]
          exact ⟨rfl, fun p hW _ => hagree1 p hW⟩
        | false =>
          cases h2 : copy2Model tpath n c d1F with
          | none =>
            have hFout : copyOne o false tpath n c dF =
                ([tpath ++ [n]], [tpath ++ [n]], d1F) := by
              simp [copyOne, hlkF, hmf, hmkF, hfc, h2]
            rw [hTout, hFout]
            exact ⟨rfl, fun p hW _ => hagree1 p hW⟩
          | some d2 =>
            have hFout : copyOne o false tpath n c dF = ([tpath ++ [n]], [], d2) := by
              simp [copyOne, hlkF, hmf, hmkF, hfc, h2]
            rw [hTout, hFout]
            refine ⟨rfl, fun p hW hpn => ?_⟩
            show kindAt p d1T = kindAt p d2
            rw [hagree1 p hW]
            exact (copy2Model_kind_frame h2 p hpn).symm

theorem sizeOf_mem_dir : ∀ {es : Entries} {m : Name} {inner : Entries},
    (m, FSTree.dir inner) ∈ es → sizeOf inner < sizeOf es := by
  intro es
  induction es with
  | nil =>
    intro m inner h
    cases h
  | cons e es ih =>
    intro m inner h
    obtain ⟨m2, u2⟩ := e
    rcases List.mem_cons.mp h with heq | h2
    · injection heq with hm hu
      exact (sizeOf_cons_entries m2 u2 es).2 inner hu.symm
    · have h3 := ih h2
      have h4 := (sizeOf_cons_entries m2 u2 es).1
      omega

theorem dirTargets_origin (exp : Name → Bool) :
    ∀ (es : Entries) (tpath : Path) (q : Path), q ∈ dirTargets exp tpath es →
      q = tpath ∨ ∃ m inner, (m, FSTree.dir inner) ∈ es ∧ exp (m ++ "/") = false ∧
        q ∈ dirTargets exp (tpath ++ [m]) inner := by
  intro es
  induction es with
  | nil =>
    intro tpath q hq
    left
    have hstep : dirTargets exp tpath ([] : Entries) = [tpath] := by
      simp [dirTargets]
    rw [hstep] at hq
    simpa using hq
  | cons e es ih =>
    intro tpath q hq
    obtain ⟨m, u⟩ := e
    cases u with
    | file cm =>
      have hstep : dirTargets exp tpath ((m, FSTree.file cm) :: es) =
          dirTargets exp tpath es := by
        simp [dirTargets]
      rw [hstep] at hq
      rcases ih tpath q hq with h | ⟨m2, in2, hm2, hx2, hq2⟩
      · exact Or.inl h
      · exact Or.inr ⟨m2, in2, List.mem_cons_of_mem _ hm2, hx2, hq2⟩
    | dir inner =>
      cases hx : exp (m ++ "/") with
      | true =>
        have hstep : dirTargets exp tpath ((m, FSTree.dir inner) :: es) =
            dirTargets exp tpath es := by
          simp [dirTargets, hx]
        rw [hstep] at hq
        rcases ih tpath q hq with h | ⟨m2, in2, hm2, hx2, hq2⟩
        · exact Or.inl h
        · exact Or.inr ⟨m2, in2, List.mem_cons_of_mem _ hm2, hx2, hq2⟩
      | false =>
        have hstep : dirTargets exp tpath ((m, FSTree.dir inner) :: es) =
            dirTargets exp (tpath ++ [m]) inner ++ dirTargets exp tpath es := by
          simp [dirTargets, hx]
        rw [hstep] at hq
        rcases List.mem_append.mp hq with h | h
        · exact Or.inr ⟨m, inner, List.mem_cons_self _ _, hx, h⟩
        · rcases ih tpath q h with h2 | ⟨m2, in2, hm2, hx2, hq2⟩
          · exact Or.inl h2
          · exact Or.inr ⟨m2, in2, List.mem_cons_of_mem _ hm2, hx2, hq2⟩

theorem dirTargets_shape (exp : Name → Bool) :
    ∀ (N : Nat) (es : Entries) (tpath : Path), sizeOf es ≤ N →
      ∀ q, q ∈ dirTargets exp tpath es → ∃ w, q = tpath ++ w := by
  intro N
  induction N with
  | zero =>
    intro es tpath h
    have := sizeOf_pos_entries es
    omega
  | succ N ihN =>
    intro es tpath hsz q hq
    rcases dirTargets_origin exp es tpath q hq with h | ⟨m, inner, hm, hx, hq2⟩
    · exact ⟨[], by simp [h]⟩
    · have hlt := sizeOf_mem_dir hm
      obtain ⟨w, hw⟩ := ihN inner (tpath ++ [m]) (by omega) q hq2
      exact ⟨m :: w, by simp [hw]⟩

theorem fileTargets_shape (exp : Name → Bool) :
    ∀ (N : Nat) (es : Entries) (tpath : Path), sizeOf es ≤ N →
      ∀ p, p ∈ fileTargets exp tpath es → ∃ a w, p = tpath ++ a :: w := by
  intro N
  induction N with
  | zero =>
    intro es tpath h
    have := sizeOf_pos_entries es
    omega
  | succ N ihN =>
    intro es tpath hsz p hp
    rcases fileTargets_origin exp es tpath p hp with
      ⟨n, c, _, _, hpe⟩ | ⟨m, inner, hm, _, hp2⟩
    · exact ⟨n, [], hpe⟩
    · have hlt := sizeOf_mem_dir hm
      obtain ⟨a, w, hw⟩ := ihN inner (tpath ++ [m]) (by omega) p hp2
      exact ⟨m, a :: w, by simp [hw]⟩

/-- In a well-formed source tree, no visible file target is a prefix of
any visible directory target: the positions the copy phase writes files
to are never inspected by a later `makedirs` or target-existence test. -/
theorem targets_disjoint (exp : Name → Bool) :
    ∀ (N : Nat) (es : Entries) (tpath : Path), sizeOf es ≤ N → wfE es = true →
      ∀ p q, p ∈ fileTargets exp tpath es → q ∈ dirTargets exp tpath es →
        startsWithP p q = false := by
  intro N
  induction N with
  | zero =>
    intro es tpath h
    have := sizeOf_pos_entries es
    omega
  | succ N ihN =>
    intro es tpath hsz hwf p q hp hq
    rcases fileTargets_origin exp es tpath p hp with
      ⟨n, c, hnm, hf, hpe⟩ | ⟨m, inner, hmm, hx, hp2⟩
    · subst hpe
      rcases dirTargets_origin exp es tpath q hq with hqe | ⟨m2, in2, hm2, hx2, hq2⟩
      · rw [hqe]
        exact swp_snoc_self_false tpath n
      · obtain ⟨w, hw⟩ := dirTargets_shape exp (sizeOf in2) in2 (tpath ++ [m2])
          (le_refl _) q hq2
        have hnm2 : n ≠ m2 := by
          intro hcon
          have h1 := wfE_mem_getEntry hwf hnm
          have h2 := wfE_mem_getEntry hwf hm2
          rw [hcon] at h1
          rw [h1] at h2
          simp at h2
        rw [hw]
        have he : (tpath ++ [m2]) ++ w = tpath ++ m2 :: w := by simp
        rw [he]
        exact swp_cons_ne_false hnm2 tpath [] w
    · obtain ⟨a, wp, hpw⟩ := fileTargets_shape exp (sizeOf inner) inner
        (tpath ++ [m]) (le_refl _) p hp2
      rcases dirTargets_origin exp es tpath q hq with hqe | ⟨m2, in2, hm2, hx2, hq2⟩
      · rw [hqe, hpw]
        cases hsw : startsWithP ((tpath ++ [m]) ++ a :: wp) tpath with
        | false => rfl
        | true =>
          exfalso
          have hl := swp_le_length hsw
          simp only [List.length_append, List.length_cons] at hl
          omega
      · by_cases hmm2 : m = m2
        · subst m2
          have h1 := wfE_mem_getEntry hwf hmm
          have h2 := wfE_mem_getEntry hwf hm2
          rw [h1] at h2
          injection h2 with h3
          injection h3 with h4
          rw [← h4] at hq2
          have hwfin : wfE inner = true := wfE_mem_dir hwf hmm
          have hlt := sizeOf_mem_dir hmm
          exact ihN inner (tpath ++ [m]) (by omega) hwfin p q hp2 hq2
        · obtain ⟨wq, hqw⟩ := dirTargets_shape exp (sizeOf in2) in2 (tpath ++ [m2])
            (le_refl _) q hq2
          rw [hpw, hqw]
          have e1 : (tpath ++ [m]) ++ a :: wp = tpath ++ m :: (a :: wp) := by simp
          have e2 : (tpath ++ [m2]) ++ wq = tpath ++ m2 :: wq := by simp
          rw [e1, e2]
          exact swp_cons_ne_false hmm2 tpath (a :: wp) wq

theorem localTarget_mem (exp : Name → Bool) :
    ∀ (es : Entries) (tpath : Path) (n : Name) (c : String),
      (n, FSTree.file c) ∈ es → (!(exp n) || n == ".htaccess") = true →
      (tpath ++ [n]) ∈ fileTargets exp tpath es := by
  intro es
  induction es with
  | nil =>
    intro tpath n c h _
    cases h
  | cons e es ih =>
    intro tpath n c h hf
    obtain ⟨m, u⟩ := e
    rcases List.mem_cons.mp h with heq | h2
    · injection heq with hm hu
      subst m
      rw [← hu]
      have hstep : fileTargets exp tpath ((n, FSTree.file c) :: es) =
          (tpath ++ [n]) :: fileTargets exp tpath es := by
        simp [fileTargets, hf]
      rw [hstep]
      exact List.mem_cons_self _ _
    · cases u with
      | file cm =>
        by_cases hfm : (!(exp m) || m == ".htaccess") = true
        · have hstep : fileTargets exp tpath ((m, FSTree.file cm) :: es) =
              (tpath ++ [m]) :: fileTargets exp tpath es := by
            simp [fileTargets, hfm]
          rw [hstep]
          exact List.mem_cons_of_mem _ (ih tpath n c h2 hf)
        · have hstep : fileTargets exp tpath ((m, FSTree.file cm) :: es) =
              fileTargets exp tpath es := by
            simp [fileTargets, hfm]
          rw [hstep]
          exact ih tpath n c h2 hf
      | dir inner =>
        cases hx : exp (m ++ "/") with
        | true =>
          have hstep : fileTargets exp tpath ((m, FSTree.dir inner) :: es) =
              fileTargets exp tpath es := by
            simp [fileTargets, hx]
          rw [hstep]
          exact ih tpath n c h2 hf
        | false =>
          have hstep : fileTargets exp tpath ((m, FSTree.dir inner) :: es) =
              fileTargets exp (tpath ++ [m]) inner ++ fileTargets exp tpath es := by
            simp [fileTargets, hx]
          rw [hstep]
          exact List.mem_append.mpr (Or.inr (ih tpath n c h2 hf))

theorem fileTargets_sub_mem (exp : Name → Bool) :
    ∀ (es : Entries) (tpath : Path) (m : Name) (inner : Entries),
      (m, FSTree.dir inner) ∈ es → exp (m ++ "/") = false →
      ∀ p, p ∈ fileTargets exp (tpath ++ [m]) inner →
        p ∈ fileTargets exp tpath es := by
  intro es
  induction es with
  | nil =>
    intro tpath m inner h
    cases h
  | cons e es ih =>
    intro tpath m inner h hx p hp
    obtain ⟨m2, u2⟩ := e
    rcases List.mem_cons.mp h with heq | h2
    · injection heq with hm hu
      subst m2
      rw [← hu]
      have hstep : fileTargets exp tpath ((m, FSTree.dir inner) :: es) =
          fileTargets exp (tpath ++ [m]) inner ++ fileTargets exp tpath es := by
        simp [fileTargets, hx]
      rw [hstep]
      exact List.mem_append.mpr (Or.inl hp)
    · cases u2 with
      | file cm =>
        by_cases hfm : (!(exp m2) || m2 == ".htaccess") = true
        · have hstep : fileTargets exp tpath ((m2, FSTree.file cm) :: es) =
              (tpath ++ [m2]) :: fileTargets exp tpath es := by
            simp [fileTargets, hfm]
          rw [hstep]
          exact List.mem_cons_of_mem _ (ih tpath m inner h2 hx p hp)
        · have hstep : fileTargets exp tpath ((m2, FSTree.file cm) :: es) =
              fileTargets exp tpath es := by
            simp [fileTargets, hfm]
          rw [hstep]
          exact ih tpath m inner h2 hx p hp
      | dir inner2 =>
        cases hx2 : exp (m2 ++ "/") with
        | true =>
          have hstep : fileTargets exp tpath ((m2, FSTree.dir inner2) :: es) =
              fileTargets exp tpath es := by
            simp [fileTargets, hx2]
          rw [hstep]
          exact ih tpath m inner h2 hx p hp
        | false =>
          have hstep : fileTargets exp tpath ((m2, FSTree.dir inner2) :: es) =
              fileTargets exp (tpath ++ [m2]) inner2 ++ fileTargets exp tpath es := by
            simp [fileTargets, hx2]
          rw [hstep]
          exact List.mem_append.mpr (Or.inr (ih tpath m inner h2 hx p hp))

/-- The file loop makes the same manifest in walk-only and normal mode on
two destination trees whose kinds agree off `W`, and preserves kind
agreement off `W` and the loop's own written file positions. -/
theorem filesPass_parallel (o : Oracle) (exp : Name → Bool) (tpath : Path) :
    ∀ (es : Entries) (dT dF : FSTree) (W : Path → Prop),
      (∀ q, startsWithP q tpath = true → ¬ W q) →
      (∀ p, ¬ W p → kindAt p dT = kindAt p dF) →
      (filesPass o exp true tpath es dT).1 = (filesPass o exp false tpath es dF).1 ∧
      (∀ p, ¬ W p →
        (∀ n2 c2, (n2, FSTree.file c2) ∈ es →
          (!(exp n2) || n2 == ".htaccess") = true → p ≠ tpath ++ [n2]) →
        kindAt p (filesPass o exp true tpath es dT).2.2 =
          kindAt p (filesPass o exp false tpath es dF).2.2) := by
  intro es
  induction es with
  | nil =>
    intro dT dF W hWt hagree
    exact ⟨rfl, fun p hW _ => hagree p hW⟩
  | cons e es ih =>
    intro dT dF W hWt hagree
    obtain ⟨m, u⟩ := e
    cases u with
    | dir inner =>
      have h := ih dT dF W hWt hagree
      exact ⟨h.1, fun p hW hex =>
        h.2 p hW (fun n2 c2 hm2 hf2 => hex n2 c2 (List.mem_cons_of_mem _ hm2) hf2)⟩
    | file cm =>
      by_cases hf : (!(exp m) || m == ".htaccess") = true
      · have hstepT : filesPass o exp true tpath ((m, FSTree.file cm) :: es) dT =
            (let r1 := copyOne o true tpath m cm dT
             let r2 := filesPass o exp true tpath es r1.2.2
             (r1.1 ++ r2.1, r1.2.1 ++ r2.2.1, r2.2.2)) := by
          simp [filesPass, hf]
        have hstepF : filesPass o exp false tpath ((m, FSTree.file cm) :: es) dF =
            (let r1 := copyOne o false tpath m cm dF
             let r2 := filesPass o exp false tpath es r1.2.2
             (r1.1 ++ r2.1, r1.2.1 ++ r2.2.1, r2.2.2)) := by
          simp [filesPass, hf]
        rw [hstepT, hstepF]
        simp only []
        have hc := copyOne_parallel o tpath m cm dT dF W hWt hagree
        have hWt' : ∀ q, startsWithP q tpath = true →
            ¬ (W q ∨ q = tpath ++ [m]) := by
          intro q hq hcon
          rcases hcon with hcon | hcon
          · exact hWt q hq hcon
          · rw [hcon, swp_snoc_self_false] at hq
            cases hq
        have hagree' : ∀ p, ¬ (W p ∨ p = tpath ++ [m]) →
            kindAt p (copyOne o true tpath m cm dT).2.2 =
              kindAt p (copyOne o false tpath m cm dF).2.2 :=
          fun p hp => hc.2 p (fun h => hp (Or.inl h)) (fun h => hp (Or.inr h))
        have hrest := ih (copyOne o true tpath m cm dT).2.2
          (copyOne o false tpath m cm dF).2.2
          (fun p => W p ∨ p = tpath ++ [m]) hWt' hagree'
        constructor
        · rw [hc.1, hrest.1]
        · intro p hW hex
          apply hrest.2 p
          · intro hcon
            rcases hcon with hcon | hcon
            · exact hW hcon
            · exact hex m cm (List.mem_cons_self _ _) hf hcon
          · intro n2 c2 hm2 hf2
            exact hex n2 c2 (List.mem_cons_of_mem _ hm2) hf2
      · have hstepT : filesPass o exp true tpath ((m, FSTree.file cm) :: es) dT =
            filesPass o exp true tpath es dT := by
          simp [filesPass, hf]
        have hstepF : filesPass o exp false tpath ((m, FSTree.file cm) :: es) dF =
            filesPass o exp false tpath es dF := by
          simp [filesPass, hf]
        rw [hstepT, hstepF]
        have h := ih dT dF W hWt hagree
        exact ⟨h.1, fun p hW hex =>
          h.2 p hW (fun n2 c2 hm2 hf2 => hex n2 c2 (List.mem_cons_of_mem _ hm2) hf2)⟩

/-- The whole walk makes the same manifest in walk-only and normal mode
on two destination trees whose kinds agree off a set `W` of positions
disjoint from every directory-target chain, and preserves kind agreement
off `W` and the walk's file targets - for a well-formed source tree. -/
theorem rsync_parallel_fuel (o : Oracle) (exp : Name → Bool) :
    ∀ (N : Nat) (es : Entries) (tpath : Path), sizeOf es ≤ N → wfE es = true →
      (∀ (dT dF : FSTree) (W : Path → Prop),
        (∀ p q, W p → q ∈ dirTargets exp tpath es → startsWithP p q = false) →
        (∀ p, ¬ W p → kindAt p dT = kindAt p dF) →
        (rsyncDir o exp true tpath es dT).1 =
          (rsyncDir o exp false tpath es dF).1 ∧
        (∀ p, ¬ W p → p ∉ fileTargets exp tpath es →
          kindAt p (rsyncDir o exp true tpath es dT).2.2 =
            kindAt p (rsyncDir o exp false tpath es dF).2.2)) ∧
      (∀ (dT dF : FSTree) (W : Path → Prop),
        (∀ p q, W p → q ∈ dirTargets exp tpath es → startsWithP p q = false) →
        (∀ p, ¬ W p → kindAt p dT = kindAt p dF) →
        (rsyncSubs o exp true tpath es dT).1 =
          (rsyncSubs o exp false tpath es dF).1 ∧
        (∀ p, ¬ W p → p ∉ fileTargets exp tpath es →
          kindAt p (rsyncSubs o exp true tpath es dT).2.2 =
            kindAt p (rsyncSubs o exp false tpath es dF).2.2)) := by
  intro N
  induction N with
  | zero =>
    intro es tpath hsz
    have := sizeOf_pos_entries es
    omega
  | succ N ihN =>
    intro es tpath hsz hwf
    have HS : ∀ (dT dF : FSTree) (W : Path → Prop),
        (∀ p q, W p → q ∈ dirTargets exp tpath es → startsWithP p q = false) →
        (∀ p, ¬ W p → kindAt p dT = kindAt p dF) →
        (rsyncSubs o exp true tpath es dT).1 =
          (rsyncSubs o exp false tpath es dF).1 ∧
        (∀ p, ¬ W p → p ∉ fileTargets exp tpath es →
          kindAt p (rsyncSubs o exp true tpath es dT).2.2 =
            kindAt p (rsyncSubs o exp false tpath es dF).2.2) := by
      match es with
      | [] =>
        intro dT dF W _ hagree
        have hstepT : rsyncSubs o exp true tpath ([] : Entries) dT =
            ([], [], dT) := by
          simp [rsyncSubs]
        have hstepF : rsyncSubs o exp false tpath ([] : Entries) dF =
            ([], [], dF) := by
          simp [rsyncSubs]
        rw [hstepT, hstepF]
        exact ⟨rfl, fun p hW _ => hagree p hW⟩
      | (m2, .file cm) :: es' =>
        intro dT dF W hdisj hagree
        have hlt := (sizeOf_cons_entries m2 (.file cm) es').1
        have hwf' := (wfE_cons_parts hwf).2.1
        have hstepT : rsyncSubs o exp true tpath ((m2, FSTree.file cm) :: es') dT =
            rsyncSubs o exp true tpath es' dT := by
          simp [rsyncSubs]
        have hstepF : rsyncSubs o exp false tpath ((m2, FSTree.file cm) :: es') dF =
            rsyncSubs o exp false tpath es' dF := by
          simp [rsyncSubs]
        have hdte : dirTargets exp tpath ((m2, FSTree.file cm) :: es') =
            dirTargets exp tpath es' := by
          simp [dirTargets]
        have hdisj' : ∀ p q, W p → q ∈ dirTargets exp tpath es' →
            startsWithP p q = false := by
          intro p q hp hq
          apply hdisj p q hp
          rw [hdte]
          exact hq
        have h := (ihN es' tpath (by omega) hwf').2 dT dF W hdisj' hagree
        rw [hstepT, hstepF]
        refine ⟨h.1, fun p hW hex => h.2 p hW ?_⟩
        intro hcon
        apply hex
        by_cases hfm : (!(exp m2) || m2 == ".htaccess") = true
        · have he : fileTargets exp tpath ((m2, FSTree.file cm) :: es') =
              (tpath ++ [m2]) :: fileTargets exp tpath es' := by
            simp [fileTargets, hfm]
          rw [he]
          exact List.mem_cons_of_mem _ hcon
        · have he : fileTargets exp tpath ((m2, FSTree.file cm) :: es') =
              fileTargets exp tpath es' := by
            simp [fileTargets, hfm]
          rw [he]
          exact hcon
      | (m2, .dir inner2) :: es' =>
        intro dT dF W hdisj hagree
        have hlt := (sizeOf_cons_entries m2 (.dir inner2) es').1
        have hlt2 := (sizeOf_cons_entries m2 (.dir inner2) es').2 inner2 rfl
        obtain ⟨hnotin, hwf', hdird⟩ := wfE_cons_parts hwf
        have hwfi : wfE inner2 = true := hdird inner2 rfl
        cases hx2 : exp (m2 ++ "/") with
        | true =>
          have hstepT : rsyncSubs o exp true tpath
              ((m2, FSTree.dir inner2) :: es') dT =
              rsyncSubs o exp true tpath es' dT := by
            simp [rsyncSubs, hx2]
          have hstepF : rsyncSubs o exp false tpath
              ((m2, FSTree.dir inner2) :: es') dF =
              rsyncSubs o exp false tpath es' dF := by
            simp [rsyncSubs, hx2]
          have hdte : dirTargets exp tpath ((m2, FSTree.dir inner2) :: es') =
              dirTargets exp tpath es' := by
            simp [dirTargets, hx2]
          have hfte : fileTargets exp tpath ((m2, FSTree.dir inner2) :: es') =
              fileTargets exp tpath es' := by
            simp [fileTargets, hx2]
          have hdisj' : ∀ p q, W p → q ∈ dirTargets exp tpath es' →
              startsWithP p q = false := by
            intro p q hp hq
            apply hdisj p q hp
            rw [hdte]
            exact hq
          have h := (ihN es' tpath (by omega) hwf').2 dT dF W hdisj' hagree
          rw [hstepT, hstepF]
          refine ⟨h.1, fun p hW hex => h.2 p hW ?_⟩
          rw [hfte] at hex
          exact hex
        | false =>
          have hstepT : rsyncSubs o exp true tpath
              ((m2, FSTree.dir inner2) :: es') dT =
              (let r1 := rsyncDir o exp true (tpath ++ [m2]) inner2 dT
               let r2 := rsyncSubs o exp true tpath es' r1.2.2
               (r1.1 ++ r2.1, r1.2.1 ++ r2.2.1, r2.2.2)) := by
            simp [rsyncSubs, hx2]
          have hstepF : rsyncSubs o exp false tpath
              ((m2, FSTree.dir inner2) :: es') dF =
              (let r1 := rsyncDir o exp false (tpath ++ [m2]) inner2 dF
               let r2 := rsyncSubs o exp false tpath es' r1.2.2
               (r1.1 ++ r2.1, r1.2.1 ++ r2.2.1, r2.2.2)) := by
            simp [rsyncSubs, hx2]
          have hdte : dirTargets exp tpath ((m2, FSTree.dir inner2) :: es') =
              dirTargets exp (tpath ++ [m2]) inner2 ++ dirTargets exp tpath es' := by
            simp [dirTargets, hx2]
          have hfte : fileTargets exp tpath ((m2, FSTree.dir inner2) :: es') =
              fileTargets exp (tpath ++ [m2]) inner2 ++
                fileTargets exp tpath es' := by
            simp [fileTargets, hx2]
          have hdisjSub : ∀ p q, W p → q ∈ dirTargets exp (tpath ++ [m2]) inner2 →
              startsWithP p q = false := by
            intro p q hp hq
            apply hdisj p q hp
            rw [hdte]
            exact List.mem_append.mpr (Or.inl hq)
          have hD := (ihN inner2 (tpath ++ [m2]) (by omega) hwfi).1 dT dF W
            hdisjSub hagree
          have hdisj2 : ∀ p q,
              (W p ∨ p ∈ fileTargets exp (tpath ++ [m2]) inner2) →
              q ∈ dirTargets exp tpath es' → startsWithP p q = false := by
            intro p q hp hq
            have hq2 : q ∈ dirTargets exp tpath ((m2, FSTree.dir inner2) :: es') := by
              rw [hdte]
              exact List.mem_append.mpr (Or.inr hq)
            rcases hp with hp | hp
            · exact hdisj p q hp hq2
            · have hpc : p ∈ fileTargets exp tpath
                  ((m2, FSTree.dir inner2) :: es') := by
                rw [hfte]
                exact List.mem_append.mpr (Or.inl hp)
              exact targets_disjoint exp (sizeOf ((m2, FSTree.dir inner2) :: es'))
                ((m2, FSTree.dir inner2) :: es') tpath (le_refl _) hwf p q hpc hq2
          have hagree2 : ∀ p,
              ¬ (W p ∨ p ∈ fileTargets exp (tpath ++ [m2]) inner2) →
              kindAt p (rsyncDir o exp true (tpath ++ [m2]) inner2 dT).2.2 =
                kindAt p (rsyncDir o exp false (tpath ++ [m2]) inner2 dF).2.2 :=
            fun p hp => hD.2 p (fun h => hp (Or.inl h)) (fun h => hp (Or.inr h))
          have hT := (ihN es' tpath (by omega) hwf').2
            (rsyncDir o exp true (tpath ++ [m2]) inner2 dT).2.2
            (rsyncDir o exp false (tpath ++ [m2]) inner2 dF).2.2
            (fun p => W p ∨ p ∈ fileTargets exp (tpath ++ [m2]) inner2)
            hdisj2 hagree2
          rw [hstepT, hstepF]
          simp only []
          constructor
          · rw [hD.1, hT.1]
          · intro p hW hex
            rw [hfte] at hex
            simp only [List.mem_append, not_or] at hex
            refine hT.2 p ?_ hex.2
            intro hcon
            rcases hcon with hcon | hcon
            · exact hW hcon
            · exact hex.1 hcon
    refine ⟨?_, HS⟩
    intro dT dF W hdisj hagree
    have hWt : ∀ q, startsWithP q tpath = true → ¬ W q := by
      intro q hq hWq
      have h0 := hdisj q tpath hWq (self_mem_dirTargets exp tpath es)
      rw [h0] at hq
      cases hq
    have hfp := filesPass_parallel o exp tpath es dT dF W hWt hagree
    have hdisj2 : ∀ p q, (W p ∨ ∃ n2 c2, (n2, FSTree.file c2) ∈ es ∧
        (!(exp n2) || n2 == ".htaccess") = true ∧ p = tpath ++ [n2]) →
        q ∈ dirTargets exp tpath es → startsWithP p q = false := by
      intro p q hp hq
      rcases hp with hp | ⟨n2, c2, hm2, hf2, hpe⟩
      · exact hdisj p q hp hq
      · rw [hpe]
        exact targets_disjoint exp (sizeOf es) es tpath (le_refl _) hwf _ q
          (localTarget_mem exp es tpath n2 c2 hm2 hf2) hq
    have hagree2 : ∀ p, ¬ (W p ∨ ∃ n2 c2, (n2, FSTree.file c2) ∈ es ∧
        (!(exp n2) || n2 == ".htaccess") = true ∧ p = tpath ++ [n2]) →
        kindAt p (filesPass o exp true tpath es dT).2.2 =
          kindAt p (filesPass o exp false tpath es dF).2.2 := by
      intro p hp
      exact hfp.2 p (fun h => hp (Or.inl h))
        (fun n2 c2 hm2 hf2 hcon => hp (Or.inr ⟨n2, c2, hm2, hf2, hcon⟩))
    have hsubs := HS (filesPass o exp true tpath es dT).2.2
      (filesPass o exp false tpath es dF).2.2
      (fun p => W p ∨ ∃ n2 c2, (n2, FSTree.file c2) ∈ es ∧
        (!(exp n2) || n2 == ".htaccess") = true ∧ p = tpath ++ [n2])
      hdisj2 hagree2
    have hmanT : (rsyncDir o exp true tpath es dT).1 =
        tpath :: ((filesPass o exp true tpath es dT).1 ++
          (rsyncSubs o exp true tpath es
            (filesPass o exp true tpath es dT).2.2).1) := by
      simp [rsyncDir]
    have hmanF : (rsyncDir o exp false tpath es dF).1 =
        tpath :: ((filesPass o exp false tpath es dF).1 ++
          (rsyncSubs o exp false tpath es
            (filesPass o exp false tpath es dF).2.2).1) := by
      simp [rsyncDir]
    have htreeT : (rsyncDir o exp true tpath es dT).2.2 =
        (rsyncSubs o exp true tpath es
          (filesPass o exp true tpath es dT).2.2).2.2 := by
      simp [rsyncDir]
    have htreeF : (rsyncDir o exp false tpath es dF).2.2 =
        (rsyncSubs o exp false tpath es
          (filesPass o exp false tpath es dF).2.2).2.2 := by
      simp [rsyncDir]
    constructor
    · rw [hmanT, hmanF, hfp.1, hsubs.1]
    · intro p hW hex
      rw [htreeT, htreeF]
      apply hsubs.2 p ?_ hex
      intro hcon
      rcases hcon with hcon | ⟨n2, c2, hm2, hf2, hpe⟩
      · exact hW hcon
      · apply hex
        rw [hpe]
        exact localTarget_mem exp es tpath n2 c2 hm2 hf2

theorem filesPass_walkonly_dironly (o : Oracle) (exp : Name → Bool) (tpath : Path) :
    ∀ (es : Entries) (d : FSTree) (p : Path),
      viewAt p (filesPass o exp true tpath es d).2.2 = viewAt p d ∨
        (viewAt p d = none ∧
          viewAt p (filesPass o exp true tpath es d).2.2 = some .dir) := by
  intro es
  induction es with
  | nil =>
    intro d p
    exact Or.inl rfl
  | cons e es ih =>
    intro d p
    obtain ⟨m, u⟩ := e
    cases u with
    | dir inner => exact ih d p
    | file cm =>
      by_cases hf : (!(exp m) || m == ".htaccess") = true
      · have hstep : (filesPass o exp true tpath ((m, FSTree.file cm) :: es) d).2.2 =
            (filesPass o exp true tpath es (copyOne o true tpath m cm d).2.2).2.2 := by
          simp [filesPass, hf]
        rw [hstep]
        exact dironly_trans (copyOne_walkonly_dironly o tpath m cm d)
          (fun p2 => ih (copyOne o true tpath m cm d).2.2 p2) p
      · have hstep : (filesPass o exp true tpath ((m, FSTree.file cm) :: es) d).2.2 =
            (filesPass o exp true tpath es d).2.2 := by
          simp [filesPass, hf]
        rw [hstep]
        exact ih d p

/-- A walk-only traversal's only filesystem effect is the creation of
missing chain directories. -/
theorem rsync_walkonly_dironly_fuel (o : Oracle) (exp : Name → Bool) :
    ∀ (N : Nat) (es : Entries) (tpath : Path), sizeOf es ≤ N →
      (∀ (d : FSTree) (p : Path),
        viewAt p (rsyncDir o exp true tpath es d).2.2 = viewAt p d ∨
          (viewAt p d = none ∧
            viewAt p (rsyncDir o exp true tpath es d).2.2 = some .dir)) ∧
      (∀ (d : FSTree) (p : Path),
        viewAt p (rsyncSubs o exp true tpath es d).2.2 = viewAt p d ∨
          (viewAt p d = none ∧
            viewAt p (rsyncSubs o exp true tpath es d).2.2 = some .dir)) := by
  intro N
  induction N with
  | zero =>
    intro es tpath hsz
    have := sizeOf_pos_entries es
    omega
  | succ N ihN =>
    intro es tpath hsz
    have HS : ∀ (d : FSTree) (p : Path),
        viewAt p (rsyncSubs o exp true tpath es d).2.2 = viewAt p d ∨
          (viewAt p d = none ∧
            viewAt p (rsyncSubs o exp true tpath es d).2.2 = some .dir) := by
      match es with
      | [] =>
        intro d p
        have hstep : rsyncSubs o exp true tpath ([] : Entries) d = ([], [], d) := by
          simp [rsyncSubs]
        rw [hstep]
        exact Or.inl rfl
      | (m2, .file cm) :: es' =>
        have hlt := (sizeOf_cons_entries m2 (.file cm) es').1
        intro d p
        have hstep : rsyncSubs o exp true tpath ((m2, FSTree.file cm) :: es') d =
            rsyncSubs o exp true tpath es' d := by
          simp [rsyncSubs]
        rw [hstep]
        exact (ihN es' tpath (by omega)).2 d p
      | (m2, .dir inner2) :: es' =>
        have hlt := (sizeOf_cons_entries m2 (.dir inner2) es').1
        have hlt2 := (sizeOf_cons_entries m2 (.dir inner2) es').2 inner2 rfl
        intro d p
        cases hx2 : exp (m2 ++ "/") with
        | true =>
          have hstep : rsyncSubs o exp true tpath
              ((m2, FSTree.dir inner2) :: es') d =
              rsyncSubs o exp true tpath es' d := by
            simp [rsyncSubs, hx2]
          rw [hstep]
          exact (ihN es' tpath (by omega)).2 d p
        | false =>
          have hstep : (rsyncSubs o exp true tpath
              ((m2, FSTree.dir inner2) :: es') d).2.2 =
              (rsyncSubs o exp true tpath es'
                (rsyncDir o exp true (tpath ++ [m2]) inner2 d).2.2).2.2 := by
            simp [rsyncSubs, hx2]
          rw [hstep]
          exact dironly_trans
            (fun p2 => (ihN inner2 (tpath ++ [m2]) (by omega)).1 d p2)
            (fun p2 => (ihN es' tpath (by omega)).2
              (rsyncDir o exp true (tpath ++ [m2]) inner2 d).2.2 p2) p
    refine ⟨?_, HS⟩
    intro d p
    have htree : (rsyncDir o exp true tpath es d).2.2 =
        (rsyncSubs o exp true tpath es
          (filesPass o exp true tpath es d).2.2).2.2 := by
      simp [rsyncDir]
    rw [htree]
    exact dironly_trans
      (fun p2 => filesPass_walkonly_dironly o exp tpath es d p2)
      (fun p2 => HS (filesPass o exp true tpath es d).2.2 p2) p

/-- `syncRun` with its let-bindings expanded: the prune walk runs on the
entries of the mirrored tree against the merged manifest. -/
theorem syncRun_eq (o : Oracle) (exp : Name → Bool) (roots : List (Bool × Entries))
    (destE : Entries) : syncRun o exp roots destE =
    ((pruneEntries o (mirror o exp roots (.dir destE)).1 exp []
        (entriesOf (mirror o exp roots (.dir destE)).2.2)).1,
     (mirror o exp roots (.dir destE)).1,
     (mirror o exp roots (.dir destE)).2.1 ++
       (pruneEntries o (mirror o exp roots (.dir destE)).1 exp []
         (entriesOf (mirror o exp roots (.dir destE)).2.2)).2) := rfl

/-- C1 scenario, mirror phase: an empty source root only records the
destination root in the manifest and leaves the tree untouched. -/
theorem c1_mirror_eval : mirror noFail builtinMatch [(false, [])]
      (.dir [(".git", FSTree.dir [("config", FSTree.file "x")])])
    = ([([] : Path)], [], .dir [(".git", FSTree.dir [("config", FSTree.file "x")])]) := by
  simp [mirror, rsyncDir, rsyncSubs, filesPass]

/-- C1 scenario, prune phase: the excluded `.git` is kept but descended
into, and the stale `config` inside it is deleted. -/
theorem c1_prune_eval : pruneEntries noFail [([] : Path)] builtinMatch []
      [(".git", FSTree.dir [("config", FSTree.file "x")])]
    = ([(".git", FSTree.dir [])], []) := by
  simp [pruneEntries, pmem, noFail, builtinMatch]

theorem c1_run_u1 : (syncRun noFail builtinMatch [(false, [])]
    [(".git", FSTree.dir [("config", FSTree.file "x")])]).1 =
    (pruneEntries noFail
      (mirror noFail builtinMatch [(false, [])]
        (.dir [(".git", FSTree.dir [("config", FSTree.file "x")])])).1
      builtinMatch []
      (entriesOf (mirror noFail builtinMatch [(false, [])]
        (.dir [(".git", FSTree.dir [("config", FSTree.file "x")])])).2.2)).1 := by
  rw [syncRun_eq]

theorem c1_run_u2 : (pruneEntries noFail
      (mirror noFail builtinMatch [(false, [])]
        (.dir [(".git", FSTree.dir [("config", FSTree.file "x")])])).1
      builtinMatch []
      (entriesOf (mirror noFail builtinMatch [(false, [])]
        (.dir [(".git", FSTree.dir [("config", FSTree.file "x")])])).2.2)).1 =
    (pruneEntries noFail [([] : Path)] builtinMatch []
      (entriesOf (FSTree.dir [(".git", FSTree.dir [("config", FSTree.file "x")])]))).1 := by
  rw [c1_mirror_eval]

theorem c1_run_u3 : (pruneEntries noFail [([] : Path)] builtinMatch []
      (entriesOf (FSTree.dir [(".git", FSTree.dir [("config", FSTree.file "x")])]))).1 =
    (pruneEntries noFail [([] : Path)] builtinMatch []
      [(".git", FSTree.dir [("config", FSTree.file "x")])]).1 := rfl

theorem c1_run_u4 : (pruneEntries noFail [([] : Path)] builtinMatch []
      [(".git", FSTree.dir [("config", FSTree.file "x")])]).1 = [(".git", FSTree.dir [])] := by
  rw [c1_prune_eval]

/-- C1 scenario, whole run: the destination afterwards holds an emptied
`.git`. -/
theorem c1_tree_eval : (syncRun noFail builtinMatch [(false, [])]
    [(".git", FSTree.dir [("config", FSTree.file "x")])]).1 = [(".git", FSTree.dir [])] :=
  c1_run_u1.trans ((c1_run_u2.trans c1_run_u3).trans c1_run_u4)

/-- C5 scenario: a walk-only pass over `d/f` against an empty
destination creates directory `d` (and records `d` and `d/f`), copying
nothing. -/
theorem c5_run_eval : rsyncDir noFail builtinMatch true []
      [("d", FSTree.dir [("f", FSTree.file "c")])] (.dir [])
    = ([[], ["d"], ["d", "f"]], [], .dir [("d", FSTree.dir [])]) := by
  simp [rsyncDir, rsyncSubs, filesPass, copyOne, copy2Model, lookupT, mkdirsT,
    modifyDirAt, setEntry, getEntry, noFail, builtinMatch]

/-- C6 scenario, mirror phase: the matcher accepting exactly `build/`
skips the whole source subtree, so only the destination root is
recorded. -/
theorem c6_mirror_eval : mirror noFail (fun s => s == "build/")
      [(false, [("build", FSTree.dir [("o", FSTree.file "x")])])]
      (.dir [("build", FSTree.dir [("keep", FSTree.file "y")])])
    = ([([] : Path)], [], .dir [("build", FSTree.dir [("keep", FSTree.file "y")])]) := by
  simp [mirror, rsyncDir, rsyncSubs, filesPass]

/-- C6 scenario, prune phase: the bare basename `build` does not match,
so the destination directory is stale and fully deleted. -/
theorem c6_prune_eval : pruneEntries noFail [([] : Path)] (fun s => s == "build/") []
      [("build", FSTree.dir [("keep", FSTree.file "y")])]
    = ([], []) := by
  simp [pruneEntries, staleDelete, delTree, pmem, noFail]

theorem c6_run_u1 : (syncRun noFail (fun s => s == "build/")
      [(false, [("build", FSTree.dir [("o", FSTree.file "x")])])]
      [("build", FSTree.dir [("keep", FSTree.file "y")])]).1 =
    (pruneEntries noFail
      (mirror noFail (fun s => s == "build/")
        [(false, [("build", FSTree.dir [("o", FSTree.file "x")])])]
        (.dir [("build", FSTree.dir [("keep", FSTree.file "y")])])).1
      (fun s => s == "build/") []
      (entriesOf (mirror noFail (fun s => s == "build/")
        [(false, [("build", FSTree.dir [("o", FSTree.file "x")])])]
        (.dir [("build", FSTree.dir [("keep", FSTree.file "y")])])).2.2)).1 := by
  rw [syncRun_eq]

theorem c6_run_u2 : (pruneEntries noFail
      (mirror noFail (fun s => s == "build/")
        [(false, [("build", FSTree.dir [("o", FSTree.file "x")])])]
        (.dir [("build", FSTree.dir [("keep", FSTree.file "y")])])).1
      (fun s => s == "build/") []
      (entriesOf (mirror noFail (fun s => s == "build/")
        [(false, [("build", FSTree.dir [("o", FSTree.file "x")])])]
        (.dir [("build", FSTree.dir [("keep", FSTree.file "y")])])).2.2)).1 =
    (pruneEntries noFail [([] : Path)] (fun s => s == "build/") []
      (entriesOf (FSTree.dir [("build", FSTree.dir [("keep", FSTree.file "y")])]))).1 := by
  rw [c6_mirror_eval]

theorem c6_run_u3 : (pruneEntries noFail [([] : Path)] (fun s => s == "build/") []
      (entriesOf (FSTree.dir [("build", FSTree.dir [("keep", FSTree.file "y")])]))).1 =
    (pruneEntries noFail [([] : Path)] (fun s => s == "build/") []
      [("build", FSTree.dir [("keep", FSTree.file "y")])]).1 := rfl

theorem c6_run_u4 : (pruneEntries noFail [([] : Path)] (fun s => s == "build/") []
      [("build", FSTree.dir [("keep", FSTree.file "y")])]).1 = [] := by
  rw [c6_prune_eval]

/-- C6 scenario, whole run: the destination afterwards is empty. -/
theorem c6_tree_eval : (syncRun noFail (fun s => s == "build/")
      [(false, [("build", FSTree.dir [("o", FSTree.file "x")])])]
      [("build", FSTree.dir [("keep", FSTree.file "y")])]).1 = [] :=
  c6_run_u1.trans ((c6_run_u2.trans c6_run_u3).trans c6_run_u4)

/-! ## Claim theorems -/

/-- C1 (code-bug evaluation): the claim says a destination entry whose
name matches the exclusion matcher is never deleted, never copied over
and never descended into, so all of its contents survive a run - the
spec's own scenario keeps `.git/config` untouched, matching the replaced
`rsync --delete --exclude=.*` command, under which exclusions protect
receiver files from deletion.  The prune walk however removes only
*deleted* subdirectories from `subdirnames` (lines 313-315), so
`os.walk` still descends into the kept excluded directory `.git` and
line 320-323 deletes its stale content: with an empty source root, a run
over a destination holding `.git/config` keeps `.git` but deletes
`.git/config`. -/
theorem C1_prune_deletes_inside_excluded_dir :
    builtinMatch ".git" = true ∧
    viewAt [".git", "config"]
      (.dir [(".git", FSTree.dir [("config", FSTree.file "x")])]) = some (.file "x") ∧
    viewAt [".git"]
      (.dir (syncRun noFail builtinMatch [(false, [])]
        [(".git", FSTree.dir [("config", FSTree.file "x")])]).1) = some .dir ∧
    viewAt [".git", "config"]
      (.dir (syncRun noFail builtinMatch [(false, [])]
        [(".git", FSTree.dir [("config", FSTree.file "x")])]).1) = none := by
  refine ⟨by decide, by decide, ?_, ?_⟩ <;> rw [c1_tree_eval] <;> decide

/-- C2: pruning completeness.  Any path present in the destination
before a run whose basename does not match the exclusion regex and which
does not correspond to a visible file or directory of any source root is
absent from the destination once the run (with no failing filesystem
calls) completes: its manifest membership is refuted through
`mirror_man_sub`, and the prune walk deletes it (`pruneGone`) whether
its ancestors are stale (deleted recursively with it), excluded (kept
but still descended into) or manifest-listed (descended into). -/
theorem C2_pruning_completeness (exp : Name → Bool) (roots : List (Bool × Entries))
    (destE : Entries) (p : Path) (_hpres : viewAt p (.dir destE) ≠ none)
    (hne : p ≠ []) (hexp : exp (lastName p) = false)
    (hsrc : srcTarget exp roots p = false) :
    viewAt p (.dir (syncRun noFail exp roots destE).1) = none := by
  have hman : pmem p (mirror noFail exp roots (.dir destE)).1 = false := by
    by_contra hcon
    have h1 : pmem p (mirror noFail exp roots (.dir destE)).1 = true := by
      revert hcon
      cases pmem p (mirror noFail exp roots (.dir destE)).1 <;> simp
    have h2 := mirror_man_sub noFail exp roots (.dir destE) p (pmem_iff.mp h1)
    rw [hsrc] at h2
    exact Bool.false_ne_true h2
  simp only [syncRun]
  exact pruneGone _ exp p [] _ hne hexp (by simpa using hman)

theorem C2_pruning_completeness_witness :
    viewAt ["old"]
      (.dir (syncRun noFail builtinMatch
        [(false, [("docs", FSTree.dir [("index.html", FSTree.file "A")])])]
        [("old", FSTree.dir [("page.html", FSTree.file "s")])]).1) = none :=
  C2_pruning_completeness builtinMatch
    [(false, [("docs", FSTree.dir [("index.html", FSTree.file "A")])])]
    [("old", FSTree.dir [("page.html", FSTree.file "s")])] ["old"]
    (by decide) (by decide) (by decide)
    (by simp [srcTarget, dirTargets, fileTargets, pmem, builtinMatch])

/-- C6 counterexample: the claim says directory names are matched with
an implicit trailing separator both when deciding descent in the copy
walk and when deciding skip-or-delete in the prune walk, so that
directory-only patterns behave the same in both phases.  With the
matcher that accepts exactly `build/` (a directory-only pattern), a
destination directory `build` matches with the separator appended, yet a
full run deletes it: line 294 tests the bare basename `build`, which
does not match, so the directory is treated as stale and pruned. -/
theorem C6_prune_matches_bare_name :
    ((fun s => s == "build/") ("build" ++ "/") = true) ∧
    viewAt ["build"]
      (.dir [("build", FSTree.dir [("keep", FSTree.file "y")])]) = some .dir ∧
    viewAt ["build"]
      (.dir (syncRun noFail (fun s => s == "build/")
        [(false, [("build", FSTree.dir [("o", FSTree.file "x")])])]
        [("build", FSTree.dir [("keep", FSTree.file "y")])]).1) = none := by
  refine ⟨by decide, by decide, ?_⟩
  rw [c6_tree_eval]
  decide

/-- C6 (amended): a directory name is matched with an implicit trailing
separator only when deciding whether to descend during the copy walk
(line 234); the prune walk matches the bare directory basename
(line 294).  Hence a directory-only pattern (one that matches `n ++ "/"`
but not `n`) makes the copy walk skip the whole source subtree, while
the prune walk still deletes a stale destination directory of that
name. -/
theorem C6_trailing_separator_amended (o : Oracle) (exp : Name → Bool) (wo : Bool)
    (tpath : Path) (n : Name) (inner es : Entries) (d : FSTree) (man : List Path)
    (pp : Path) (hcopy : exp (n ++ "/") = true) (hbare : exp n = false)
    (hman : pmem (pp ++ [n]) man = false) :
    rsyncSubs o exp wo tpath ((n, .dir inner) :: es) d =
      rsyncSubs o exp wo tpath es d ∧
    (pruneEntries noFail man exp pp ((n, .dir inner) :: es)).1 =
      (pruneEntries noFail man exp pp es).1 := by
  constructor
  · simp [rsyncSubs, hcopy]
  · simp [pruneEntries, hman, hbare, staleDelete_noFail]

theorem C6_trailing_separator_amended_witness :
    rsyncSubs noFail (fun s => s == "build/") false []
        [("build", FSTree.dir [("o", FSTree.file "x")])] (.dir []) =
      rsyncSubs noFail (fun s => s == "build/") false [] [] (.dir []) ∧
    (pruneEntries noFail [] (fun s => s == "build/") []
        [("build", FSTree.dir [("o", FSTree.file "x")])]).1 =
      (pruneEntries noFail [] (fun s => s == "build/") [] []).1 :=
  C6_trailing_separator_amended noFail (fun s => s == "build/") false []
    "build" _ [] (.dir []) [] [] (by decide) (by decide) (by decide)

/-- C7: with the ignore file absent or unreadable, `open` raises an
`IOError`, which the handler on line 203 catches and logs; compilation
continues and produces exactly the expression it would build with no
user ignore file at all - the built-in fragment, the cvs fragment when
`cvs-exclude` is set, and the translated `CVSIGNORE` environment
patterns - and no error reaches the caller.  (A *readable* ignore file
is outside this claim: line 199 calls `cvs.readall()`, which raises an
uncaught `AttributeError`; the model returns `.error` there.) -/
theorem C7_ignore_file_errors_nonfatal (translate : String → String) (cvsX : Bool)
    (ign : IgnoreFile) (env : List String)
    (h : ign = IgnoreFile.absent ∨ ign = IgnoreFile.unreadable) :
    compileExp translate cvsX ign env = compileExp translate cvsX .absent env ∧
    ∃ s, compileExp translate cvsX ign env = Except.ok s := by
  rcases h with h | h <;> subst h
  · exact ⟨rfl, by cases cvsX <;> exact ⟨_, rfl⟩⟩
  · constructor
    · cases cvsX <;> rfl
    · cases cvsX <;> exact ⟨_, rfl⟩

theorem C7_ignore_file_errors_nonfatal_witness :
    compileExp id true IgnoreFile.unreadable ["a"] =
      compileExp id true IgnoreFile.absent ["a"] ∧
    ∃ s, compileExp id true IgnoreFile.unreadable ["a"] = Except.ok s :=
  C7_ignore_file_errors_nonfatal id true IgnoreFile.unreadable ["a"] (Or.inr rfl)

/-- C10: when the per-file block reaches the copy itself (the target
directory exists - in particular whenever a pre-existing destination
file sits at the file's path - or `os.makedirs` just created it), the
destination path is appended to `copied_files` (line 263) before
`shutil.copy2` runs (line 266), so the path is in the returned manifest
no matter whether the copy fails; and the prune phase retains a
pre-existing destination file whose path (with its ancestors, which the
walk also appends) is in the manifest, under every failure oracle.  (A
`makedirs` failure, by contrast, aborts the block before the append;
no pre-existing file can sit at the path in that case, since the target
directory does not exist.) -/
theorem C10_manifest_precedes_copy :
    (∀ (o : Oracle) (wo : Bool) (tpath : Path) (n : Name) (c : String) (d : FSTree),
        lookupT tpath d ≠ none → (copyOne o wo tpath n c d).1 = [tpath ++ [n]]) ∧
    (∀ (tpath : Path) (n : Name) (d : FSTree) (c0 : String),
        viewAt (tpath ++ [n]) d = some (.file c0) → lookupT tpath d ≠ none) ∧
    (∀ (o : Oracle) (man : List Path) (exp : Name → Bool) (destE : Entries)
        (p : Path) (c0 : String), ancestorsMem man [] p = true →
        viewAt p (.dir destE) = some (.file c0) →
        viewAt p (.dir (pruneEntries o man exp [] destE).1) = some (.file c0)) := by
  refine ⟨?_, ?_, ?_⟩
  · intro o wo tpath n c d hlk
    cases hl : lookupT tpath d with
    | none => exact absurd hl hlk
    | some u =>
      cases wo with
      | true => simp [copyOne, hl]
      | false =>
        by_cases hfc : o.failCopy (tpath ++ [n]) = true
        · simp [copyOne, hl, hfc]
        · cases h2 : copy2Model tpath n c d with
          | some d2 => simp [copyOne, hl, hfc, h2]
          | none => simp [copyOne, hl, hfc, h2]
  · intro tpath n d c0 hv hnone
    rw [viewAt_eq_map, lookupT_append, hnone] at hv
    simp at hv
  · intro o man exp destE p c0 hanc hv
    exact pruneRetainFile o man exp p [] destE c0 hanc hv

theorem C10_manifest_precedes_copy_witness :
    (copyOne ⟨fun _ => false, fun _ => true, fun _ => false⟩ false [] "f" "new"
      (.dir [("f", FSTree.file "old")])).1 = [["f"]] ∧
    lookupT [] (FSTree.dir [("f", FSTree.file "old")]) ≠ none ∧
    viewAt ["f"]
      (.dir (pruneEntries ⟨fun _ => false, fun _ => true, fun _ => false⟩ [["f"]]
        builtinMatch [] [("f", FSTree.file "old")]).1) = some (.file "old") :=
  ⟨C10_manifest_precedes_copy.1 ⟨fun _ => false, fun _ => true, fun _ => false⟩
      false [] "f" "new" (.dir [("f", FSTree.file "old")]) (by simp [lookupT]),
   C10_manifest_precedes_copy.2.1 [] "f" (.dir [("f", FSTree.file "old")]) "old"
      (by decide),
   C10_manifest_precedes_copy.2.2 ⟨fun _ => false, fun _ => true, fun _ => false⟩
      [["f"]] builtinMatch [("f", FSTree.file "old")] ["f"] "old" (by decide)
      (by decide)⟩

/-- C5 counterexample: the claim says a walk-only traversal performs no
filesystem mutation at the destination, in particular that no directory
is created under the destination root.  But line 259-261 runs
`os.makedirs(target)` before the `walk_only` test (only the
`shutil.copy2` on line 266 is guarded by it), so a walk-only pass over a
root with a file in a subdirectory creates the missing destination
directory. -/
theorem C5_walkonly_creates_directory :
    viewAt ["d"] (FSTree.dir ([] : Entries)) = none ∧
    viewAt ["d"] (rsyncDir noFail builtinMatch true []
      [("d", FSTree.dir [("f", FSTree.file "c")])] (.dir [])).2.2 = some .dir := by
  refine ⟨by decide, ?_⟩
  rw [c5_run_eval]
  decide

/-- C4: a source file literally named `.htaccess`, reached by the copy
walk (its directory chain is visible), is copied to the destination and
recorded in the manifest, even when its name matches the exclusion
matcher - the filter on line 257 carries the explicit
`or f == '.htaccess'` escape hatch.  Stated for a failure-free run into
a destination whose target chain holds no clashing file and whose target
path is not a pre-existing directory. -/
theorem C4_htaccess_copied (exp : Name → Bool) (es : Entries) (sp : Path)
    (dest : FSTree) (c : String)
    (hexp : exp ".htaccess" = true)
    (hwf : wfE es = true)
    (hv : visibleFileAt exp sp ".htaccess" es = some c)
    (hdm : dirsOrMissing sp dest = true)
    (hnd : ∀ esx, lookupT (sp ++ [".htaccess"]) dest ≠ some (.dir esx)) :
    (sp ++ [".htaccess"]) ∈ (mirror noFail exp [(false, es)] dest).1 ∧
    lookupT (sp ++ [".htaccess"]) (mirror noFail exp [(false, es)] dest).2.2 =
      some (.file c) := by
  have h := rsync_copies exp sp [] es dest ".htaccess" c hwf hv
    (by simpa using hdm) (by simpa using hnd)
  simp only [List.nil_append] at h
  have hm : (mirror noFail exp [(false, es)] dest).1 =
      (rsyncDir noFail exp false [] es dest).1 := by
    simp [mirror]
  have ht : (mirror noFail exp [(false, es)] dest).2.2 =
      (rsyncDir noFail exp false [] es dest).2.2 := by
    simp [mirror]
  rw [hm, ht]
  exact ⟨h.1, h.2.1⟩

theorem C4_htaccess_copied_witness :
    (["docs", ".htaccess"] : Path) ∈ (mirror noFail builtinMatch
        [(false, [("docs", FSTree.dir [(".htaccess", FSTree.file "ht")])])]
        (.dir [])).1 ∧
    lookupT ["docs", ".htaccess"] (mirror noFail builtinMatch
        [(false, [("docs", FSTree.dir [(".htaccess", FSTree.file "ht")])])]
        (.dir [])).2.2 = some (.file "ht") :=
  C4_htaccess_copied builtinMatch
    [("docs", FSTree.dir [(".htaccess", FSTree.file "ht")])] ["docs"] (.dir []) "ht"
    (by simp [builtinMatch])
    (by simp [wfE])
    (by simp [visibleFileAt, getEntry, builtinMatch])
    (by simp [dirsOrMissing, getEntry])
    (by intro esx h; simp [lookupT, getEntry] at h)

/-- C3: when two roots are processed in order and both hold a visible
file at the same relative path, after the mirror phase the destination
holds the later root's content, and the merged manifest contains the
path (it enters once per root; here it is exhibited in the second root's
contribution).  Stated for a failure-free run into a destination whose
target chain holds no clashing file and whose target path is not a
pre-existing directory. -/
theorem C3_overwrite_priority (exp : Name → Bool) (es1 es2 : Entries) (sp : Path)
    (dest : FSTree) (n : Name) (c1 c2 : String)
    (hwf1 : wfE es1 = true) (hwf2 : wfE es2 = true)
    (hv1 : visibleFileAt exp sp n es1 = some c1)
    (hv2 : visibleFileAt exp sp n es2 = some c2)
    (hdm : dirsOrMissing sp dest = true)
    (hnd : ∀ esx, lookupT (sp ++ [n]) dest ≠ some (.dir esx)) :
    (sp ++ [n]) ∈ (mirror noFail exp [(false, es1), (false, es2)] dest).1 ∧
    lookupT (sp ++ [n]) (mirror noFail exp [(false, es1), (false, es2)] dest).2.2 =
      some (.file c2) := by
  have h1 := rsync_copies exp sp [] es1 dest n c1 hwf1 hv1
    (by simpa using hdm) (by simpa using hnd)
  simp only [List.nil_append] at h1
  have hdm1 : dirsOrMissing sp (rsyncDir noFail exp false [] es1 dest).2.2 = true := by
    apply dirsOrMissing_of_views
    intro p hp c0 hcon
    rw [h1.2.2 p hp] at hcon
    cases hcon
  have hnd1 : ∀ esx, lookupT (sp ++ [n])
      (rsyncDir noFail exp false [] es1 dest).2.2 ≠ some (.dir esx) := by
    intro esx hcon
    rw [h1.2.1] at hcon
    cases hcon
  have h2 := rsync_copies exp sp [] es2
    (rsyncDir noFail exp false [] es1 dest).2.2 n c2 hwf2 hv2
    (by simpa using hdm1) (by simpa using hnd1)
  simp only [List.nil_append] at h2
  have hm : (mirror noFail exp [(false, es1), (false, es2)] dest).1 =
      (rsyncDir noFail exp false [] es1 dest).1 ++
        (rsyncDir noFail exp false [] es2
          (rsyncDir noFail exp false [] es1 dest).2.2).1 := by
    simp [mirror]
  have ht : (mirror noFail exp [(false, es1), (false, es2)] dest).2.2 =
      (rsyncDir noFail exp false [] es2
        (rsyncDir noFail exp false [] es1 dest).2.2).2.2 := by
    simp [mirror]
  rw [hm, ht]
  exact ⟨List.mem_append.mpr (Or.inr h2.1), h2.2.1⟩

theorem C3_overwrite_priority_witness :
    (["a.html"] : Path) ∈ (mirror noFail builtinMatch
        [(false, [("a.html", FSTree.file "R1")]),
         (false, [("a.html", FSTree.file "R2")])] (.dir [])).1 ∧
    lookupT ["a.html"] (mirror noFail builtinMatch
        [(false, [("a.html", FSTree.file "R1")]),
         (false, [("a.html", FSTree.file "R2")])] (.dir [])).2.2 =
      some (.file "R2") :=
  C3_overwrite_priority builtinMatch [("a.html", FSTree.file "R1")]
    [("a.html", FSTree.file "R2")] [] (.dir []) "a.html" "R1" "R2"
    (by simp [wfE]) (by simp [wfE])
    (by simp [visibleFileAt, getEntry, builtinMatch])
    (by simp [visibleFileAt, getEntry, builtinMatch])
    (by rfl)
    (by intro esx h; simp [lookupT, getEntry] at h)

/-- C8: per-entry filesystem errors are non-fatal.  The run is total in
the failure oracle - every oracle yields a complete synchronization - and
each affected entry is logged while the walks continue with the remaining
entries: under every oracle every visible file target of a copy walk ends
up in the returned manifest or in the failure report (the `except` on
lines 269-271 turns both `makedirs` and `copy2` errors into a log entry),
and a stale destination file is removed when its deletion succeeds and is
retained-and-reported when it fails (the `try` on lines 321-325),
independently of failures at the other entries. -/
theorem C8_per_entry_errors_nonfatal (o : Oracle) (exp : Name → Bool) (wo : Bool) :
    (∀ (tpath : Path) (es : Entries) (d : FSTree) (p : Path),
        p ∈ fileTargets exp tpath es →
        p ∈ (rsyncDir o exp wo tpath es d).1 ∨
          p ∈ (rsyncDir o exp wo tpath es d).2.1) ∧
    (∀ (man : List Path) (pp : Path) (es : Entries) (n : Name) (c : String),
        wfE es = true → (n, FSTree.file c) ∈ es →
        pmem (pp ++ [n]) man = false → exp n = false →
        (o.failDel (pp ++ [n]) = true →
          (n, FSTree.file c) ∈ (pruneEntries o man exp pp es).1 ∧
          (pp ++ [n]) ∈ (pruneEntries o man exp pp es).2) ∧
        (o.failDel (pp ++ [n]) = false →
          (n, FSTree.file c) ∉ (pruneEntries o man exp pp es).1)) := by
  constructor
  · intro tpath es d p hp
    exact (rsync_accounts_fuel o exp wo (sizeOf es) es tpath (le_refl _)).1 d p hp
  · intro man pp es n c hwf hmem hpm hex
    exact pruneEntries_file_accounts o man exp es pp n c hwf hmem hpm hex

theorem C8_per_entry_errors_nonfatal_witness :
    ((["a.html"] : Path) ∈ (rsyncDir
        ⟨fun _ => false, fun p => decide (p = ["a.html"]),
          fun p => decide (p = ["stale.html"])⟩
        builtinMatch false [] [("a.html", FSTree.file "c1")] (.dir [])).1 ∨
      (["a.html"] : Path) ∈ (rsyncDir
        ⟨fun _ => false, fun p => decide (p = ["a.html"]),
          fun p => decide (p = ["stale.html"])⟩
        builtinMatch false [] [("a.html", FSTree.file "c1")] (.dir [])).2.1) ∧
    (("stale.html", FSTree.file "x") ∈ (pruneEntries
        ⟨fun _ => false, fun p => decide (p = ["a.html"]),
          fun p => decide (p = ["stale.html"])⟩
        [] builtinMatch [] [("stale.html", FSTree.file "x")]).1 ∧
      (["stale.html"] : Path) ∈ (pruneEntries
        ⟨fun _ => false, fun p => decide (p = ["a.html"]),
          fun p => decide (p = ["stale.html"])⟩
        [] builtinMatch [] [("stale.html", FSTree.file "x")]).2) := by
  have h := C8_per_entry_errors_nonfatal
    ⟨fun _ => false, fun p => decide (p = ["a.html"]),
      fun p => decide (p = ["stale.html"])⟩ builtinMatch false
  refine ⟨h.1 [] [("a.html", FSTree.file "c1")] (.dir []) ["a.html"] ?_,
    (h.2 [] [] [("stale.html", FSTree.file "x")] "stale.html" "x"
      ?_ ?_ ?_ ?_).1 ?_⟩
  · simp [fileTargets, builtinMatch]
  · simp [wfE]
  · simp
  · simp [pmem]
  · simp [builtinMatch]
  · simp

/-- C5 (amended): a walk-only traversal of a well-formed source root
returns exactly the destination-path manifest a normal traversal of the
same root from the same destination state would return - under every
failure oracle - and it writes no file: its only filesystem effect is
creating missing destination chain directories (`os.makedirs` on
line 261 runs before the `walk_only` test on line 264; only the
`shutil.copy2` of line 266 is skipped). -/
theorem C5_walkonly_amended (o : Oracle) (exp : Name → Bool) (es : Entries)
    (tpath : Path) (d : FSTree) (hwf : wfE es = true) :
    (rsyncDir o exp true tpath es d).1 = (rsyncDir o exp false tpath es d).1 ∧
    (∀ p, viewAt p (rsyncDir o exp true tpath es d).2.2 = viewAt p d ∨
      (viewAt p d = none ∧
        viewAt p (rsyncDir o exp true tpath es d).2.2 = some .dir)) := by
  constructor
  · exact ((rsync_parallel_fuel o exp (sizeOf es) es tpath (le_refl _) hwf).1 d d
      (fun _ => False) (fun p q hp _ => hp.elim) (fun p _ => rfl)).1
  · exact (rsync_walkonly_dironly_fuel o exp (sizeOf es) es tpath (le_refl _)).1 d

theorem C5_walkonly_amended_witness :
    ((rsyncDir noFail builtinMatch true []
        [("d", FSTree.dir [("f", FSTree.file "c")])] (.dir [])).1 =
      (rsyncDir noFail builtinMatch false []
        [("d", FSTree.dir [("f", FSTree.file "c")])] (.dir [])).1) ∧
    (∀ p, viewAt p (rsyncDir noFail builtinMatch true []
        [("d", FSTree.dir [("f", FSTree.file "c")])] (.dir [])).2.2 =
          viewAt p (FSTree.dir []) ∨
      (viewAt p (FSTree.dir []) = none ∧
        viewAt p (rsyncDir noFail builtinMatch true []
          [("d", FSTree.dir [("f", FSTree.file "c")])] (.dir [])).2.2 =
            some .dir)) :=
  C5_walkonly_amended noFail builtinMatch
    [("d", FSTree.dir [("f", FSTree.file "c")])] [] (.dir []) (by simp [wfE])

end Markdoc
